import Mathlib

/-!
Shallow embedding of the dupler content-index engine
(`src/dupler/model.py`, `src/dupler/filemanager.py`, `src/dupler/main.py`).

The relational store is modelled as lists of rows in table order
(insertion order); SQL `DELETE ... WHERE` becomes `List.filter`,
`UPDATE ... WHERE id = x` becomes `List.map` guarded on the id, and
`INSERT` appends.  Autoincrement primary keys are modelled by explicit
counters.  SQL three-valued `NOT IN` semantics (a `NULL` in the compared
list means the predicate is never definitely true) are modelled
explicitly by `notInTrue`.  Content hashes (SHA-256 digests) are
abstracted to `Nat` values; hashing a file is modelled by an explicit
hash oracle passed as a function argument.  Paths are modelled as lists
of components (the root-relative path `"."` is `[]`).
-/

namespace Dupler

/-- Result of `os.lstat` / `os.fstat`: the fields the engine reads
(`st_mode`, `st_dev`, `st_ino`, `st_size`, `st_mtime`). -/
structure Stat where
  mode : Nat
  dev : Nat
  ino : Nat
  size : Nat
  mtime : Nat
deriving DecidableEq, Repr

/-- Python `stat.S_ISREG`: the file-type bits of `st_mode` equal `S_IFREG`. -/
def S_ISREG (mode : Nat) : Bool :=
  mode &&& 0o170000 == 0o100000

/-- Source `FileManager.oid_of`: the content-object identity string
built from device and inode number. -/
def oid_of (st : Stat) : String :=
  toString st.dev ++ ":" ++ toString st.ino

/-- Row of the `directories` table (`model.Directory`).  `path` is the
root-relative path as a component list (`[]` stands for `"."`). -/
structure DirRow where
  id : Nat
  path : List String
  parent_id : Option Nat
deriving DecidableEq, Repr

/-- Row of the `objects` table (`model.Object`).  The digest is
abstracted to a `Nat`. -/
structure ObjRow where
  id : String
  size : Nat
  modified : Nat
  hash : Option Nat
deriving DecidableEq, Repr

/-- Row of the `files` table (`model.File`). -/
structure FileRow where
  id : Nat
  path_id : Nat
  name : String
  type : Nat
  object_id : Option String
deriving DecidableEq, Repr

/-- The persistent store: the three tables in row (insertion) order plus
the autoincrement counters for the two integer primary keys. -/
structure DB where
  dirs : List DirRow
  files : List FileRow
  objects : List ObjRow
  nextDir : Nat
  nextFile : Nat
deriving DecidableEq, Repr

/-- SQL three-valued semantics of `x NOT IN ys` where both sides may be
`NULL` (`none`): the result is definitely TRUE only when every element
compares definitely unequal; any `NULL` on either side of a comparison
yields UNKNOWN, which is not TRUE, so the row is not deleted.  An empty
`ys` makes the predicate TRUE even for `x = NULL`. -/
def notInTrue {α : Type} [DecidableEq α] (x : Option α) (ys : List (Option α)) : Bool :=
  ys.all (fun y =>
    match x, y with
    | some a, some b => a != b
    | _, _ => false)

/-- One pass of the loop body of `FileManager.delete_dangled_directories`:
`DELETE FROM directories WHERE parent_id NOT IN (SELECT id FROM directories)`,
the subquery evaluated against the pre-delete table snapshot. -/
def dirPass (dirs : List DirRow) : List DirRow :=
  let ids := dirs.map (fun d => some d.id)
  dirs.filter (fun d => !(notInTrue d.parent_id ids))

/-- Fuelled form of the `while True` loop of
`FileManager.delete_dangled_directories`: repeat `dirPass` until a pass
deletes zero rows. -/
def dirLoop : Nat → List DirRow → List DirRow
  | 0, ds => ds
  | fuel + 1, ds =>
    let ds2 := dirPass ds
    if ds2.length = ds.length then ds else dirLoop fuel ds2

/-- Source `FileManager.delete_dangled_directories`: loop deleting
directories whose `parent_id` references no existing directory until a
pass deletes nothing.  `|dirs|` passes always suffice since every
repeated pass strictly shrinks the table. -/
def delete_dangled_directories (db : DB) : DB :=
  { db with dirs := dirLoop db.dirs.length db.dirs }

/-- Source `FileManager.delete_dangled_files`: first delete files whose
`object_id` is NOT IN the object ids, then delete files whose `path_id`
is NOT IN the directory ids (two sequential bulk DELETE statements). -/
def delete_dangled_files (db : DB) : DB :=
  let oids := db.objects.map (fun o => some o.id)
  let files1 := db.files.filter (fun f => !(notInTrue f.object_id oids))
  let dids := db.dirs.map (fun d => some d.id)
  let files2 := files1.filter (fun f => !(notInTrue (some f.path_id) dids))
  { db with files := files2 }

/-- Source `FileManager.delete_dangled_objects`: delete objects whose id
is NOT IN the (nullable!) `object_id` column of `files`. -/
def delete_dangled_objects (db : DB) : DB :=
  let refs := db.files.map (fun f => f.object_id)
  { db with objects := db.objects.filter (fun o => !(notInTrue (some o.id) refs)) }

/-- Source `main.collect_garbage` (the `gc` command): dangling
directories first, then dangling files, then dangling objects, then
commit. -/
def collect_garbage (db : DB) : DB :=
  delete_dangled_objects (delete_dangled_files (delete_dangled_directories db))

/-- Modelled from the spec: the garbage-collection order claimed in
spec section 4.5 — (1) delete ContentObject rows with no referencing
FileEntry, then (2) delete dangling FileEntry rows, then (3) repeatedly
delete dangling PathTree nodes.  Stated only to be compared with
`collect_garbage`, which the source builds in the opposite order. -/
def collect_garbage_spec_order (db : DB) : DB :=
  delete_dangled_directories (delete_dangled_files (delete_dangled_objects db))

/-- `Config.CONFIG_DIR`, the marker directory of a nested index. -/
def CONFIG_DIR : String := ".dupler"

/-- The relative-path string stored in the `path` column: Python's
`os.path.relpath` prints `"."` for the base directory itself and joins
the components with slashes otherwise. -/
def pathStr (p : List String) : String :=
  if p = [] then "." else String.intercalate "/" p

/-- ASCII case folding as SQLite `LIKE` applies it by default (only
`A`–`Z` fold; everything else compares verbatim). -/
def likeFold (c : Char) : Char :=
  if 'A' ≤ c ∧ c ≤ 'Z' then Char.ofNat (c.toNat + 32) else c

/-- Fuel-driven matcher for SQLite `LIKE`: `%` matches any (possibly
empty) character sequence, `_` matches exactly one character, and every
other pattern character matches one input character up to ASCII case
folding.  The fuel only makes the recursion structural; each step
consumes a pattern or an input character, so `sqlLike` always hands in
enough. -/
def likeMatchF : Nat → List Char → List Char → Bool
  | 0, _, _ => false
  | _ + 1, [], s => s.isEmpty
  | fuel + 1, '%' :: ps, s =>
    likeMatchF fuel ps s ||
      (match s with
       | [] => false
       | _ :: s1 => likeMatchF fuel ('%' :: ps) s1)
  | fuel + 1, '_' :: ps, s =>
    (match s with
     | [] => false
     | _ :: s1 => likeMatchF fuel ps s1)
  | fuel + 1, pc :: ps, s =>
    (match s with
     | [] => false
     | c :: s1 => likeFold pc == likeFold c && likeMatchF fuel ps s1)

/-- SQLite `LIKE` on strings (default settings, so ASCII
case-insensitive). -/
def sqlLike (pat s : String) : Bool :=
  likeMatchF (pat.length + s.length + 1) pat.data s.data

/-- Ids of the directories selected by the
`Directory.path.like(f"{dirname}%")` filter of
`FileManager.import_objects`, with SQL `LIKE` semantics on the stored
relative-path strings — so a one-component `dirname` such as `v` also
matches a sibling directory such as `victor` whose name merely extends
it textually, and matching folds ASCII case. -/
def importDirIds (db : DB) (dirname : List String) : List Nat :=
  (db.dirs.filter (fun d => sqlLike (pathStr dirname ++ "%") (pathStr d.path))).map
    (fun d => d.id)

/-- The `object_id` column (nulls included) of the files lying under
the subtree, as selected by `import_objects`. -/
def importRefIds (db : DB) (dirname : List String) : List (Option String) :=
  (db.files.filter (fun f => (importDirIds db dirname).contains f.path_id)).map
    (fun f => f.object_id)

/-- Source `FileManager.import_objects`: collect the `object_id` column
(nulls included) of files under the subtree, copy every nested-store
object whose id is NOT IN that set, field by field.  When the count is
zero the method returns early with the store untouched. -/
def import_objects (db : DB) (nested : List ObjRow) (dirname : List String) : DB :=
  let object_ids := importRefIds db dirname
  let toImport := nested.filter (fun o => notInTrue (some o.id) object_ids)
  if toImport.length = 0 then db
  else
    { db with
      objects := db.objects ++ toImport.map (fun o =>
        { id := o.id, size := o.size, modified := o.modified, hash := o.hash }) }

/-- Source `FileManager.ensure_object`.  The optional hash supplier
`get_hash` is modelled by the digest it would return; `obj` is the
caller-supplied candidate row (`db_file.object`).  Non-regular stats
yield no object.  A new identity is inserted (hashed only when a
supplier is given); an existing row is rewritten when size or
modified time differ or its hash is null, the new hash being the
supplier's value or null.  Commits are identities in this pure model.
`resolveObj` is the candidate-or-lookup step at the head of the
method. -/
def resolveObj (db : DB) (oid : String) (obj : Option ObjRow) : Option ObjRow :=
  match obj with
  | some o => if o.id = oid then some o else db.objects.find? (fun x => x.id = oid)
  | none => db.objects.find? (fun x => x.id = oid)

/-- Source `FileManager.ensure_object` (continued): the main body. -/
def ensure_object (db : DB) (st : Stat) (get_hash : Option Nat := none)
    (obj : Option ObjRow := none) : DB × Option ObjRow :=
  if !(S_ISREG st.mode) then (db, none)
  else
    match resolveObj db (oid_of st) obj with
    | none =>
      ({ db with objects := db.objects ++
          [{ id := oid_of st, modified := st.mtime, size := st.size, hash := get_hash }] },
       some { id := oid_of st, modified := st.mtime, size := st.size, hash := get_hash })
    | some o =>
      if o.modified ≠ st.mtime ∨ o.size ≠ st.size ∨ o.hash = none then
        ({ db with objects := db.objects.map (fun x => if x.id = o.id then
            { x with modified := st.mtime, size := st.size, hash := get_hash } else x) },
         some { o with modified := st.mtime, size := st.size, hash := get_hash })
      else (db, some o)

/-- Source `FileManager.update_file`: rewrite the file row's `object_id`
only when it differs. -/
def update_file (db : DB) (f : FileRow) (object_id : Option String) : DB :=
  if f.object_id = object_id then db
  else { db with files := db.files.map (fun x => if x.id = f.id then
      { x with object_id := object_id } else x) }

/-- Path of a file row as in `File.get_path`: the directory path joined
with the name (the root directory path `[]` plays `"."`). -/
def file_path (db : DB) (f : FileRow) : List String :=
  match db.dirs.find? (fun d => d.id = f.path_id) with
  | some d => d.path ++ [f.name]
  | none => [f.name]

/-- Stable insertion of `x` into `ys`: `x` goes after every element `y`
with `le y x`, so sorting with it keeps the underlying order on ties. -/
def insortBy {α : Type} (le : α → α → Bool) (x : α) : List α → List α
  | [] => [x]
  | y :: ys => if le y x then y :: insortBy le x ys else x :: y :: ys

/-- Stable sort modelling SQL `ORDER BY`: ties keep table order. -/
def sortBy {α : Type} (le : α → α → Bool) (xs : List α) : List α :=
  xs.foldl (fun acc x => insortBy le x acc) []

/-- SQLite ascending ordering on the nullable `hash` column: NULLs sort
first. -/
def optLe (x y : Option Nat) : Bool :=
  match x, y with
  | none, _ => true
  | some _, none => false
  | some a, some b => a ≤ b

/-- The `ORDER BY (Object.size, Object.hash)` key of `find_duplicates`,
comparing the joined object columns. -/
def pairLe (p q : FileRow × ObjRow) : Bool :=
  p.2.size < q.2.size || (p.2.size == q.2.size && optLe p.2.hash q.2.hash)

/-- Python dict insertion: append `f` to the group of `h`, creating the
group at the end on first occurrence (dict preserves insertion order). -/
def dupInsert (dups : List (Nat × List FileRow)) (h : Nat) (f : FileRow) :
    List (Nat × List FileRow) :=
  if dups.any (fun kv => kv.1 = h) then
    dups.map (fun kv => if kv.1 = h then (kv.1, kv.2 ++ [f]) else kv)
  else dups ++ [(h, [f])]

/-- The joined, size-filtered, ordered row set of the `find_duplicates`
query: `(File, Object)` pairs over `File.object_id = Object.id` whose
object size is shared by more than one object row, ordered by
`(size, hash)` with ties in table order. -/
def duplicateItems (db : DB) : List (FileRow × ObjRow) :=
  let pairs := db.files.filterMap (fun f =>
    f.object_id.bind (fun i =>
      (db.objects.find? (fun o => o.id = i)).map (fun o => (f, o))))
  let shared := pairs.filter (fun p =>
    (db.objects.filter (fun o => o.size = p.2.size)).length > 1)
  sortBy pairLe shared

/-- Source `FileManager.find_duplicates`: run the size-shared query,
then walk the rows computing and persisting missing hashes through the
hash oracle `hashOfPath`, grouping files by hash in a dict, and finally
drop singleton groups.  Returns the updated store and the group list in
dict insertion order.  `findDupStep` is the loop body: the hash is
re-read from the store (the ORM synchronizes updated rows), computed
through the oracle and persisted when null, and the file is appended to
its hash group. -/
def findDupStep (hashOfPath : List String → Nat)
    (acc : DB × List (Nat × List FileRow)) (p : FileRow × ObjRow) :
    DB × List (Nat × List FileRow) :=
  match (match acc.1.objects.find? (fun x => x.id = p.2.id) with
         | some o2 => o2.hash
         | none => p.2.hash) with
  | some h => (acc.1, dupInsert acc.2 h p.1)
  | none =>
    ({ acc.1 with objects := acc.1.objects.map (fun x =>
        if x.id = p.2.id then { x with hash := some (hashOfPath (file_path acc.1 p.1)) }
        else x) },
     dupInsert acc.2 (hashOfPath (file_path acc.1 p.1)) p.1)

/-- Source `FileManager.find_duplicates` (continued): run the loop over
the query rows starting from an empty dict, then drop singleton
groups. -/
def find_duplicates (hashOfPath : List String → Nat) (db : DB) :
    DB × List (Nat × List FileRow) :=
  (((duplicateItems db).foldl (findDupStep hashOfPath) (db, [])).1,
   ((duplicateItems db).foldl (findDupStep hashOfPath) (db, [])).2.filter
     (fun kv => kv.2.length > 1))

/-- Source `FileManager.get_directory`: first row whose `path` matches
(unique by the table constraint). -/
def get_directory (db : DB) (path : List String) : Option DirRow :=
  db.dirs.find? (fun d => d.path = path)

/-- Source `FileManager.ensure_directory`: return the existing row or
insert a new one linked to the given parent. -/
def ensure_directory (db : DB) (path : List String) (parent : Option DirRow) :
    DB × DirRow :=
  match get_directory db path with
  | some d => (db, d)
  | none =>
    let d : DirRow := { id := db.nextDir, path := path,
                        parent_id := parent.map (fun p => p.id) }
    ({ db with dirs := db.dirs ++ [d], nextDir := db.nextDir + 1 }, d)

/-- One widening step of the ORM delete cascade: add the ids of
directories whose parent is already doomed. -/
def childClosureStep (dirs : List DirRow) (s : List Nat) : List Nat :=
  s ++ (dirs.filter (fun d =>
    !(s.contains d.id) &&
    (d.parent_id.map (fun q => s.contains q)).getD false)).map (fun d => d.id)

/-- Fuelled transitive closure of `childClosureStep`. -/
def childClosure : Nat → List DirRow → List Nat → List Nat
  | 0, _, s => s
  | n + 1, dirs, s => childClosure n dirs (childClosureStep dirs s)

/-- ORM `session.delete` on a directory with the `all, delete` cascades
of `model.Directory`: the row, all its descendant directories through
`parent_id`, and every file row of a deleted directory go. -/
def cascade_delete_directory (db : DB) (rootId : Nat) : DB :=
  let doomed := childClosure db.dirs.length db.dirs [rootId]
  { db with
    dirs := db.dirs.filter (fun d => !(doomed.contains d.id)),
    files := db.files.filter (fun f => !(doomed.contains f.path_id)) }

/-- Length of the longest common prefix of two component paths. -/
def commonLen : List String → List String → Nat
  | [], _ => 0
  | _, [] => 0
  | a :: as, b :: bs => if a = b then commonLen as bs + 1 else 0

/-- Component form of `os.path.relpath q p`. -/
def relpathComp (q p : List String) : List String :=
  let k := commonLen q p
  List.replicate (p.length - k) ".." ++ q.drop k

/-- Join path components back into the string `os.path.relpath`
returns, for the name-membership test of the child-deletion loop.
(For the empty relative path Python prints a dot; both forms are
distinct from every well-formed observed name.) -/
def joinPath (l : List String) : String :=
  String.intercalate "/" l

/-- Lexicographic comparison of character lists by code point. -/
def charsLt : List Char → List Char → Bool
  | [], [] => false
  | [], _ :: _ => true
  | _ :: _, [] => false
  | a :: as, b :: bs =>
    if a.toNat < b.toNat then true
    else if b.toNat < a.toNat then false
    else charsLt as bs

/-- Python string comparison (code-point lexicographic), also the
SQLite BINARY collation on names. -/
def strLtB (a b : String) : Bool :=
  charsLt a.data b.data

/-- Python string comparison for `files.sort()` and
`ORDER BY File.name`. -/
def nameLe (a b : String) : Bool :=
  !(strLtB b a)

/-- Stat of an observed name in a directory listing. -/
def statOf (fsFiles : List (String × Stat)) (n : String) : Stat :=
  (((fsFiles.find? (fun e => e.1 = n)).map (fun e => e.2))).getD
    { mode := 0, dev := 0, ino := 0, size := 0, mtime := 0 }

/-- The `db_file.object` relationship: the object row referenced by the
file's `object_id`, if any. -/
def objOf (db : DB) (f : FileRow) : Option ObjRow :=
  match f.object_id with
  | some i => db.objects.find? (fun o => o.id = i)
  | none => none

/-- Source `FileManager.scan_files`: load the directory's file rows
ordered by name; rows whose name is still observed are refreshed
through `ensure_object` (no hash supplier) and `update_file` and their
name is removed from the observed list, the others are deleted; the
names left over become new rows resolved through `ensure_object`.
`reconcileStep` is the loop body over the loaded rows: a still observed
name is refreshed and consumed, a gone name's row is deleted. -/
def reconcileStep (fsFiles : List (String × Stat)) (acc : DB × List String)
    (f : FileRow) : DB × List String :=
  if acc.2.contains f.name then
    (update_file (ensure_object acc.1 (statOf fsFiles f.name) none (objOf acc.1 f)).1 f
       ((ensure_object acc.1 (statOf fsFiles f.name) none (objOf acc.1 f)).2.map
         (fun o => o.id)),
     acc.2.erase f.name)
  else
    ({ acc.1 with files := acc.1.files.filter (fun x => x.id ≠ f.id) }, acc.2)

/-- Second loop body of `FileManager.scan_files`: a leftover observed
name becomes a new file row resolved through `ensure_object`. -/
def addFileStep (dirId : Nat) (fsFiles : List (String × Stat)) (db : DB)
    (n : String) : DB :=
  { (ensure_object db (statOf fsFiles n)).1 with
    files := (ensure_object db (statOf fsFiles n)).1.files ++
      [{ id := db.nextFile, path_id := dirId, name := n, type := (statOf fsFiles n).mode,
         object_id := (ensure_object db (statOf fsFiles n)).2.map (fun o => o.id) }],
    nextFile := db.nextFile + 1 }

/-- The directory's file rows as loaded by `scan_files`
(`ORDER BY File.name`). -/
def dbFilesOf (db : DB) (dirId : Nat) : List FileRow :=
  sortBy (fun a b => nameLe a.name b.name)
    (db.files.filter (fun f => f.path_id = dirId))

/-- Source `FileManager.scan_files` (continued): run the two loops. -/
def scan_files (db : DB) (dirId : Nat) (fsFiles : List (String × Stat))
    (names : List String) : DB :=
  ((dbFilesOf db dirId).foldl (reconcileStep fsFiles) (db, names)).2.foldl
    (addFileStep dirId fsFiles)
    ((dbFilesOf db dirId).foldl (reconcileStep fsFiles) (db, names)).1

/-- Source `FileManager.scan_directory` for one visited directory,
after the nested-index import branch (modelled by `importStep` below;
`scan_directory` composes the two): filter observed
names through the validity predicates, look up the parent row (present
by top-down order; the source asserts it), ensure the directory row,
cascade-delete child rows whose observed name is gone, and reconcile
files — skipped entirely when no valid file is observed.
`scanParent` is the parent lookup (`pdirname` resolution). -/
def scanParent (db : DB) (p : List String) : Option DirRow :=
  if p = [] then none else get_directory db p.dropLast

/-- Child rows of a directory row (`dir.children`). -/
def childrenOf (db : DB) (i : Nat) : List DirRow :=
  db.dirs.filter (fun d => d.parent_id = some i)

/-- Loop body of the child reconciliation of `scan_directory_plain`: a child
row whose relative name is not among the observed (valid) subdirectory
names is cascade-deleted. -/
def childDelStep (p : List String) (ds : List String) (db : DB) (c : DirRow) : DB :=
  if ds.contains (joinPath (relpathComp c.path p)) then db
  else cascade_delete_directory db c.id

/-- The store after the directory-row phase of `scan_directory_plain`:
ensure the row, then delete the children not observed any more. -/
def scanDirPhase1 (vD : String → Bool) (db : DB) (p : List String)
    (subNames : List String) : DB :=
  (childrenOf (ensure_directory db p (scanParent db p)).1
      (ensure_directory db p (scanParent db p)).2.id).foldl
    (childDelStep p (subNames.filter vD))
    (ensure_directory db p (scanParent db p)).1

/-- Source `FileManager.scan_directory` for one visited directory,
after the nested-index import branch (modelled by `importStep` below;
`scan_directory` composes the two): filter observed
names through the validity predicates, look up the parent row (present
by top-down order; the source asserts it), ensure the directory row,
cascade-delete child rows whose observed name is gone, and reconcile
files — skipped entirely when no valid file is observed. -/
def scan_directory_plain (validD validF : String → Bool) (db : DB) (p : List String)
    (fsFiles : List (String × Stat)) (subNames : List String) : DB :=
  if (fsFiles.filter (fun e => validF e.1)).length = 0 then
    scanDirPhase1 validD db p subNames
  else
    scan_files (scanDirPhase1 validD db p subNames)
      (ensure_directory db p (scanParent db p)).2.id
      (fsFiles.filter (fun e => validF e.1))
      (sortBy nameLe ((fsFiles.filter (fun e => validF e.1)).map (fun e => e.1)))

mutual

/-- A directory of the live filesystem: its file listing (names with
stats) and its subdirectories. -/
inductive FSTree where
  | node (files : List (String × Stat)) (subs : FSList)

/-- Ordered subdirectory listing of a directory. -/
inductive FSList where
  | nil
  | cons (name : String) (tree : FSTree) (rest : FSList)

end

/-- Names of a subdirectory listing, in listing order. -/
def fsNames : FSList → List String
  | .nil => []
  | .cons n _ rest => n :: fsNames rest

mutual

/-- Top-down `os.walk` over the tree as driven by `FileManager.scan`,
restricted to trees on which no nested-index import triggers: visit
the directory, then recurse into the subdirectories that survive the
in-place pruning of invalid names.  `walkTree` below is the full walk;
`walkTree_nm` shows it collapses to this one on marker-free trees. -/
def walkTreePlain (validD validF : String → Bool) (db : DB) (p : List String) :
    FSTree → DB
  | .node fsFiles subs =>
    walkListPlain validD validF
      (scan_directory_plain validD validF db p fsFiles (fsNames subs)) p subs

/-- Walk the subdirectory listing in order. -/
def walkListPlain (validD validF : String → Bool) (db : DB) (p : List String) :
    FSList → DB
  | .nil => db
  | .cons n t rest =>
    if validD n then
      walkListPlain validD validF (walkTreePlain validD validF db (p ++ [n]) t) p rest
    else walkListPlain validD validF db p rest

end

/-- Source `FileManager.scan` restricted to trees on which no
nested-index import triggers: walk the whole tree reconciling each
directory, then reclaim dangling objects and commit.  The full `scan`
is defined below; `scan_nm` shows it collapses to this one on
marker-free trees. -/
def scanPlain (validD validF : String → Bool) (fs : FSTree) (db : DB) : DB :=
  delete_dangled_objects (walkTreePlain validD validF db [] fs)

/-- The nested-store rows whose identity passes the three-valued
`NOT IN` of `import_objects` — the batch of deferred INSERTs the import
leaves in the session. -/
def importPending (db : DB) (nested : List ObjRow) (dirname : List String) :
    List ObjRow :=
  nested.filter (fun o => notInTrue (some o.id) (importRefIds db dirname))

/-- No identity repeats in the INSERT batch. -/
def distinctIds : List String → Bool
  | [] => true
  | i :: rest => !(rest.contains i) && distinctIds rest

/-- Whether the deferred INSERTs of `import_objects` violate the
`ContentObject` primary key when they flush: an imported identity
already exists in the store, or two imported rows collide with each
other.  SQLAlchemy raises `IntegrityError` at the next flush — which
happens outside the `try`/`except` of `scan_directory` — so the error
aborts the scan. -/
def importErr (db : DB) (nested : List ObjRow) (dirname : List String) : Bool :=
  ((importPending db nested dirname).map (fun o => o.id)).any
      (fun i => (db.objects.map (fun o => o.id)).contains i) ||
    !(distinctIds ((importPending db nested dirname).map (fun o => o.id)))

/-- The nested-index import branch of `FileManager.scan_directory`
(filemanager.py:315-322): for a non-root directory whose raw listing
holds the `.dupler` marker, open the nested store and run
`import_objects` against it.  `nf` supplies the nested store's object
rows per directory path; a nested store that fails to open — whose
exception the branch catches and prints — is `nf p = []`, which then
brings in nothing, exactly like the catch.  The copies are only added to
the session; when one collides with an existing identity the deferred
INSERT raises `IntegrityError` at the next flush, outside the
`except`, killing the scan — modelled as `none`. -/
def importStep (nf : List String → List ObjRow) (db : DB) (p : List String)
    (subNames : List String) : Option DB :=
  if p = [] then some db
  else if subNames.contains CONFIG_DIR then
    if importErr db (nf p) p then none
    else some (import_objects db (nf p) p)
  else some db

/-- Source `FileManager.scan_directory`, import branch included: run
the nested-index import, then the directory/file reconciliation of
`scan_directory_plain`.  `none` is the `IntegrityError` escaping the
scan when an imported identity collides. -/
def scan_directory (validD validF : String → Bool)
    (nf : List String → List ObjRow) (db : DB) (p : List String)
    (fsFiles : List (String × Stat)) (subNames : List String) : Option DB :=
  (importStep nf db p subNames).map
    (fun db1 => scan_directory_plain validD validF db1 p fsFiles subNames)

mutual

/-- Top-down `os.walk` over the tree as driven by `FileManager.scan`,
with the import branch included: visit the directory, then recurse
into the subdirectories that survive the in-place pruning of invalid
names; a colliding nested-index import kills the walk. -/
def walkTree (validD validF : String → Bool)
    (nf : List String → List ObjRow) (db : DB) (p : List String) :
    FSTree → Option DB
  | .node fsFiles subs =>
    (scan_directory validD validF nf db p fsFiles (fsNames subs)).bind
      (fun db1 => walkList validD validF nf db1 p subs)

/-- Walk the subdirectory listing in order. -/
def walkList (validD validF : String → Bool)
    (nf : List String → List ObjRow) (db : DB) (p : List String) :
    FSList → Option DB
  | .nil => some db
  | .cons n t rest =>
    if validD n then
      (walkTree validD validF nf db (p ++ [n]) t).bind
        (fun db1 => walkList validD validF nf db1 p rest)
    else walkList validD validF nf db p rest

end

/-- Source `FileManager.scan`: walk the whole tree with the
nested-index imports included, then reclaim dangling objects and
commit; `none` when an `IntegrityError` aborts the run. -/
def scan (validD validF : String → Bool) (nf : List String → List ObjRow)
    (fs : FSTree) (db : DB) : Option DB :=
  (walkTree validD validF nf db [] fs).map delete_dangled_objects

mutual

/-- No directory the walk visits below this node carries a
nested-index marker in its raw listing. -/
def mfTree (vD : String → Bool) : FSTree → Bool
  | .node _ subs => !((fsNames subs).contains CONFIG_DIR) && mfList vD subs

/-- Marker-freedom across a subdirectory listing; pruned names are
exempt (the walk never enters them). -/
def mfList (vD : String → Bool) : FSList → Bool
  | .nil => true
  | .cons n t rest => (!(vD n) || mfTree vD t) && mfList vD rest

end

/-- No nested-index import triggers anywhere on the tree.  The root
directory itself is exempt (the source skips the import branch for
`"."`); every other visited directory must be marker-free. -/
def scanMarkerFree (vD : String → Bool) : FSTree → Bool
  | .node _ subs => mfList vD subs

/-- An open SQLAlchemy session: the committed store and the pending
(current) view.  `commit` publishes the pending view, `rollback`
restores the committed one. -/
structure Session where
  committed : DB
  pending : DB
deriving DecidableEq, Repr

/-- Publish pending work (`Session.commit`). -/
def commitS (s : Session) : Session :=
  { committed := s.pending, pending := s.pending }

/-- Discard pending work (`Session.rollback`). -/
def rollbackS (s : Session) : Session :=
  { committed := s.committed, pending := s.committed }

/-- Outcome of the `os.remove` call in `delete_file`. -/
inductive UnlinkResult where
  | ok
  | missing
  | error (e : String)
deriving DecidableEq, Repr

/-- Source `FileManager.delete_file`: commit pending work, delete the
file row (pending), unlink the path; a missing file is tolerated and
any other error rolls the pending deletion back and propagates (the
trailing commit is skipped).  The second component is the propagated
error. -/
def delete_file (s : Session) (f : FileRow) (unlink : UnlinkResult) :
    Session × Option String :=
  let s1 := commitS s
  let s2 := { s1 with pending := { s1.pending with
    files := s1.pending.files.filter (fun x => x.id ≠ f.id) } }
  match unlink with
  | .ok => (commitS s2, none)
  | .missing => (commitS s2, none)
  | .error e => (rollbackS s2, some e)

/-- Inner loop of `remove_duplicates` for one duplicate group: delete
every member other than the kept id; a raised error aborts immediately
(the exception is not caught). -/
def removeGroup (unlinkOf : Nat → UnlinkResult) (keep : Nat) :
    Session → List FileRow → Session × Option String
  | s, [] => (s, none)
  | s, f :: rest =>
    if f.id = keep then removeGroup unlinkOf keep s rest
    else
      match delete_file s f (unlinkOf f.id) with
      | (s2, none) => removeGroup unlinkOf keep s2 rest
      | (s2, some e) => (s2, some e)

/-- Loop of `remove_duplicates` over the selection items, looking each
hash up in the duplicates dict; errors propagate and abort the batch. -/
def removeSelection (unlinkOf : Nat → UnlinkResult)
    (dups : List (Nat × List FileRow)) :
    Session → List (Nat × Nat) → Session × Option String
  | s, [] => (s, none)
  | s, (h, keep) :: rest =>
    let group := ((dups.find? (fun kv => kv.1 = h)).map (fun kv => kv.2)).getD []
    match removeGroup unlinkOf keep s group with
    | (s2, none) => removeSelection unlinkOf dups s2 rest
    | (s2, some e) => (s2, some e)

/-- Source `FileManager.remove_duplicates`: process every selected
group; when no error escaped, reclaim dangling objects and commit.  An
escaping error skips the garbage collection and the final commit. -/
def remove_duplicates (s : Session) (dups : List (Nat × List FileRow))
    (selection : List (Nat × Nat)) (unlinkOf : Nat → UnlinkResult) :
    Session × Option String :=
  match removeSelection unlinkOf dups s selection with
  | (s2, none) =>
    (commitS { s2 with pending := delete_dangled_objects s2.pending }, none)
  | (s2, some e) => (s2, some e)

/-- Parent link consistency of one directory row: a non-null
`parent_id` names an existing row whose path is the child's path
without its last component (the declared PathTree invariant: the rows
form a tree rooted at `"."` keyed by normalized paths). -/
def dirParentOk (db : DB) (d : DirRow) : Bool :=
  match d.parent_id with
  | none => true
  | some pid =>
    match db.dirs.find? (fun x => x.id = pid) with
    | some pd => decide (d.path ≠ []) && decide (pd.path = d.path.dropLast)
    | none => false

/-- Store well-formedness: the declared uniqueness constraints
(primary keys, `Directory.path`, `(File.path_id, File.name)`), the
`File.path_id` foreign key, parent-link consistency, and freshness of
the autoincrement counters. -/
def wfDB (db : DB) : Bool :=
  decide ((db.dirs.map (fun d => d.id)).Nodup) &&
  decide ((db.dirs.map (fun d => d.path)).Nodup) &&
  decide ((db.files.map (fun f => f.id)).Nodup) &&
  decide ((db.objects.map (fun o => o.id)).Nodup) &&
  db.dirs.all (fun d => dirParentOk db d) &&
  db.dirs.all (fun d => d.id < db.nextDir) &&
  db.files.all (fun f => f.id < db.nextFile) &&
  db.files.all (fun f => db.dirs.any (fun d => d.id = f.path_id)) &&
  decide ((db.files.map (fun f => (f.path_id, f.name))).Nodup)

/-- A plain filesystem entry name: nonempty, not a dot link, no path
separator (guaranteed by any real directory listing). -/
def goodName (n : String) : Bool :=
  n != "" && n != "." && n != ".." && !(n.data.contains (Char.ofNat 47))

mutual

/-- Stats of every file below a tree node. -/
def treeStats : FSTree → List Stat
  | .node fsFiles subs => fsFiles.map (fun e => e.2) ++ listStats subs

/-- Stats of every file below a subdirectory listing. -/
def listStats : FSList → List Stat
  | .nil => []
  | .cons _ t rest => treeStats t ++ listStats rest

end

/-- Physical consistency of observed stats: two directory entries with
the same content identity (device and inode) are the same file, hence
share size and modification time. -/
def statsConsistent (ss : List Stat) : Bool :=
  ss.all (fun a => ss.all (fun b =>
    !(oid_of a == oid_of b) || (a.size == b.size && a.mtime == b.mtime)))

mutual

/-- Local well-formedness of a live tree: distinct plain names per
directory listing. -/
def wfTree : FSTree → Bool
  | .node fsFiles subs =>
    decide ((fsFiles.map (fun e => e.1)).Nodup) &&
    decide ((fsNames subs).Nodup) &&
    fsFiles.all (fun e => goodName e.1) &&
    (fsNames subs).all goodName &&
    wfList subs

/-- Local well-formedness of a subdirectory listing. -/
def wfList : FSList → Bool
  | .nil => true
  | .cons _ t rest => wfTree t && wfList rest

end

/-- Well-formedness of a live filesystem tree. -/
def wfFS (fs : FSTree) : Bool :=
  wfTree fs && statsConsistent (treeStats fs)

/-- Hash conservation between two store states: every object of the
second has a null hash or carries a hash the first already stored for
the same identity (no hash was computed in between). -/
def hashPreserved (old new : DB) : Prop :=
  ∀ o ∈ new.objects, o.hash = none ∨
    ∃ o0 ∈ old.objects, o0.id = o.id ∧ o0.hash = o.hash

/-- Hash provenance across a full scan: every object of the new store
has a null hash, or carries a hash the old store already recorded for
the same identity, or is a verbatim copy (identity and hash) of an
object of some nested store `nf` supplies — the scan itself computed
no digest. -/
def hashImported (nf : List String → List ObjRow) (old new : DB) : Prop :=
  ∀ o ∈ new.objects, o.hash = none ∨
    (∃ o0 ∈ old.objects, o0.id = o.id ∧ o0.hash = o.hash) ∨
    (∃ p, ∃ o0 ∈ nf p, o0.id = o.id ∧ o0.hash = o.hash)

/-- Boolean sortedness of a list under a boolean order. -/
def sortedByB {α : Type} (le : α → α → Bool) : List α → Bool
  | [] => true
  | [_] => true
  | a :: b :: rest => le a b && sortedByB le (b :: rest)

/-- Ordering of file rows by directory path then name, as the spec
claims for members of a duplicate group. -/
def fileOrd (db : DB) (f g : FileRow) : Bool :=
  let a := joinPath (((db.dirs.find? (fun d => d.id = f.path_id)).map
    (fun d => d.path)).getD [])
  let b := joinPath (((db.dirs.find? (fun d => d.id = g.path_id)).map
    (fun d => d.path)).getD [])
  strLtB a b || (a == b && nameLe f.name g.name)

/-- Modelled from the spec: the member ordering spec section 4.3 claims
for `find_duplicates` groups — within each group the file rows are
ordered by directory path then name.  Stated only to be compared with
the output of `find_duplicates`. -/
def membersOrdered (db : DB) (groups : List (Nat × List FileRow)) : Bool :=
  groups.all (fun kv => sortedByB (fun f g => fileOrd db f g) kv.2)

/-- Group key ordering by `(size, hash)`, sizes drawn from the first
object row storing the hash. -/
def groupKeyLe (db : DB) (h1 h2 : Nat) : Bool :=
  let s1 := ((db.objects.find? (fun o => o.hash = some h1)).map (fun o => o.size)).getD 0
  let s2 := ((db.objects.find? (fun o => o.hash = some h2)).map (fun o => o.size)).getD 0
  s1 < s2 || (s1 == s2 && h1 ≤ h2)

/-- Mode bits of a plain regular file (`0o100644`). -/
def regMode : Nat := 0o100644

/-- File row of the claim-C3 index: file `A`, bytes `"x"`, size 1. -/
def fileA : FileRow :=
  { id := 1, path_id := 0, name := "A", type := regMode, object_id := some "1:1" }

/-- File row of the claim-C3 index: file `B`, bytes `"x"`, size 1. -/
def fileB : FileRow :=
  { id := 2, path_id := 0, name := "B", type := regMode, object_id := some "1:2" }

/-- File row of the claim-C3 index: file `C`, bytes `"y"`, size 1. -/
def fileC : FileRow :=
  { id := 3, path_id := 0, name := "C", type := regMode, object_id := some "1:3" }

/-- File row of the claim-C3 index: file `D`, bytes `"xx"`, size 2. -/
def fileD : FileRow :=
  { id := 4, path_id := 0, name := "D", type := regMode, object_id := some "1:4" }

/-- The claim-C3 index: exactly files `A`, `B`, `C`, `D` as four
distinct content objects of sizes 1, 1, 1, 2, none hashed yet. -/
def dbC3 : DB :=
  { dirs := [{ id := 0, path := [], parent_id := none }],
    files := [fileA, fileB, fileC, fileD],
    objects := [
      { id := "1:1", size := 1, modified := 0, hash := none },
      { id := "1:2", size := 1, modified := 0, hash := none },
      { id := "1:3", size := 1, modified := 0, hash := none },
      { id := "1:4", size := 2, modified := 0, hash := none }],
    nextDir := 1, nextFile := 5 }

/-- Hash oracle for the claim-C3 content: `A` and `B` hold the same
byte `"x"` so they digest alike; `C` and `D` digest differently. -/
def oracleC3 : List String → Nat := fun p =>
  if p = ["A"] ∨ p = ["B"] then 100 else if p = ["C"] then 200 else 300

/-- Store with a file row whose directory is gone while its object is
still referenced: the pass order of garbage collection is observable
on it. -/
def dbC5 : DB :=
  { dirs := [{ id := 0, path := [], parent_id := none }],
    files := [{ id := 0, path_id := 99, name := "f", type := regMode,
                object_id := some "1:1" }],
    objects := [{ id := "1:1", size := 1, modified := 0, hash := none }],
    nextDir := 1, nextFile := 1 }

/-- Ancestor store for the import counterexample: the subtree `v`
holds one file entry with a null object reference (e.g. a symlink). -/
def dbC8 : DB :=
  { dirs := [{ id := 0, path := ["v"], parent_id := none }],
    files := [{ id := 0, path_id := 0, name := "s", type := 0, object_id := none }],
    objects := [],
    nextDir := 1, nextFile := 1 }

/-- Nested store for the import counterexample: one hashed object whose
identity no ancestor file references. -/
def nestedC8 : List ObjRow :=
  [{ id := "5:5", size := 3, modified := 7, hash := some 9 }]

/-- Store for the member-ordering counterexample: two same-content
files in the root directory whose table order is `b` before `a`. -/
def dbC4 : DB :=
  { dirs := [{ id := 0, path := [], parent_id := none }],
    files := [
      { id := 1, path_id := 0, name := "b", type := regMode, object_id := some "1:1" },
      { id := 2, path_id := 0, name := "a", type := regMode, object_id := some "1:2" }],
    objects := [
      { id := "1:1", size := 1, modified := 0, hash := some 7 },
      { id := "1:2", size := 1, modified := 0, hash := some 7 }],
    nextDir := 1, nextFile := 3 }

/-- Hash oracle that is never consulted (all sampled hashes present). -/
def oracle0 : List String → Nat := fun _ => 0

/-- Duplicate group of three files sharing one object, for the batch
error counterexample: member ids 1, 2, 3. -/
def fileE1 : FileRow :=
  { id := 1, path_id := 0, name := "x1", type := regMode, object_id := some "1:1" }

/-- Second member of the batch error counterexample group. -/
def fileE2 : FileRow :=
  { id := 2, path_id := 0, name := "x2", type := regMode, object_id := some "1:1" }

/-- Third member of the batch error counterexample group. -/
def fileE3 : FileRow :=
  { id := 3, path_id := 0, name := "x3", type := regMode, object_id := some "1:1" }

/-- Store behind the batch error counterexample. -/
def dbC7 : DB :=
  { dirs := [{ id := 0, path := [], parent_id := none }],
    files := [fileE1, fileE2, fileE3],
    objects := [{ id := "1:1", size := 1, modified := 0, hash := some 7 }],
    nextDir := 1, nextFile := 4 }

/-- Clean session over the batch error counterexample store. -/
def sessC7 : Session := { committed := dbC7, pending := dbC7 }

/-- Unlink behaviour: removing file id 2 hits a filesystem error, every
other removal succeeds. -/
def unlinkC7 : Nat → UnlinkResult := fun i =>
  if i = 2 then .error "disk" else .ok

/-- Existing object row of the stale-hash example: size 5, modified 5,
hash already computed. -/
def objC9 : ObjRow := { id := "1:1", size := 5, modified := 5, hash := some 3 }

/-- Store of the stale-hash example. -/
def dbC9 : DB :=
  { dirs := [], files := [], objects := [objC9], nextDir := 0, nextFile := 0 }

/-- Observed stat of the stale-hash example whose size changed. -/
def stC9a : Stat := { mode := regMode, dev := 1, ino := 1, size := 6, mtime := 5 }

/-- Observed stat of the stale-hash example with size and mtime
unchanged. -/
def stC9b : Stat := { mode := regMode, dev := 1, ino := 1, size := 5, mtime := 5 }

/-- Validity predicate accepting every name (no exclusion patterns). -/
def allNames : String → Bool := fun _ => true

/-- One-directory live tree holding a single regular file, for closed
witnesses of the scan theorems. -/
def fsC2 : FSTree :=
  .node [("A", { mode := regMode, dev := 1, ino := 1, size := 5, mtime := 5 })] .nil

/-- Validity predicate of the nested-marker counterexample runs: only
the marker name itself is pruned (the core of `is_valid_directory`). -/
def vDCE : String → Bool := fun n => !(n == CONFIG_DIR)

/-- Nested-store oracle of the marker counterexample: the index under
`v` holds one hashed object no ancestor file references. -/
def nestedCE : List String → List ObjRow := fun p =>
  if p = ["v"] then [{ id := "9:9", size := 3, modified := 7, hash := some 5 }]
  else []

/-- Live tree of the marker counterexample: a non-regular root entry
`s` (its file row gets a null object reference) and a subdirectory `v`
carrying a nested-index marker. -/
def fsCE : FSTree :=
  .node [("s", { mode := 0, dev := 0, ino := 0, size := 0, mtime := 0 })]
    (.cons "v" (.node [] (.cons CONFIG_DIR (.node [] .nil) .nil)) .nil)

/-- Freshly initialised, empty store. -/
def dbCE0 : DB :=
  { dirs := [], files := [], objects := [], nextDir := 0, nextFile := 0 }

/-- Path `q` lies inside the subtree rooted at `p` (inclusive). -/
def UnderEq (p q : List String) : Prop :=
  ∃ s, p ++ s = q

/-- Path `q` lies strictly below `p`. -/
def StrictUnder (p q : List String) : Prop :=
  ∃ s, s ≠ [] ∧ p ++ s = q

/-- The store records the content object of identity `oid` with the
given size and modification time (hash unconstrained). -/
def ObjFact (db : DB) (oid : String) (sz mt : Nat) : Prop :=
  ∃ o, db.objects.find? (fun x => x.id = oid) = some o ∧ o.size = sz ∧ o.modified = mt

/-- A file row agrees with the observed stat of its name: a regular
file references the content object of the stat's identity, whose
stored size and modification time match the stat; a non-regular entry
references no object. -/
def objSynced (db : DB) (f : FileRow) (st : Stat) : Prop :=
  if S_ISREG st.mode then
    f.object_id = some (oid_of st) ∧ ObjFact db (oid_of st) st.size st.mtime
  else f.object_id = none

/-- The file rows of directory id `i` agree exactly with the observed
(valid) listing `fls`: every row carries an observed name and a synced
object link, every observed name has a row, and names are unique among
the rows of `i`. -/
def SyncedFilesM (db : DB) (i : Nat) (fls : List (String × Stat)) : Prop :=
  (∀ f ∈ db.files, f.path_id = i → ∃ st, (f.name, st) ∈ fls ∧ objSynced db f st) ∧
  (∀ e ∈ fls, ∃ f ∈ db.files, f.path_id = i ∧ f.name = e.1) ∧
  (∀ f ∈ db.files, ∀ g ∈ db.files, f.path_id = i → g.path_id = i →
    f.name = g.name → f = g)

/-- The store agrees with one visited directory: its row exists at the
path, every child row is an observed valid subdirectory, and — when any
valid file is observed — the file rows are synced.  (When no valid file
is observed the scan skips file reconciliation, so nothing is said
about file rows.) -/
def SyncedDirNode (vD vF : String → Bool) (db : DB) (p : List String)
    (fls : List (String × Stat)) (subNames : List String) : Prop :=
  ∃ r ∈ db.dirs, r.path = p ∧
    (∀ c ∈ db.dirs, c.parent_id = some r.id →
      ∃ n, c.path = p ++ [n] ∧ n ∈ subNames.filter vD) ∧
    ((fls.filter (fun e => vF e.1)) ≠ [] →
      SyncedFilesM db r.id (fls.filter (fun e => vF e.1)))

mutual

/-- The store agrees with the whole subtree rooted at `p`. -/
def SyncedTree (vD vF : String → Bool) (db : DB) (p : List String) : FSTree → Prop
  | .node fls subs =>
    SyncedDirNode vD vF db p fls (fsNames subs) ∧ SyncedList vD vF db p subs

/-- The store agrees with every valid subdirectory of the listing. -/
def SyncedList (vD vF : String → Bool) (db : DB) (p : List String) : FSList → Prop
  | .nil => True
  | .cons n t rest =>
    (vD n = true → SyncedTree vD vF db (p ++ [n]) t) ∧ SyncedList vD vF db p rest

end

/-- Prop form of the store invariants checked by `wfDB`. -/
structure DBInv (db : DB) : Prop where
  dirIds : (db.dirs.map (fun d => d.id)).Nodup
  dirPaths : (db.dirs.map (fun d => d.path)).Nodup
  fileIds : (db.files.map (fun f => f.id)).Nodup
  objIds : (db.objects.map (fun o => o.id)).Nodup
  parentOk : ∀ d ∈ db.dirs, ∀ q, d.parent_id = some q →
    ∃ pd ∈ db.dirs, pd.id = q ∧ d.path ≠ [] ∧ pd.path = d.path.dropLast
  dirFresh : ∀ d ∈ db.dirs, d.id < db.nextDir
  fileFresh : ∀ f ∈ db.files, f.id < db.nextFile
  fileFK : ∀ f ∈ db.files, ∃ d ∈ db.dirs, d.id = f.path_id
  fileNames : (db.files.map (fun f => (f.path_id, f.name))).Nodup

/-- Prop form of the physical stat consistency over a stat list. -/
def SC (ss : List Stat) : Prop :=
  ∀ a ∈ ss, ∀ b ∈ ss, oid_of a = oid_of b → a.size = b.size ∧ a.mtime = b.mtime

/-- The triple `(oid, sz, mt)` is the identity, size and modification
time of some stat in the list `ss`. -/
def stIn (ss : List Stat) (oid : String) (sz mt : Nat) : Prop :=
  ∃ st ∈ ss, oid_of st = oid ∧ st.size = sz ∧ st.mtime = mt

/-- How one phase of the walk may change the store, relative to a path
region `R` (the set of paths the phase is allowed to touch): directory
rows outside `R` survive, new directory rows lie in `R` and carry fresh
ids, file rows of directories outside `R` survive, new file rows belong
to a directory row in `R`, stat-consistent object facts are preserved,
and the autoincrement counters never decrease. -/
def EvolvesR (ss : List Stat) (R : List String → Prop) (db db2 : DB) : Prop :=
  (∀ d ∈ db.dirs, ¬ R d.path → d ∈ db2.dirs) ∧
  (∀ d ∈ db2.dirs, d ∈ db.dirs ∨ (R d.path ∧ db.nextDir ≤ d.id)) ∧
  (∀ f ∈ db.files, (∀ d ∈ db.dirs, d.id = f.path_id → ¬ R d.path) → f ∈ db2.files) ∧
  (∀ f ∈ db2.files, f ∈ db.files ∨ ∃ d ∈ db2.dirs, d.id = f.path_id ∧ R d.path) ∧
  (∀ oid sz mt, stIn ss oid sz mt → ObjFact db oid sz mt → ObjFact db2 oid sz mt) ∧
  (db.nextDir ≤ db2.nextDir ∧ db.nextFile ≤ db2.nextFile)

/-- Invariant of the first `scan_files` loop (`reconcileStep` over the
loaded rows): `toGo` are the rows still to process, `acc` the current
store and the observed names not yet claimed by a kept row. -/
structure Rec1Inv (ss : List Stat) (db2 : DB) (rid : Nat)
    (fls : List (String × Stat)) (toGo : List FileRow)
    (acc : DB × List String) : Prop where
  inv : DBInv acc.1
  dirsEq : acc.1.dirs = db2.dirs
  ndirEq : acc.1.nextDir = db2.nextDir
  nfileEq : acc.1.nextFile = db2.nextFile
  objP : ∀ oid sz mt, stIn ss oid sz mt → ObjFact db2 oid sz mt → ObjFact acc.1 oid sz mt
  keepO : ∀ f ∈ db2.files, f.path_id ≠ rid → f ∈ acc.1.files
  backO : ∀ f ∈ acc.1.files, f.path_id ≠ rid → f ∈ db2.files
  toGoMem : ∀ f ∈ toGo, f ∈ acc.1.files ∧ f.path_id = rid
  rowsOk : ∀ f ∈ acc.1.files, f.path_id = rid → f ∈ toGo ∨
    ∃ st, (f.name, st) ∈ fls ∧ objSynced acc.1 f st ∧ ¬ f.name ∈ acc.2
  remSub : ∀ n ∈ acc.2, n ∈ fls.map (fun e => e.1)
  remNd : acc.2.Nodup
  covered : ∀ e ∈ fls, e.1 ∈ acc.2 ∨
    ∃ f ∈ acc.1.files, f.path_id = rid ∧ f.name = e.1 ∧ ¬ f ∈ toGo
  toGoNd : (toGo.map (fun f => f.id)).Nodup

/-- Invariant of the second `scan_files` loop (`addFileStep` over the
leftover observed names `toAdd`). -/
structure Rec2Inv (ss : List Stat) (db2 : DB) (rid : Nat)
    (fls : List (String × Stat)) (toAdd : List String) (dbB : DB) : Prop where
  inv : DBInv dbB
  dirsEq : dbB.dirs = db2.dirs
  ndirEq : dbB.nextDir = db2.nextDir
  nfileLe : db2.nextFile ≤ dbB.nextFile
  objP : ∀ oid sz mt, stIn ss oid sz mt → ObjFact db2 oid sz mt → ObjFact dbB oid sz mt
  keepO : ∀ f ∈ db2.files, f.path_id ≠ rid → f ∈ dbB.files
  backO : ∀ f ∈ dbB.files, f.path_id ≠ rid → f ∈ db2.files
  addSub : ∀ n ∈ toAdd, n ∈ fls.map (fun e => e.1)
  addFresh : ∀ n ∈ toAdd, ∀ f ∈ dbB.files, f.path_id = rid → f.name ≠ n
  addNd : toAdd.Nodup
  rowsOk : ∀ f ∈ dbB.files, f.path_id = rid →
    ∃ st, (f.name, st) ∈ fls ∧ objSynced dbB f st
  covered : ∀ e ∈ fls, e.1 ∈ toAdd ∨
    ∃ f ∈ dbB.files, f.path_id = rid ∧ f.name = e.1

theorem notInTrue_none {α : Type} [DecidableEq α] (ys : List (Option α))
    (h : ys ≠ []) : notInTrue (α := α) none ys = false := by
  cases ys with
  | nil => exact absurd rfl h
  | cons y ys => cases y <;> simp [notInTrue]

theorem collect_garbage_dirs (db : DB) :
    (collect_garbage db).dirs = dirLoop db.dirs.length db.dirs := rfl

theorem dirPass_mem_root {d : DirRow} {ds : List DirRow}
    (hd : d ∈ ds) (hp : d.parent_id = none) : d ∈ dirPass ds := by
  unfold dirPass
  refine List.mem_filter.mpr ⟨hd, ?_⟩
  rw [hp, notInTrue_none]
  · rfl
  · simpa using List.ne_nil_of_mem hd

theorem dirLoop_mem_root {d : DirRow} (hp : d.parent_id = none) :
    ∀ (fuel : Nat) (ds : List DirRow), d ∈ ds → d ∈ dirLoop fuel ds := by
  intro fuel
  induction fuel with
  | zero => intro ds hd; exact hd
  | succ n ih =>
    intro ds hd
    unfold dirLoop
    by_cases h : (dirPass ds).length = ds.length
    · simp only [h, if_true]; exact hd
    · simp only [h, if_false]; exact ih _ (dirPass_mem_root hd hp)

/-- C10: a Directory row whose `parent_id` is null is never matched by
the dangling-directory NOT IN predicate, so the PathTree root survives
`collect_garbage` in every store state. -/
theorem collect_garbage_preserves_root (db : DB) (d : DirRow)
    (hd : d ∈ db.dirs) (hp : d.parent_id = none) :
    d ∈ (collect_garbage db).dirs := by
  rw [collect_garbage_dirs]
  exact dirLoop_mem_root hp _ _ hd

theorem collect_garbage_preserves_root_witness :
    ({ id := 0, path := [], parent_id := none } : DirRow) ∈ (collect_garbage dbC5).dirs :=
  collect_garbage_preserves_root dbC5 _ (by decide) (by decide)

/-- C5 counterexample: on a store holding one file row whose directory
is gone and whose object is otherwise unreferenced, running the three
passes in the spec's order (objects, files, directories) keeps the
object, while the source order removes it. -/
theorem collect_garbage_order_counterexample :
    collect_garbage dbC5 ≠ collect_garbage_spec_order dbC5 := by decide

theorem dirLoop_fix : ∀ (fuel : Nat) (ds : List DirRow), ds.length ≤ fuel →
    dirPass (dirLoop fuel ds) = dirLoop fuel ds := by
  intro fuel
  induction fuel with
  | zero =>
    intro ds h
    have hnil : ds = [] := List.eq_nil_of_length_eq_zero (Nat.le_zero.mp h)
    subst hnil; rfl
  | succ n ih =>
    intro ds h
    unfold dirLoop
    by_cases hl : (dirPass ds).length = ds.length
    · simp only [hl, if_true]
      exact (List.filter_sublist ds).eq_of_length hl
    · simp only [hl, if_false]
      refine ih _ ?_
      have hle : (dirPass ds).length ≤ ds.length := (List.filter_sublist ds).length_le
      omega

/-- C5 amended: `collect_garbage` proceeds in the source order —
(1) repeatedly delete PathTree nodes whose parent is gone until a pass
deletes zero rows, then (2) delete dangling FileEntry rows, then
(3) delete unreferenced ContentObject rows; after the directory loop a
further pass indeed deletes nothing. -/
theorem collect_garbage_order (db : DB) :
    collect_garbage db =
      delete_dangled_objects (delete_dangled_files (delete_dangled_directories db)) ∧
    dirPass (delete_dangled_directories db).dirs = (delete_dangled_directories db).dirs :=
  ⟨rfl, dirLoop_fix _ _ (le_refl _)⟩

/-- C6: deleting one duplicate file removes its FileEntry row from the
pending view and commits it when the unlink is clean or hits a
missing-file condition; any other filesystem error rolls the pending
deletion back (the session holds exactly the state committed on entry,
the row restored) and the error propagates. -/
theorem delete_file_atomicity (s : Session) (f : FileRow) :
    (∀ e, delete_file s f (.error e) = (commitS s, some e)) ∧
    (delete_file s f .missing).2 = none ∧
    (delete_file s f .missing).1.committed.files =
      s.pending.files.filter (fun x => x.id ≠ f.id) ∧
    (delete_file s f .ok).1.committed.files =
      s.pending.files.filter (fun x => x.id ≠ f.id) :=
  ⟨fun _ => rfl, rfl, rfl, rfl⟩

/-- C7 counterexample: with a group of three files keeping id 1, where
unlinking file id 2 raises a filesystem error and unlinking id 3 would
succeed, `remove_duplicates` aborts with the error and file id 3 is
still present — the batch does not continue past the failure. -/
theorem remove_duplicates_abort_counterexample :
    (remove_duplicates sessC7 [(7, [fileE1, fileE2, fileE3])] [(7, 1)] unlinkC7).2 =
      some "disk" ∧
    fileE3 ∈ (remove_duplicates sessC7 [(7, [fileE1, fileE2, fileE3])] [(7, 1)]
      unlinkC7).1.pending.files := by decide

theorem delete_file_error (s : Session) (f : FileRow) (e : String) :
    delete_file s f (.error e) = (commitS s, some e) := rfl

theorem delete_file_no_error (s : Session) (f : FileRow) (r : UnlinkResult)
    (h : ∀ e, r ≠ .error e) : (delete_file s f r).2 = none := by
  cases r with
  | ok => rfl
  | missing => rfl
  | error e => exact absurd rfl (h e)

theorem removeGroup_no_error (u : Nat → UnlinkResult)
    (h : ∀ i e, u i ≠ .error e) (keep : Nat) :
    ∀ (files : List FileRow) (s : Session), (removeGroup u keep s files).2 = none := by
  intro files
  induction files with
  | nil => intro s; rfl
  | cons f rest ih =>
    intro s
    unfold removeGroup
    by_cases hk : f.id = keep
    · simp only [hk, if_true]; exact ih s
    · simp only [hk, if_false]
      rcases hr : delete_file s f (u f.id) with ⟨s2, r2⟩
      have h2 : r2 = none := by
        have := delete_file_no_error s f (u f.id) (fun e => h f.id e)
        rw [hr] at this; exact this
      subst h2
      simp only [hr]
      exact ih s2

theorem removeSelection_no_error (u : Nat → UnlinkResult)
    (h : ∀ i e, u i ≠ .error e) (dups : List (Nat × List FileRow)) :
    ∀ (sel : List (Nat × Nat)) (s : Session),
      (removeSelection u dups s sel).2 = none := by
  intro sel
  induction sel with
  | nil => intro s; rfl
  | cons hk rest ih =>
    intro s
    rcases hk with ⟨hh, keep⟩
    unfold removeSelection
    rcases hr : removeGroup u keep s
      (((dups.find? (fun kv => kv.1 = hh)).map (fun kv => kv.2)).getD []) with ⟨s2, r2⟩
    have h2 : r2 = none := by
      have := removeGroup_no_error u h keep
        (((dups.find? (fun kv => kv.1 = hh)).map (fun kv => kv.2)).getD []) s
      rw [hr] at this; exact this
    subst h2
    simp only [hr]
    exact ih s2

/-- C7 amended: a missing-file condition or a clean unlink never aborts
the batch (with no hard filesystem error the whole selection processes
and no error is reported), but a hard filesystem error on one file is
fatal to the batch: `remove_duplicates` propagates it at once, the
failing file's pending deletion is rolled back to the state committed
on entry, and the files after it in processing order are left
untouched. -/
theorem remove_duplicates_error_behavior :
    (∀ (s : Session) (dups : List (Nat × List FileRow)) (sel : List (Nat × Nat))
       (u : Nat → UnlinkResult), (∀ i e, u i ≠ .error e) →
       (remove_duplicates s dups sel u).2 = none) ∧
    (∀ (s : Session) (u : Nat → UnlinkResult) (keep : Nat) (f : FileRow)
       (rest : List FileRow) (e : String), f.id ≠ keep → u f.id = .error e →
       removeGroup u keep s (f :: rest) = (commitS s, some e)) := by
  constructor
  · intro s dups sel u hu
    unfold remove_duplicates
    rcases hr : removeSelection u dups s sel with ⟨s2, r2⟩
    have h2 : r2 = none := by
      have := removeSelection_no_error u hu dups sel s
      rw [hr] at this; exact this
    subst h2
    simp only [hr]
  · intro s u keep f rest e hk hu
    unfold removeGroup
    simp only [hk, if_false, hu, delete_file_error]

theorem remove_duplicates_error_behavior_witness :
    (remove_duplicates sessC7 [(7, [fileE1, fileE2, fileE3])] [(7, 1)]
      (fun _ => .ok)).2 = none ∧
    removeGroup unlinkC7 1 sessC7 [fileE2, fileE3] = (commitS sessC7, some "disk") :=
  ⟨remove_duplicates_error_behavior.1 sessC7 _ _ _ (fun i e => by simp),
   remove_duplicates_error_behavior.2 sessC7 unlinkC7 1 fileE2 [fileE3] "disk"
     (by decide) rfl⟩

/-- C8 counterexample: the ancestor store has one file entry under the
subtree `v` with a null object reference; the nested store holds an
object whose identity no FileEntry references, yet `import_objects`
copies nothing — the NULL in the NOT IN list disables the import. -/
theorem import_objects_null_ref_counterexample :
    (∀ f ∈ dbC8.files, f.object_id ≠ some "5:5") ∧
    import_objects dbC8 nestedC8 ["v"] = dbC8 ∧
    (∀ o ∈ (import_objects dbC8 nestedC8 ["v"]).objects, o.id ≠ "5:5") := by
  decide

/-- C3: on the index holding exactly files A (bytes x, size 1),
B (bytes x, size 1), C (bytes y, size 1), D (bytes xx, size 2) as four
distinct content objects, `find_duplicates` returns exactly one group,
holding exactly A and B; C and D appear in no group. -/
theorem find_duplicates_grouping_example :
    (find_duplicates oracleC3 dbC3).2 = [(100, [fileA, fileB])] ∧
    (∀ kv ∈ (find_duplicates oracleC3 dbC3).2, ∀ f ∈ kv.2,
      f.id ≠ fileC.id ∧ f.id ≠ fileD.id) := by
  decide

/-- C4 counterexample: on a store whose table order lists the root file
`b` before its same-content sibling `a`, `find_duplicates` returns the
group with `b` before `a` — the members are not ordered by directory
path then name. -/
theorem find_duplicates_member_order_counterexample :
    membersOrdered dbC4 (find_duplicates oracle0 dbC4).2 = false := by decide

theorem find?_map_upd (l : List ObjRow) (oid : String) (sz mt : Nat)
    (hs : Option Nat) :
    (l.map (fun x => if x.id = oid then
      { x with modified := mt, size := sz, hash := hs } else x)).find?
        (fun x => x.id = oid) =
    (l.find? (fun x => x.id = oid)).map
      (fun x => { x with modified := mt, size := sz, hash := hs }) := by
  induction l with
  | nil => rfl
  | cons a l ih =>
    by_cases h : a.id = oid
    · simp [List.find?_cons, h]
    · simp [List.find?_cons, h, ih]

/-- C9: for an existing ContentObject reached by `ensure_object` on a
regular-file stat, an observed change of size or modified time rewrites
the row before the object is returned — the hash becomes the supplier's
digest, or null when no supplier is given — while an unchanged
(size, modified time) pair leaves a stored non-null hash (and the whole
store) untouched. -/
theorem ensure_object_stale_hash (db : DB) (st : Stat) (sup : Option Nat)
    (o : ObjRow) (hreg : S_ISREG st.mode = true)
    (hfind : db.objects.find? (fun x => x.id = oid_of st) = some o) :
    ((o.size ≠ st.size ∨ o.modified ≠ st.mtime) →
      (ensure_object db st sup none).1.objects.find? (fun x => x.id = oid_of st) =
        some { o with modified := st.mtime, size := st.size, hash := sup } ∧
      (ensure_object db st sup none).2 =
        some { o with modified := st.mtime, size := st.size, hash := sup }) ∧
    (o.size = st.size → o.modified = st.mtime → ∀ h, o.hash = some h →
      ensure_object db st sup none = (db, some o)) := by
  have hid : o.id = oid_of st := by
    have := List.find?_some hfind
    exact of_decide_eq_true this
  have hres : resolveObj db (oid_of st) none = some o := hfind
  constructor
  · intro hch
    have hcond : o.modified ≠ st.mtime ∨ o.size ≠ st.size ∨ o.hash = none := by
      rcases hch with h | h
      · exact Or.inr (Or.inl h)
      · exact Or.inl h
    simp only [ensure_object, hreg, Bool.not_true, Bool.false_eq_true, if_false,
      hres, hcond, if_true]
    refine ⟨?_, ?_⟩
    · rw [hid, find?_map_upd, hfind]
      simp [hid]
    · simp [hid]
  · intro hsz hmt h hh
    have hcond : ¬(o.modified ≠ st.mtime ∨ o.size ≠ st.size ∨ o.hash = none) := by
      push_neg
      exact ⟨hmt, hsz, by rw [hh]; exact fun hc => Option.noConfusion hc⟩
    simp only [ensure_object, hreg, Bool.not_true, Bool.false_eq_true, if_false,
      hres, hcond, if_false]

theorem ensure_object_stale_hash_witness :
    ((ensure_object dbC9 stC9a (some 7) none).1.objects.find?
        (fun x => x.id = oid_of stC9a) =
      some { id := "1:1", size := 6, modified := 5, hash := some 7 } ∧
     (ensure_object dbC9 stC9a (some 7) none).2 =
      some { id := "1:1", size := 6, modified := 5, hash := some 7 }) ∧
    ensure_object dbC9 stC9b none none = (dbC9, some objC9) :=
  ⟨(ensure_object_stale_hash dbC9 stC9a (some 7) objC9 (by decide) (by decide)).1
     (Or.inl (by decide)),
   (ensure_object_stale_hash dbC9 stC9b none objC9 (by decide) (by decide)).2
     (by decide) (by decide) 3 rfl⟩

theorem notInTrue_no_none {α : Type} [DecidableEq α] (a : α) :
    ∀ ys : List (Option α), (∀ r ∈ ys, r ≠ none) →
      notInTrue (some a) ys = decide (some a ∉ ys) := by
  intro ys
  induction ys with
  | nil => intro _; rfl
  | cons r rest ih =>
    intro h
    rcases r with _ | b
    · exact absurd rfl (h none (List.mem_cons_self _ _))
    · have hr := ih (fun x hx => h x (List.mem_cons_of_mem _ hx))
      by_cases hab : a = b
      · subst hab
        simp [notInTrue]
      · simp only [notInTrue, List.all_cons] at hr ⊢
        rw [hr]
        simp [List.mem_cons, hab, bne]

/-- C8 amended: provided no FileEntry under the subtree path carries a
null object reference, `import_objects` appends to the ancestor store
exactly the nested objects whose identity is not referenced under the
subtree, verbatim, and every pre-existing ancestor object row survives
unchanged (the merge never deletes or overwrites a row). -/
theorem import_objects_merge (db : DB) (nested : List ObjRow)
    (dirname : List String)
    (hnn : ∀ r ∈ importRefIds db dirname, r ≠ none) :
    (import_objects db nested dirname).objects =
      db.objects ++ nested.filter (fun o =>
        decide (some o.id ∉ importRefIds db dirname)) ∧
    ∀ o ∈ db.objects, o ∈ (import_objects db nested dirname).objects := by
  have hfilter : nested.filter (fun o => notInTrue (some o.id) (importRefIds db dirname)) =
      nested.filter (fun o => decide (some o.id ∉ importRefIds db dirname)) := by
    apply List.filter_congr
    intro o _
    exact notInTrue_no_none o.id _ hnn
  have hmap : ∀ l : List ObjRow, l.map (fun o =>
      ({ id := o.id, size := o.size, modified := o.modified, hash := o.hash } : ObjRow)) = l := by
    intro l
    induction l with
    | nil => rfl
    | cons a l ih => simp [ih]
  have hobj : (import_objects db nested dirname).objects =
      db.objects ++ nested.filter (fun o =>
        decide (some o.id ∉ importRefIds db dirname)) := by
    unfold import_objects
    by_cases hz : (nested.filter (fun o =>
        notInTrue (some o.id) (importRefIds db dirname))).length = 0
    · simp only [hz, if_true]
      rw [hfilter] at hz
      rw [List.length_eq_zero] at hz
      rw [hz, List.append_nil]
    · simp only [hz, if_false]
      rw [hmap, hfilter]
  exact ⟨hobj, fun o ho => by rw [hobj]; exact List.mem_append_left _ ho⟩

theorem import_objects_merge_witness :
    (import_objects dbC4 nestedC8 []).objects =
      dbC4.objects ++ nestedC8.filter (fun o =>
        decide (some o.id ∉ importRefIds dbC4 [])) ∧
    ∀ o ∈ dbC4.objects, o ∈ (import_objects dbC4 nestedC8 []).objects :=
  import_objects_merge dbC4 nestedC8 [] (by decide)

theorem hp_mono {old new : DB} (h : ∀ o ∈ new.objects, o ∈ old.objects) :
    hashPreserved old new :=
  fun o ho => Or.inr ⟨o, h o ho, rfl, rfl⟩

theorem hp_refl (db : DB) : hashPreserved db db :=
  hp_mono (fun _ h => h)

theorem hp_trans {a b c : DB} (h1 : hashPreserved a b) (h2 : hashPreserved b c) :
    hashPreserved a c := by
  intro o ho
  rcases h2 o ho with h | ⟨o1, ho1, hid, hh⟩
  · exact Or.inl h
  · rcases h1 o1 ho1 with h | ⟨o0, ho0, hid0, hh0⟩
    · exact Or.inl (by rw [← hh, h])
    · exact Or.inr ⟨o0, ho0, by rw [hid0, hid], by rw [hh0, hh]⟩

theorem hp_objects_eq {old new : DB} (h : new.objects = old.objects) :
    hashPreserved old new :=
  hp_mono (fun o ho => h ▸ ho)

theorem hp_ensure_object (db : DB) (st : Stat) (obj : Option ObjRow) :
    hashPreserved db (ensure_object db st none obj).1 := by
  cases hreg : S_ISREG st.mode
  · simp only [ensure_object, hreg, Bool.not_false, if_true]
    exact hp_refl db
  · simp only [ensure_object, hreg, Bool.not_true, Bool.false_eq_true, if_false]
    cases hz : resolveObj db (oid_of st) obj with
    | none =>
      intro x hx
      simp only [List.mem_append, List.mem_singleton] at hx
      rcases hx with hx | hx
      · exact Or.inr ⟨x, hx, rfl, rfl⟩
      · subst hx; exact Or.inl rfl
    | some o =>
      by_cases hc : o.modified ≠ st.mtime ∨ o.size ≠ st.size ∨ o.hash = none
      · simp only [hc, if_true]
        intro x hx
        simp only [List.mem_map] at hx
        rcases hx with ⟨y, hy, hxy⟩
        by_cases hid : y.id = o.id
        · rw [if_pos hid] at hxy
          exact Or.inl (by rw [← hxy])
        · rw [if_neg hid] at hxy
          subst hxy; exact Or.inr ⟨y, hy, rfl, rfl⟩
      · simp only [hc, if_false]
        exact hp_refl db

theorem update_file_objects (db : DB) (f : FileRow) (oid : Option String) :
    (update_file db f oid).objects = db.objects := by
  unfold update_file
  split <;> rfl

theorem hp_foldl {σ β : Type} (proj : σ → DB) (g : σ → β → σ)
    (h : ∀ s b, hashPreserved (proj s) (proj (g s b))) :
    ∀ (l : List β) (s : σ), hashPreserved (proj s) (proj (l.foldl g s)) := by
  intro l
  induction l with
  | nil => intro s; exact hp_refl _
  | cons b rest ih => intro s; exact hp_trans (h s b) (ih (g s b))

theorem hp_reconcileStep (fsFiles : List (String × Stat)) (s : DB × List String)
    (f : FileRow) : hashPreserved s.1 (reconcileStep fsFiles s f).1 := by
  unfold reconcileStep
  by_cases hc : s.2.contains f.name
  · simp only [hc, if_true]
    exact hp_trans (hp_ensure_object s.1 (statOf fsFiles f.name) (objOf s.1 f))
      (hp_objects_eq (update_file_objects _ _ _))
  · simp only [hc, if_false]
    exact hp_mono (fun o ho => ho)

theorem hp_addFileStep (dirId : Nat) (fsFiles : List (String × Stat)) (db : DB)
    (n : String) : hashPreserved db (addFileStep dirId fsFiles db n) := by
  unfold addFileStep
  exact hp_trans (hp_ensure_object db (statOf fsFiles n) none)
    (hp_mono (fun o ho => ho))

theorem hp_scan_files (db : DB) (dirId : Nat) (fsFiles : List (String × Stat))
    (names : List String) :
    hashPreserved db (scan_files db dirId fsFiles names) := by
  unfold scan_files
  exact hp_trans
    (hp_foldl (fun s : DB × List String => s.1) (reconcileStep fsFiles)
      (hp_reconcileStep fsFiles) (dbFilesOf db dirId) (db, names))
    (hp_foldl (fun d : DB => d) (addFileStep dirId fsFiles)
      (fun s b => hp_addFileStep dirId fsFiles s b) _ _)

theorem ensure_directory_objects (db : DB) (p : List String) (pd : Option DirRow) :
    (ensure_directory db p pd).1.objects = db.objects := by
  unfold ensure_directory
  split <;> rfl

theorem hp_childDelStep (p ds : List String) (db : DB) (c : DirRow) :
    hashPreserved db (childDelStep p ds db c) := by
  unfold childDelStep
  split
  · exact hp_refl db
  · exact hp_objects_eq rfl

theorem hp_scanDirPhase1 (vD : String → Bool) (db : DB) (p : List String)
    (subNames : List String) : hashPreserved db (scanDirPhase1 vD db p subNames) := by
  unfold scanDirPhase1
  exact hp_trans (hp_objects_eq (ensure_directory_objects db p (scanParent db p)))
    (hp_foldl (fun d : DB => d) (childDelStep p (subNames.filter vD))
      (fun s c => hp_childDelStep p _ s c) _ _)

theorem hp_scan_directory (vD vF : String → Bool) (db : DB) (p : List String)
    (fsFiles : List (String × Stat)) (subNames : List String) :
    hashPreserved db (scan_directory_plain vD vF db p fsFiles subNames) := by
  unfold scan_directory_plain
  by_cases hf : (fsFiles.filter (fun e => vF e.1)).length = 0
  · simp only [hf, if_true]
    exact hp_scanDirPhase1 vD db p subNames
  · simp only [hf, if_false]
    exact hp_trans (hp_scanDirPhase1 vD db p subNames) (hp_scan_files _ _ _ _)

mutual

theorem hp_walkTree (vD vF : String → Bool) :
    ∀ (t : FSTree) (db : DB) (p : List String),
      hashPreserved db (walkTreePlain vD vF db p t)
  | .node fsFiles subs, db, p =>
    hp_trans (hp_scan_directory vD vF db p fsFiles (fsNames subs))
      (hp_walkList vD vF subs _ p)

theorem hp_walkList (vD vF : String → Bool) :
    ∀ (l : FSList) (db : DB) (p : List String),
      hashPreserved db (walkListPlain vD vF db p l)
  | .nil, db, p => hp_refl db
  | .cons n t rest, db, p => by
    unfold walkListPlain
    by_cases hv : vD n
    · simp only [hv, if_true]
      exact hp_trans (hp_walkTree vD vF t db (p ++ [n]))
        (hp_walkList vD vF rest _ p)
    · simp only [hv, Bool.false_eq_true, if_false]
      exact hp_walkList vD vF rest db p

end

theorem hp_ddo (db : DB) : hashPreserved db (delete_dangled_objects db) := by
  intro o ho
  unfold delete_dangled_objects at ho
  simp only at ho
  exact Or.inr ⟨o, List.mem_of_mem_filter ho, rfl, rfl⟩

theorem scanPlain_hash_laziness (vD vF : String → Bool) (fs : FSTree) (db : DB) :
    hashPreserved db (scanPlain vD vF fs db) := by
  unfold scanPlain
  exact hp_trans (hp_walkTree vD vF fs db []) (hp_ddo _)

theorem hi_of_hp {nf : List String → List ObjRow} {a b : DB}
    (h : hashPreserved a b) : hashImported nf a b := by
  intro o ho
  rcases h o ho with h1 | ⟨o0, h0, hid, hh⟩
  · exact Or.inl h1
  · exact Or.inr (Or.inl ⟨o0, h0, hid, hh⟩)

theorem hi_trans {nf : List String → List ObjRow} {a b c : DB}
    (h1 : hashImported nf a b) (h2 : hashImported nf b c) :
    hashImported nf a c := by
  intro o ho
  rcases h2 o ho with h | ⟨o1, ho1, hid, hh⟩ | hnest
  · exact Or.inl h
  · rcases h1 o1 ho1 with h | ⟨o0, ho0, hid0, hh0⟩ | ⟨p, o0, ho0, hid0, hh0⟩
    · exact Or.inl (by rw [← hh, h])
    · exact Or.inr (Or.inl ⟨o0, ho0, by rw [hid0, hid], by rw [hh0, hh]⟩)
    · exact Or.inr (Or.inr ⟨p, o0, ho0, by rw [hid0, hid], by rw [hh0, hh]⟩)
  · exact Or.inr (Or.inr hnest)

theorem hi_import_objects (nf : List String → List ObjRow) (db : DB)
    (p : List String) : hashImported nf db (import_objects db (nf p) p) := by
  unfold import_objects
  by_cases hz : ((nf p).filter
      (fun o => notInTrue (some o.id) (importRefIds db p))).length = 0
  · simp only [hz, if_true]
    exact hi_of_hp (hp_refl db)
  · simp only [hz, if_false]
    intro o ho
    simp only [List.mem_append] at ho
    rcases ho with ho | ho
    · exact Or.inr (Or.inl ⟨o, ho, rfl, rfl⟩)
    · simp only [List.mem_map] at ho
      rcases ho with ⟨o0, ho0, rfl⟩
      exact Or.inr (Or.inr ⟨p, o0, List.mem_of_mem_filter ho0, rfl, rfl⟩)

theorem hi_importStep {nf : List String → List ObjRow} {db db1 : DB}
    {p subNames : List String}
    (h : importStep nf db p subNames = some db1) : hashImported nf db db1 := by
  unfold importStep at h
  by_cases hp : p = []
  · rw [if_pos hp] at h
    cases h
    exact hi_of_hp (hp_refl db)
  · rw [if_neg hp] at h
    by_cases hm : subNames.contains CONFIG_DIR = true
    · rw [if_pos hm] at h
      by_cases he : importErr db (nf p) p = true
      · rw [if_pos he] at h
        exact absurd h (by simp)
      · rw [if_neg he] at h
        cases h
        exact hi_import_objects nf db p
    · rw [if_neg hm] at h
      cases h
      exact hi_of_hp (hp_refl db)

theorem importStep_root (nf : List String → List ObjRow) (db : DB)
    (subNames : List String) : importStep nf db [] subNames = some db := by
  unfold importStep
  rw [if_pos rfl]

theorem importStep_nomarker (nf : List String → List ObjRow) (db : DB)
    (p : List String) (subNames : List String)
    (h : subNames.contains CONFIG_DIR = false) :
    importStep nf db p subNames = some db := by
  unfold importStep
  by_cases hp : p = []
  · rw [if_pos hp]
  · rw [if_neg hp, if_neg (by intro hc; rw [hc] at h; exact absurd h (by decide))]

theorem scan_directory_root (vD vF : String → Bool)
    (nf : List String → List ObjRow) (db : DB)
    (fsFiles : List (String × Stat)) (subNames : List String) :
    scan_directory vD vF nf db [] fsFiles subNames =
      some (scan_directory_plain vD vF db [] fsFiles subNames) := by
  unfold scan_directory
  rw [importStep_root]
  rfl

theorem scan_directory_nomarker (vD vF : String → Bool)
    (nf : List String → List ObjRow) (db : DB) (p : List String)
    (fsFiles : List (String × Stat)) (subNames : List String)
    (h : subNames.contains CONFIG_DIR = false) :
    scan_directory vD vF nf db p fsFiles subNames =
      some (scan_directory_plain vD vF db p fsFiles subNames) := by
  unfold scan_directory
  rw [importStep_nomarker nf db p subNames h]
  rfl

mutual

theorem walkTree_nm (vD vF : String → Bool) (nf : List String → List ObjRow) :
    ∀ (t : FSTree) (db : DB) (p : List String), mfTree vD t = true →
      walkTree vD vF nf db p t = some (walkTreePlain vD vF db p t)
  | .node fsFiles subs, db, p => by
    intro hm
    unfold mfTree at hm
    rw [Bool.and_eq_true] at hm
    have h1 : (fsNames subs).contains CONFIG_DIR = false := by
      rcases hm with ⟨h1, _⟩
      cases hcb : (fsNames subs).contains CONFIG_DIR
      · rfl
      · rw [hcb] at h1
        exact absurd h1 (by decide)
    unfold walkTree walkTreePlain
    rw [scan_directory_nomarker vD vF nf db p fsFiles (fsNames subs) h1]
    exact walkList_nm vD vF nf subs
      (scan_directory_plain vD vF db p fsFiles (fsNames subs)) p hm.2

theorem walkList_nm (vD vF : String → Bool) (nf : List String → List ObjRow) :
    ∀ (l : FSList) (db : DB) (p : List String), mfList vD l = true →
      walkList vD vF nf db p l = some (walkListPlain vD vF db p l)
  | .nil, db, p => by
    intro _
    rfl
  | .cons n t rest, db, p => by
    intro hm
    unfold mfList at hm
    rw [Bool.and_eq_true] at hm
    unfold walkList walkListPlain
    by_cases hv : vD n = true
    · rw [if_pos hv, if_pos hv]
      have hmt : mfTree vD t = true := by
        rcases hm with ⟨h1, _⟩
        cases ht : mfTree vD t
        · rw [hv, ht] at h1
          exact absurd h1 (by decide)
        · rfl
      rw [walkTree_nm vD vF nf t db (p ++ [n]) hmt]
      exact walkList_nm vD vF nf rest (walkTreePlain vD vF db (p ++ [n]) t) p hm.2
    · rw [if_neg hv, if_neg hv]
      exact walkList_nm vD vF nf rest db p hm.2

end

theorem scan_nm (vD vF : String → Bool) (nf : List String → List ObjRow)
    (fs : FSTree) (db : DB) (h : scanMarkerFree vD fs = true) :
    scan vD vF nf fs db = some (scanPlain vD vF fs db) := by
  cases fs with
  | node fsFiles subs =>
    unfold scanMarkerFree at h
    unfold scan scanPlain walkTree walkTreePlain
    rw [scan_directory_root vD vF nf db fsFiles (fsNames subs)]
    rw [Option.some_bind]
    rw [walkList_nm vD vF nf subs
      (scan_directory_plain vD vF db [] fsFiles (fsNames subs)) [] h]
    rfl

mutual

theorem hi_walkTree (vD vF : String → Bool) (nf : List String → List ObjRow) :
    ∀ (t : FSTree) (db d : DB) (p : List String),
      walkTree vD vF nf db p t = some d → hashImported nf db d
  | .node fsFiles subs, db, d, p => by
    intro h
    unfold walkTree at h
    cases hsd : scan_directory vD vF nf db p fsFiles (fsNames subs) with
    | none =>
      rw [hsd] at h
      exact absurd h (by simp)
    | some db1 =>
      rw [hsd] at h
      have h3 : walkList vD vF nf db1 p subs = some d := h
      have h1 : hashImported nf db db1 := by
        unfold scan_directory at hsd
        cases his : importStep nf db p (fsNames subs) with
        | none =>
          rw [his] at hsd
          exact absurd hsd (by simp)
        | some db0 =>
          rw [his] at hsd
          have h2 : some (scan_directory_plain vD vF db0 p fsFiles
              (fsNames subs)) = some db1 := hsd
          cases h2
          exact hi_trans (hi_importStep his)
            (hi_of_hp (hp_scan_directory vD vF db0 p fsFiles (fsNames subs)))
      exact hi_trans h1 (hi_walkList vD vF nf subs db1 d p h3)

theorem hi_walkList (vD vF : String → Bool) (nf : List String → List ObjRow) :
    ∀ (l : FSList) (db d : DB) (p : List String),
      walkList vD vF nf db p l = some d → hashImported nf db d
  | .nil, db, d, p => by
    intro h
    have h2 : some db = some d := h
    cases h2
    exact hi_of_hp (hp_refl db)
  | .cons n t rest, db, d, p => by
    intro h
    unfold walkList at h
    by_cases hv : vD n = true
    · rw [if_pos hv] at h
      cases hwt : walkTree vD vF nf db (p ++ [n]) t with
      | none =>
        rw [hwt] at h
        exact absurd h (by simp)
      | some db1 =>
        rw [hwt] at h
        have h3 : walkList vD vF nf db1 p rest = some d := h
        exact hi_trans (hi_walkTree vD vF nf t db db1 (p ++ [n]) hwt)
          (hi_walkList vD vF nf rest db1 d p h3)
    · rw [if_neg hv] at h
      exact hi_walkList vD vF nf rest db d p h

end

/-- C2 (amended): a completed scan computes no hash of its own — after
`scan`, every ContentObject either has a null hash, or carries exactly
the hash the store already had for that identity before the scan, or
is a verbatim copy (identity and hash) of an object of a nested
index the walk imported.  The walk passes no hash supplier and the
dangling-object pass only deletes rows; only the nested-index import
branch brings hashes in. -/
theorem scan_hash_laziness (vD vF : String → Bool)
    (nf : List String → List ObjRow) (fs : FSTree) (db d : DB)
    (h : scan vD vF nf fs db = some d) : hashImported nf db d := by
  unfold scan at h
  cases hwt : walkTree vD vF nf db [] fs with
  | none =>
    rw [hwt] at h
    exact absurd h (by simp)
  | some d1 =>
    rw [hwt] at h
    have h2 : some (delete_dangled_objects d1) = some d := h
    cases h2
    exact hi_trans (hi_walkTree vD vF nf fs db d1 [] hwt) (hi_of_hp (hp_ddo d1))

theorem scan_hash_laziness_witness :
    hashImported nestedCE dbCE0
      ((scan vDCE allNames nestedCE fsCE dbCE0).getD dbCE0) :=
  scan_hash_laziness vDCE allNames nestedCE fsCE dbCE0
    ((scan vDCE allNames nestedCE fsCE dbCE0).getD dbCE0) (by decide)

/-- C2 counterexample to the frozen claim: on a well-formed tree whose
subdirectory `v` carries a nested-index marker, one completed scan
from an empty store yields an object with a non-null hash — the hash
was not in the store before, it was copied in by the import branch of
`scan_directory` (filemanager.py:315-322, 475-510). -/
theorem scan_hash_import_counterexample :
    wfFS fsCE = true ∧ wfDB dbCE0 = true ∧
    scan vDCE allNames nestedCE fsCE dbCE0 =
      some ((scan vDCE allNames nestedCE fsCE dbCE0).getD dbCE0) ∧
    ¬ hashPreserved dbCE0 ((scan vDCE allNames nestedCE fsCE dbCE0).getD dbCE0) := by
  refine ⟨by decide, by decide, by decide, ?_⟩
  intro h
  rcases h { id := "9:9", size := 3, modified := 7, hash := some 5 } (by decide)
    with h1 | ⟨o0, h0, _, _⟩
  · exact absurd h1 (by decide)
  · exact absurd h0 (List.not_mem_nil o0)

/-- C1 counterexample to the frozen claim: on the same unchanged,
well-formed tree with a nested-index marker, running the scan a second
time is not the identity on the first run's store.  The imported
object survives the first run — the root's non-regular entry puts a
NULL into the NOT IN list of the dangling-object pass, which then
deletes nothing — so the second run's re-import collides on the
identity and dies with `IntegrityError` at the flush following the
branch, outside its `except`. -/
theorem scan_marker_counterexample :
    wfFS fsCE = true ∧ wfDB dbCE0 = true ∧
    scan vDCE allNames nestedCE fsCE dbCE0 ≠ none ∧
    (scan vDCE allNames nestedCE fsCE dbCE0).bind
        (scan vDCE allNames nestedCE fsCE) ≠
      scan vDCE allNames nestedCE fsCE dbCE0 := by
  decide

theorem insortBy_perm {α : Type} (le : α → α → Bool) (x : α) :
    ∀ l : List α, List.Perm (insortBy le x l) (x :: l) := by
  intro l
  induction l with
  | nil => exact List.Perm.refl _
  | cons y ys ih =>
    unfold insortBy
    by_cases h : le y x
    · simp only [h, if_true]
      exact (ih.cons y).trans (List.Perm.swap x y ys)
    · simp only [h, if_false]
      exact List.Perm.refl _

theorem sortBy_perm {α : Type} (le : α → α → Bool) (xs : List α) :
    List.Perm (sortBy le xs) xs := by
  unfold sortBy
  suffices h : ∀ (l acc : List α),
      List.Perm (l.foldl (fun acc x => insortBy le x acc) acc) (acc ++ l) by
    simpa using h xs []
  intro l
  induction l with
  | nil => intro acc; simp
  | cons x rest ih =>
    intro acc
    simp only [List.foldl_cons]
    refine (ih (insortBy le x acc)).trans ?_
    refine ((insortBy_perm le x acc).append_right rest).trans ?_
    exact List.perm_middle.symm

theorem sortedB_insort {α : Type} (le : α → α → Bool)
    (htot : ∀ a b, le a b || le b a) (x : α) :
    ∀ l, sortedByB le l = true → sortedByB le (insortBy le x l) = true := by
  intro l
  induction l with
  | nil => intro _; rfl
  | cons y ys ih =>
    intro hs
    unfold insortBy
    by_cases hyx : le y x
    · simp only [hyx, if_true]
      cases ys with
      | nil => simp [sortedByB, insortBy, hyx]
      | cons z zs =>
        have hyz : le y z := by
          have := hs
          simp only [sortedByB, Bool.and_eq_true] at this
          exact this.1
        have hzzs : sortedByB le (z :: zs) = true := by
          have := hs
          simp only [sortedByB, Bool.and_eq_true] at this
          exact this.2
        have hins := ih hzzs
        unfold insortBy at hins ⊢
        by_cases hzx : le z x
        · simp only [hzx, if_true] at hins ⊢
          simp only [sortedByB, Bool.and_eq_true]
          exact ⟨hyz, hins⟩
        · simp only [hzx, if_false] at hins ⊢
          simp only [sortedByB, Bool.and_eq_true] at hins ⊢
          exact ⟨hyx, hins⟩
    · simp only [hyx, if_false]
      have hxy : le x y := by
        have h2 := htot x y
        rcases (Bool.or_eq_true _ _).mp h2 with h2 | h2
        · exact h2
        · exact absurd h2 hyx
      simp only [sortedByB, Bool.and_eq_true]
      exact ⟨hxy, hs⟩

theorem sortedB_sortBy {α : Type} (le : α → α → Bool)
    (htot : ∀ a b, le a b || le b a) (xs : List α) :
    sortedByB le (sortBy le xs) = true := by
  unfold sortBy
  suffices h : ∀ (l acc : List α), sortedByB le acc = true →
      sortedByB le (l.foldl (fun acc x => insortBy le x acc) acc) = true by
    exact h xs [] rfl
  intro l
  induction l with
  | nil => intro acc h; exact h
  | cons x rest ih =>
    intro acc h
    simp only [List.foldl_cons]
    exact ih _ (sortedB_insort le htot x acc h)

theorem pairwise_of_sortedByB {α : Type} (le : α → α → Bool)
    (htrans : ∀ a b c, le a b = true → le b c = true → le a c = true) :
    ∀ l : List α, sortedByB le l = true → l.Pairwise (fun a b => le a b = true) := by
  intro l
  induction l with
  | nil => intro _; exact List.Pairwise.nil
  | cons a l ih =>
    intro hs
    cases l with
    | nil => exact List.pairwise_singleton _ _
    | cons b t =>
      simp only [sortedByB, Bool.and_eq_true] at hs
      have hpw := ih hs.2
      refine List.pairwise_cons.mpr ⟨?_, hpw⟩
      intro c hc
      rcases List.mem_cons.mp hc with hc | hc
      · subst hc; exact hs.1
      · have hb := (List.pairwise_cons.mp hpw).1 c hc
        exact htrans a b c hs.1 hb

theorem sortedByB_of_pairwise {α : Type} (le : α → α → Bool) :
    ∀ l : List α, l.Pairwise (fun a b => le a b = true) → sortedByB le l = true := by
  intro l
  induction l with
  | nil => intro _; rfl
  | cons a l ih =>
    intro hpw
    rcases List.pairwise_cons.mp hpw with ⟨hhead, htail⟩
    cases l with
    | nil => rfl
    | cons b t =>
      simp only [sortedByB, Bool.and_eq_true]
      exact ⟨hhead b (List.mem_cons_self _ _), ih htail⟩

theorem sortedByB_sublist {α : Type} (le : α → α → Bool)
    (htrans : ∀ a b c, le a b = true → le b c = true → le a c = true)
    {l s : List α} (hsub : List.Sublist s l) (hl : sortedByB le l = true) :
    sortedByB le s = true :=
  sortedByB_of_pairwise le s ((pairwise_of_sortedByB le htrans l hl).sublist hsub)

theorem sortedByB_append_single {α : Type} (le : α → α → Bool) :
    ∀ (l : List α) (x : α), sortedByB le l = true →
      (∀ a ∈ l, le a x = true) → sortedByB le (l ++ [x]) = true := by
  intro l
  induction l with
  | nil => intro x _ _; rfl
  | cons a l ih =>
    intro x hs hb
    cases l with
    | nil =>
      simp only [List.nil_append, List.singleton_append, sortedByB, Bool.and_eq_true]
      exact ⟨hb a (List.mem_cons_self _ _), trivial⟩
    | cons b t =>
      simp only [sortedByB, Bool.and_eq_true] at hs
      have := ih x hs.2 (fun c hc => hb c (List.mem_cons_of_mem _ hc))
      simp only [List.cons_append, sortedByB, Bool.and_eq_true]
      constructor
      · exact hs.1
      · simpa [List.cons_append] using this

theorem dupInsert_keys (dups : List (Nat × List FileRow)) (k : Nat) (f : FileRow) :
    (dupInsert dups k f).map Prod.fst =
      if dups.any (fun kv => kv.1 = k) then dups.map Prod.fst
      else dups.map Prod.fst ++ [k] := by
  unfold dupInsert
  by_cases h : dups.any (fun kv => kv.1 = k)
  · simp only [h, if_true, List.map_map]
    apply List.map_congr_left
    intro kv _
    by_cases hk : kv.1 = k <;> simp [hk]
  · simp [h]

theorem dupFold_keys_sorted (kle : Nat → Nat → Bool)
    (keyf : FileRow × ObjRow → Nat) :
    ∀ (items : List (FileRow × ObjRow)) (dups : List (Nat × List FileRow)),
      items.Pairwise (fun p q => kle (keyf p) (keyf q) = true) →
      sortedByB kle (dups.map Prod.fst) = true →
      (∀ k ∈ dups.map Prod.fst, ∀ p ∈ items, kle k (keyf p) = true) →
      sortedByB kle
        ((items.foldl (fun d p => dupInsert d (keyf p) p.1) dups).map Prod.fst) = true := by
  intro items
  induction items with
  | nil => intro dups _ hs _; exact hs
  | cons p rest ih =>
    intro dups hpw hs hb
    simp only [List.foldl_cons]
    rcases List.pairwise_cons.mp hpw with ⟨hphead, hptail⟩
    refine ih _ hptail ?_ ?_
    · rw [dupInsert_keys]
      by_cases hc : dups.any (fun kv => kv.1 = keyf p)
      · simpa [hc] using hs
      · simp only [hc, if_false]
        exact sortedByB_append_single kle _ _ hs
          (fun a ha => hb a ha p (List.mem_cons_self _ _))
    · intro k hk q hq
      rw [dupInsert_keys] at hk
      by_cases hc : dups.any (fun kv => kv.1 = keyf p)
      · rw [if_pos hc] at hk
        exact hb k hk q (List.mem_cons_of_mem _ hq)
      · rw [if_neg hc] at hk
        rcases List.mem_append.mp hk with hk | hk
        · exact hb k hk q (List.mem_cons_of_mem _ hq)
        · rw [List.mem_singleton.mp hk]
          exact hphead q hq

theorem dupFold_members_sublist (keyf : FileRow × ObjRow → Nat) :
    ∀ (items : List (FileRow × ObjRow)) (dups : List (Nat × List FileRow))
      (pre : List FileRow),
      (∀ kv ∈ dups, List.Sublist kv.2 pre) →
      ∀ kv ∈ items.foldl (fun d p => dupInsert d (keyf p) p.1) dups,
        List.Sublist kv.2 (pre ++ items.map Prod.fst) := by
  intro items
  induction items with
  | nil =>
    intro dups pre h kv hkv
    simpa using h kv hkv
  | cons p rest ih =>
    intro dups pre h kv hkv
    simp only [List.foldl_cons] at hkv
    have h2 : ∀ kv ∈ dupInsert dups (keyf p) p.1, List.Sublist kv.2 (pre ++ [p.1]) := by
      intro kv hkv
      unfold dupInsert at hkv
      by_cases hc : dups.any (fun kv => kv.1 = keyf p)
      · rw [if_pos hc] at hkv
        rcases List.mem_map.mp hkv with ⟨kv0, hkv0, hkveq⟩
        by_cases hk : kv0.1 = keyf p
        · rw [if_pos hk] at hkveq
          subst hkveq
          exact (h kv0 hkv0).append (List.Sublist.refl [p.1])
        · rw [if_neg hk] at hkveq
          subst hkveq
          exact (h kv0 hkv0).trans (List.sublist_append_left pre [p.1])
      · rw [if_neg hc] at hkv
        rcases List.mem_append.mp hkv with hkv | hkv
        · exact (h kv hkv).trans (List.sublist_append_left pre [p.1])
        · rw [List.mem_singleton.mp hkv]
          exact (List.nil_sublist pre).append (List.Sublist.refl [p.1])
    have := ih (dupInsert dups (keyf p) p.1) (pre ++ [p.1]) h2 kv hkv
    simpa [List.append_assoc] using this

theorem find?_id_self {l : List ObjRow}
    (hnd : (l.map (fun o => o.id)).Nodup) {o : ObjRow} (ho : o ∈ l) :
    l.find? (fun x => x.id = o.id) = some o := by
  induction l with
  | nil => exact absurd ho (List.not_mem_nil o)
  | cons a rest ih =>
    simp only [List.map_cons, List.nodup_cons] at hnd
    rcases List.mem_cons.mp ho with ho | ho
    · subst ho
      simp [List.find?_cons]
    · have hne : a.id ≠ o.id := by
        intro he
        exact hnd.1 (he ▸ List.mem_map_of_mem (fun x => x.id) ho)
      rw [List.find?_cons_of_neg _ (by simpa using hne)]
      exact ih hnd.2 ho

theorem duplicateItems_mem (db : DB) {p : FileRow × ObjRow}
    (hp : p ∈ duplicateItems db) :
    p.2 ∈ db.objects ∧
    (db.objects.filter (fun x => x.size = p.2.size)).length > 1 := by
  unfold duplicateItems at hp
  have hp2 := (sortBy_perm _ _).mem_iff.mp hp
  rcases List.mem_filter.mp hp2 with ⟨hpp, hshared⟩
  refine ⟨?_, by simpa using of_decide_eq_true hshared⟩
  rcases List.mem_filterMap.mp hpp with ⟨f, _, hmatch⟩
  simp only [Option.bind_eq_some, Option.map_eq_some'] at hmatch
  rcases hmatch with ⟨i, hobj, o, hfind, hpo⟩
  rw [← hpo]
  exact List.mem_of_find?_eq_some hfind

theorem findDupStep_frozen (oracle : List String → Nat) (db : DB)
    (dups : List (Nat × List FileRow)) (p : FileRow × ObjRow)
    (hnd : (db.objects.map (fun o => o.id)).Nodup)
    (hmem : p.2 ∈ db.objects) (hh : p.2.hash ≠ none) :
    findDupStep oracle (db, dups) p = (db, dupInsert dups (p.2.hash.getD 0) p.1) := by
  unfold findDupStep
  have hfind : db.objects.find? (fun x => x.id = p.2.id) = some p.2 :=
    find?_id_self hnd hmem
  simp only [hfind]
  cases hph : p.2.hash with
  | none => exact absurd hph hh
  | some h => simp [hph]

theorem findDup_fold_frozen (oracle : List String → Nat) (db : DB)
    (hnd : (db.objects.map (fun o => o.id)).Nodup) :
    ∀ (items : List (FileRow × ObjRow)) (dups : List (Nat × List FileRow)),
      (∀ p ∈ items, p.2 ∈ db.objects ∧ p.2.hash ≠ none) →
      items.foldl (findDupStep oracle) (db, dups) =
        (db, items.foldl (fun d p => dupInsert d (p.2.hash.getD 0) p.1) dups) := by
  intro items
  induction items with
  | nil => intro dups _; rfl
  | cons p rest ih =>
    intro dups hfacts
    simp only [List.foldl_cons]
    rw [findDupStep_frozen oracle db dups p hnd (hfacts p (List.mem_cons_self _ _)).1
      (hfacts p (List.mem_cons_self _ _)).2]
    exact ih _ (fun q hq => hfacts q (List.mem_cons_of_mem _ hq))

theorem pairLe_total (p q : FileRow × ObjRow) : pairLe p q || pairLe q p := by
  unfold pairLe optLe
  rcases p with ⟨f1, o1⟩
  rcases q with ⟨f2, o2⟩
  simp only [Bool.or_eq_true, Bool.and_eq_true, decide_eq_true_eq, beq_iff_eq]
  rcases Nat.lt_trichotomy o1.size o2.size with h | h | h
  · exact Or.inl (Or.inl h)
  · cases h1 : o1.hash <;> cases h2 : o2.hash <;>
      simp_all <;> omega
  · exact Or.inr (Or.inl h)

theorem pairLe_trans (p q r : FileRow × ObjRow)
    (h1 : pairLe p q = true) (h2 : pairLe q r = true) : pairLe p r = true := by
  unfold pairLe optLe at *
  rcases p with ⟨f1, o1⟩
  rcases q with ⟨f2, o2⟩
  rcases r with ⟨f3, o3⟩
  simp only [Bool.or_eq_true, Bool.and_eq_true, decide_eq_true_eq, beq_iff_eq] at *
  rcases h1 with h1 | ⟨h1s, h1h⟩ <;> rcases h2 with h2 | ⟨h2s, h2h⟩
  · exact Or.inl (h1.trans h2)
  · exact Or.inl (h2s ▸ h1)
  · exact Or.inl (h1s ▸ h2)
  · refine Or.inr ⟨h1s.trans h2s, ?_⟩
    cases ha : o1.hash <;> cases hb : o2.hash <;> cases hc : o3.hash <;>
      simp_all <;> omega

theorem groupKeyLe_trans (db : DB) (a b c : Nat)
    (h1 : groupKeyLe db a b = true) (h2 : groupKeyLe db b c = true) :
    groupKeyLe db a c = true := by
  unfold groupKeyLe at *
  simp only [Bool.or_eq_true, Bool.and_eq_true, decide_eq_true_eq, beq_iff_eq] at *
  rcases h1 with h1 | ⟨h1s, h1h⟩ <;> rcases h2 with h2 | ⟨h2s, h2h⟩
  · exact Or.inl (h1.trans h2)
  · exact Or.inl (h2s ▸ h1)
  · exact Or.inl (h1s ▸ h2)
  · exact Or.inr ⟨h1s.trans h2s, h1h.trans h2h⟩

theorem hash_size_lookup (db : DB)
    (hsz : ∀ o1 ∈ db.objects, ∀ o2 ∈ db.objects,
      o1.hash = o2.hash → o1.hash ≠ none → o1.size = o2.size)
    {o : ObjRow} (ho : o ∈ db.objects) {k : Nat} (hk : o.hash = some k) :
    ((db.objects.find? (fun x => x.hash = some k)).map (fun x => x.size)).getD 0 =
      o.size := by
  have hsome : (db.objects.find? (fun x => x.hash = some k)).isSome := by
    rw [List.find?_isSome]
    exact ⟨o, ho, by simpa using hk⟩
  rcases Option.isSome_iff_exists.mp hsome with ⟨o1, ho1⟩
  have ho1mem := List.mem_of_find?_eq_some ho1
  have ho1h : o1.hash = some k := by
    have := List.find?_some ho1
    exact of_decide_eq_true this
  rw [ho1]
  simp only [Option.map_some', Option.getD_some]
  exact hsz o1 ho1mem o ho (by rw [ho1h, hk]) (by rw [ho1h]; exact fun hc => Option.noConfusion hc)

theorem pairLe_to_groupKeyLe (db : DB)
    (hsz : ∀ o1 ∈ db.objects, ∀ o2 ∈ db.objects,
      o1.hash = o2.hash → o1.hash ≠ none → o1.size = o2.size)
    {p q : FileRow × ObjRow}
    (hp : p.2 ∈ db.objects) (hq : q.2 ∈ db.objects)
    (hph : p.2.hash ≠ none) (hqh : q.2.hash ≠ none)
    (hle : pairLe p q = true) :
    groupKeyLe db (p.2.hash.getD 0) (q.2.hash.getD 0) = true := by
  cases hP : p.2.hash with
  | none => exact absurd hP hph
  | some kp =>
  cases hQ : q.2.hash with
  | none => exact absurd hQ hqh
  | some kq =>
  unfold groupKeyLe
  simp only [hP, hQ, Option.getD_some]
  have hA := hash_size_lookup db hsz hp hP
  have hB := hash_size_lookup db hsz hq hQ
  simp only [Bool.or_eq_true, Bool.and_eq_true, decide_eq_true_eq, beq_iff_eq]
  rw [hA, hB]
  unfold pairLe optLe at hle
  rw [hP, hQ] at hle
  simp only [Bool.or_eq_true, Bool.and_eq_true, decide_eq_true_eq, beq_iff_eq] at hle
  exact hle

/-- C4 amended: when every content object whose size is shared already
stores a hash and equal hashes entail equal sizes (no collisions), the
store is untouched, the groups returned by `find_duplicates` are
ordered by `(size, hash)`, and within each group the member rows appear
in the order of the underlying query result (which is ordered only by
`(size, hash)`, ties left in table order — not by path and name). -/
theorem find_duplicates_ordering (db : DB) (oracle : List String → Nat)
    (hnodup : (db.objects.map (fun o => o.id)).Nodup)
    (hall : ∀ o ∈ db.objects,
      (db.objects.filter (fun x => x.size = o.size)).length > 1 → o.hash ≠ none)
    (hsz : ∀ o1 ∈ db.objects, ∀ o2 ∈ db.objects,
      o1.hash = o2.hash → o1.hash ≠ none → o1.size = o2.size) :
    (find_duplicates oracle db).1 = db ∧
    (∀ kv ∈ (find_duplicates oracle db).2,
      List.Sublist kv.2 ((duplicateItems db).map Prod.fst)) ∧
    sortedByB (groupKeyLe db) ((find_duplicates oracle db).2.map Prod.fst) = true := by
  have hfacts : ∀ p ∈ duplicateItems db, p.2 ∈ db.objects ∧ p.2.hash ≠ none := by
    intro p hp
    rcases duplicateItems_mem db hp with ⟨hmem, hshared⟩
    exact ⟨hmem, hall p.2 hmem hshared⟩
  have hfrozen := findDup_fold_frozen oracle db hnodup (duplicateItems db) [] hfacts
  have hsorted : sortedByB pairLe (duplicateItems db) = true := by
    unfold duplicateItems
    exact sortedB_sortBy pairLe pairLe_total _
  have hpw : (duplicateItems db).Pairwise (fun p q => pairLe p q = true) :=
    pairwise_of_sortedByB pairLe pairLe_trans _ hsorted
  have hpwkeys : (duplicateItems db).Pairwise (fun p q =>
      groupKeyLe db (p.2.hash.getD 0) (q.2.hash.getD 0) = true) := by
    refine List.Pairwise.imp_of_mem ?_ hpw
    intro p q hp hq hle
    exact pairLe_to_groupKeyLe db hsz (hfacts p hp).1 (hfacts q hq).1
      (hfacts p hp).2 (hfacts q hq).2 hle
  refine ⟨?_, ?_, ?_⟩
  · unfold find_duplicates
    rw [hfrozen]
  · intro kv hkv
    unfold find_duplicates at hkv
    rw [hfrozen] at hkv
    have hkv2 := List.mem_of_mem_filter hkv
    have := dupFold_members_sublist (fun p => p.2.hash.getD 0) (duplicateItems db)
      [] [] (by intro kv h; exact absurd h (List.not_mem_nil kv)) kv hkv2
    simpa using this
  · unfold find_duplicates
    rw [hfrozen]
    have hkeys := dupFold_keys_sorted (groupKeyLe db) (fun p => p.2.hash.getD 0)
      (duplicateItems db) [] hpwkeys rfl
      (by intro k hk; exact absurd hk (List.not_mem_nil k))
    refine sortedByB_sublist (groupKeyLe db) (groupKeyLe_trans db) ?_ hkeys
    exact (List.filter_sublist _).map Prod.fst

theorem find_duplicates_ordering_witness :
    (find_duplicates oracle0 dbC4).1 = dbC4 ∧
    (∀ kv ∈ (find_duplicates oracle0 dbC4).2,
      List.Sublist kv.2 ((duplicateItems dbC4).map Prod.fst)) ∧
    sortedByB (groupKeyLe dbC4) ((find_duplicates oracle0 dbC4).2.map Prod.fst) = true :=
  find_duplicates_ordering dbC4 oracle0 (by decide) (by decide) (by decide)

theorem key_inj {α β : Type} [DecidableEq β] {key : α → β} {l : List α}
    (h : (l.map key).Nodup) {x y : α} (hx : x ∈ l) (hy : y ∈ l)
    (hk : key x = key y) : x = y := by
  induction l with
  | nil => exact absurd hx (List.not_mem_nil x)
  | cons a rest ih =>
    simp only [List.map_cons, List.nodup_cons] at h
    rcases List.mem_cons.mp hx with hx1 | hx1
    · rcases List.mem_cons.mp hy with hy1 | hy1
      · rw [hx1, hy1]
      · subst hx1
        exact absurd (hk ▸ List.mem_map_of_mem key hy1) h.1
    · rcases List.mem_cons.mp hy with hy1 | hy1
      · subst hy1
        exact absurd (hk ▸ List.mem_map_of_mem key hx1) h.1
      · exact ih h.2 hx1 hy1

theorem find?_key_self {α β : Type} [DecidableEq β] (key : α → β) {l : List α}
    (h : (l.map key).Nodup) {x : α} (hx : x ∈ l) :
    l.find? (fun y => key y = key x) = some x := by
  induction l with
  | nil => exact absurd hx (List.not_mem_nil x)
  | cons a rest ih =>
    simp only [List.map_cons, List.nodup_cons] at h
    rcases List.mem_cons.mp hx with hx | hx
    · subst hx
      simp [List.find?_cons]
    · have hne : key a ≠ key x := by
        intro he
        exact h.1 (he ▸ List.mem_map_of_mem key hx)
      rw [List.find?_cons_of_neg _ (by simpa using hne)]
      exact ih h.2 hx

theorem find?_none_forall {α : Type} {p : α → Bool} {l : List α}
    (h : l.find? p = none) : ∀ x ∈ l, p x = false := by
  intro x hx
  have := List.find?_eq_none.mp h x hx
  simpa using this

theorem commonLen_append (p l : List String) : commonLen (p ++ l) p = p.length := by
  induction p with
  | nil => cases l <;> rfl
  | cons a p ih => simp [commonLen, ih]

theorem relpath_child (p : List String) (n : String) :
    relpathComp (p ++ [n]) p = [n] := by
  unfold relpathComp
  rw [commonLen_append]
  simp

theorem joinPath_single (n : String) : joinPath [n] = n := rfl

theorem underEq_refl (p : List String) : UnderEq p p := ⟨[], by simp⟩

theorem underEq_of_strict {p q : List String} (h : StrictUnder p q) : UnderEq p q := by
  rcases h with ⟨s, _, hs⟩
  exact ⟨s, hs⟩

theorem strictUnder_append (p : List String) (n : String) (s : List String) :
    StrictUnder p (p ++ n :: s) := ⟨n :: s, by simp, rfl⟩

theorem underEq_trans {p q r : List String} (h1 : UnderEq p q) (h2 : UnderEq q r) :
    UnderEq p r := by
  rcases h1 with ⟨s1, h1⟩
  rcases h2 with ⟨s2, h2⟩
  exact ⟨s1 ++ s2, by rw [← h2, ← h1, List.append_assoc]⟩

theorem underEq_length {p q : List String} (h : UnderEq p q) : p.length ≤ q.length := by
  rcases h with ⟨s, hs⟩
  rw [← hs]
  simp

theorem strictUnder_length {p q : List String} (h : StrictUnder p q) :
    p.length < q.length := by
  rcases h with ⟨s, hne, hs⟩
  rw [← hs]
  cases s with
  | nil => exact absurd rfl hne
  | cons a t => simp

theorem underEq_antisymm {p q : List String} (h1 : UnderEq p q) (h2 : UnderEq q p) :
    p = q := by
  rcases h1 with ⟨s1, hs1⟩
  have hlen : s1 = [] := by
    have l1 := underEq_length ⟨s1, hs1⟩
    have l2 := underEq_length h2
    have : p.length + s1.length = q.length := by rw [← hs1]; simp
    have : s1.length = 0 := by omega
    exact List.eq_nil_of_length_eq_zero this
  rw [← hs1, hlen, List.append_nil]

theorem underEq_siblings {q : List String} {n1 n2 : String} (hne : n1 ≠ n2)
    {x : List String} (h1 : UnderEq (q ++ [n1]) x) (h2 : UnderEq (q ++ [n2]) x) :
    False := by
  rcases h1 with ⟨s1, hs1⟩
  rcases h2 with ⟨s2, hs2⟩
  rw [← hs2] at hs1
  rw [List.append_assoc, List.append_assoc] at hs1
  have := List.append_cancel_left hs1
  simp only [List.cons_append, List.cons.injEq] at this
  exact hne this.1

theorem underEq_step {p q : List String} {n : String} (h : UnderEq (p ++ [n]) q) :
    StrictUnder p q := by
  rcases h with ⟨s, hs⟩
  exact ⟨n :: s, by simp, by rw [← hs]; simp⟩

theorem strictUnder_cases {p q : List String} (h : StrictUnder p q) :
    ∃ n s, q = p ++ n :: s := by
  rcases h with ⟨s, hne, hs⟩
  cases s with
  | nil => exact absurd rfl hne
  | cons a t => exact ⟨a, t, hs.symm⟩

theorem dbInv_of_wfDB {db : DB} (h : wfDB db = true) : DBInv db := by
  unfold wfDB at h
  simp only [Bool.and_eq_true, decide_eq_true_eq, List.all_eq_true,
    List.any_eq_true, decide_eq_true_eq] at h
  obtain ⟨⟨⟨⟨⟨⟨⟨⟨h1, h2⟩, h3⟩, h4⟩, h5⟩, h6⟩, h7⟩, h8⟩, h9⟩ := h
  refine ⟨h1, h2, h3, h4, ?_, h6, h7, h8, h9⟩
  intro d hd q hq
  have hm : (match db.dirs.find? (fun x => x.id = q) with
      | some pd => decide (d.path ≠ []) && decide (pd.path = d.path.dropLast)
      | none => false) = true := by
    have := h5 d hd
    unfold dirParentOk at this
    rw [hq] at this
    exact this
  revert hm
  cases hf : db.dirs.find? (fun x => x.id = q) with
  | none => intro hm; exact absurd hm (by simp)
  | some pd =>
    intro hcond
    simp only [Bool.and_eq_true, decide_eq_true_eq] at hcond
    have hpdmem := List.mem_of_find?_eq_some hf
    have hpdid : pd.id = q := by
      have h2 := List.find?_some hf
      exact of_decide_eq_true h2
    exact ⟨pd, hpdmem, hpdid, hcond.1, hcond.2⟩

theorem sc_of_statsConsistent {ss : List Stat} (h : statsConsistent ss = true) :
    SC ss := by
  unfold statsConsistent at h
  simp only [List.all_eq_true, Bool.or_eq_true, Bool.not_eq_true',
    Bool.and_eq_true, beq_iff_eq, beq_eq_false_iff_ne] at h
  intro a ha b hb hoid
  rcases h a ha b hb with hco | hco
  · exact absurd hoid hco
  · exact hco

theorem sc_sublist {s1 s2 : List Stat} (hsub : ∀ x ∈ s1, x ∈ s2) (h : SC s2) :
    SC s1 :=
  fun a ha b hb => h a (hsub a ha) b (hsub b hb)

theorem ensure_directory_found {db : DB} {p : List String} {r : DirRow}
    (h : get_directory db p = some r) (pd : Option DirRow) :
    ensure_directory db p pd = (db, r) := by
  unfold ensure_directory
  rw [h]

theorem ensure_directory_new {db : DB} {p : List String}
    (h : get_directory db p = none) (pd : Option DirRow) :
    ensure_directory db p pd =
      ({ db with
          dirs := db.dirs ++
            [{ id := db.nextDir, path := p, parent_id := pd.map (fun x => x.id) }],
          nextDir := db.nextDir + 1 },
       { id := db.nextDir, path := p, parent_id := pd.map (fun x => x.id) }) := by
  unfold ensure_directory
  rw [h]

theorem resolveObj_objOf (db : DB) (oid : String) (f : FileRow) :
    resolveObj db oid (objOf db f) = db.objects.find? (fun x => x.id = oid) := by
  unfold resolveObj objOf
  cases hobj : f.object_id with
  | none => rfl
  | some i =>
    dsimp only
    cases hfind : db.objects.find? (fun o => o.id = i) with
    | none => rfl
    | some o =>
      dsimp only
      have hoid : o.id = i := by
        have := List.find?_some hfind
        exact of_decide_eq_true this
      by_cases hio : o.id = oid
      · rw [if_pos hio]
        have hi : i = oid := hoid.symm.trans hio
        rw [hi] at hfind
        exact hfind.symm
      · rw [if_neg hio]

theorem ensure_object_nonreg {db : DB} {st : Stat} (h : S_ISREG st.mode = false)
    (gh : Option Nat) (obj : Option ObjRow) :
    ensure_object db st gh obj = (db, none) := by
  unfold ensure_object
  rw [h]
  rfl

theorem ensure_object_create {db : DB} {st : Stat} {obj : Option ObjRow}
    (hreg : S_ISREG st.mode = true)
    (hres : resolveObj db (oid_of st) obj = none) (gh : Option Nat) :
    ensure_object db st gh obj =
      ({ db with objects := db.objects ++
          [{ id := oid_of st, modified := st.mtime, size := st.size, hash := gh }] },
       some { id := oid_of st, modified := st.mtime, size := st.size, hash := gh }) := by
  unfold ensure_object
  rw [hreg, hres]
  rfl

theorem ensure_object_update {db : DB} {st : Stat} {obj : Option ObjRow} {o : ObjRow}
    (hreg : S_ISREG st.mode = true)
    (hres : resolveObj db (oid_of st) obj = some o)
    (hcond : o.modified ≠ st.mtime ∨ o.size ≠ st.size ∨ o.hash = none)
    (gh : Option Nat) :
    ensure_object db st gh obj =
      ({ db with objects := db.objects.map (fun x => if x.id = o.id then
          { x with modified := st.mtime, size := st.size, hash := gh } else x) },
       some { o with modified := st.mtime, size := st.size, hash := gh }) := by
  unfold ensure_object
  rw [hreg, hres]
  simp only [Bool.not_true, Bool.false_eq_true, if_false, hcond, if_true]

theorem ensure_object_skip {db : DB} {st : Stat} {obj : Option ObjRow} {o : ObjRow}
    (hreg : S_ISREG st.mode = true)
    (hres : resolveObj db (oid_of st) obj = some o)
    (hmt : o.modified = st.mtime) (hsz : o.size = st.size) (hh : o.hash ≠ none)
    (gh : Option Nat) :
    ensure_object db st gh obj = (db, some o) := by
  unfold ensure_object
  rw [hreg, hres]
  have hcond : ¬(o.modified ≠ st.mtime ∨ o.size ≠ st.size ∨ o.hash = none) := by
    push_neg
    exact ⟨hmt, hsz, hh⟩
  simp only [Bool.not_true, Bool.false_eq_true, if_false, hcond, if_true]

theorem find?_upd_other (l : List ObjRow) (tid k : String) (sz mt : Nat)
    (hs : Option Nat) (hne : k ≠ tid) :
    (l.map (fun x => if x.id = tid then
      { x with modified := mt, size := sz, hash := hs } else x)).find?
        (fun x => x.id = k) = l.find? (fun x => x.id = k) := by
  induction l with
  | nil => rfl
  | cons a l ih =>
    simp only [List.map_cons]
    by_cases hat : a.id = tid
    · rw [if_pos hat]
      have hak : ¬ (a.id = k) := by
        rw [hat]
        exact fun h => hne h.symm
      rw [List.find?_cons_of_neg _ (by simpa using hak),
          List.find?_cons_of_neg _ (by simpa using hak)]
      exact ih
    · rw [if_neg hat]
      by_cases hak : a.id = k
      · rw [List.find?_cons_of_pos _ (by simpa using hak),
            List.find?_cons_of_pos _ (by simpa using hak)]
      · rw [List.find?_cons_of_neg _ (by simpa using hak),
            List.find?_cons_of_neg _ (by simpa using hak)]
        exact ih

theorem resolveObj_id {db : DB} {oid : String} {obj : Option ObjRow} {o : ObjRow}
    (h : resolveObj db oid obj = some o) : o.id = oid := by
  unfold resolveObj at h
  cases obj with
  | none =>
    dsimp only at h
    have := List.find?_some h
    exact of_decide_eq_true this
  | some o2 =>
    dsimp only at h
    by_cases ho2 : o2.id = oid
    · rw [if_pos ho2] at h
      cases h
      exact ho2
    · rw [if_neg ho2] at h
      have := List.find?_some h
      exact of_decide_eq_true this

theorem resolveObj_none {db : DB} {oid : String} {obj : Option ObjRow}
    (h : resolveObj db oid obj = none) :
    db.objects.find? (fun x => x.id = oid) = none := by
  unfold resolveObj at h
  cases obj with
  | none => exact h
  | some o2 =>
    dsimp only at h
    by_cases ho2 : o2.id = oid
    · rw [if_pos ho2] at h
      exact absurd h (by simp)
    · rw [if_neg ho2] at h
      exact h

theorem objFact_ensure (db : DB) (st : Stat) (obj : Option ObjRow)
    (hreg : S_ISREG st.mode = true)
    (hres : resolveObj db (oid_of st) obj =
      db.objects.find? (fun x => x.id = oid_of st)) :
    ObjFact (ensure_object db st none obj).1 (oid_of st) st.size st.mtime ∧
    (∃ ob, (ensure_object db st none obj).2 = some ob ∧ ob.id = oid_of st) := by
  cases hfind : db.objects.find? (fun x => x.id = oid_of st) with
  | none =>
    rw [ensure_object_create hreg (hres.trans hfind) none]
    constructor
    · refine ⟨{ id := oid_of st, modified := st.mtime, size := st.size, hash := none },
        ?_, rfl, rfl⟩
      rw [List.find?_append, hfind]
      simp [List.find?_cons]
    · exact ⟨_, rfl, rfl⟩
  | some o =>
    have hoid : o.id = oid_of st := by
      have := List.find?_some hfind
      exact of_decide_eq_true this
    by_cases hcond : o.modified ≠ st.mtime ∨ o.size ≠ st.size ∨ o.hash = none
    · rw [ensure_object_update hreg (hres.trans hfind) hcond none]
      constructor
      · refine ⟨{ o with modified := st.mtime, size := st.size, hash := none },
          ?_, rfl, rfl⟩
        rw [hoid, find?_map_upd, hfind]
        simp [hoid]
      · exact ⟨_, rfl, hoid⟩
    · push_neg at hcond
      rw [ensure_object_skip hreg (hres.trans hfind) hcond.1 hcond.2.1 hcond.2.2 none]
      exact ⟨⟨o, hfind, hcond.2.1, hcond.1⟩, ⟨o, rfl, hoid⟩⟩

theorem objPres_ensure (db : DB) (st : Stat) (obj : Option ObjRow)
    (oid : String) (sz mt : Nat) (hfact : ObjFact db oid sz mt)
    (hcons : oid = oid_of st → st.size = sz ∧ st.mtime = mt) :
    ObjFact (ensure_object db st none obj).1 oid sz mt := by
  cases hreg : S_ISREG st.mode with
  | false => rw [ensure_object_nonreg hreg]; exact hfact
  | true =>
    cases hres : resolveObj db (oid_of st) obj with
    | none =>
      rw [ensure_object_create hreg hres none]
      rcases hfact with ⟨o0, hf0, hsz0, hmt0⟩
      refine ⟨o0, ?_, hsz0, hmt0⟩
      rw [List.find?_append, hf0]
      rfl
    | some o =>
      have hoid : o.id = oid_of st := resolveObj_id hres
      by_cases hcond : o.modified ≠ st.mtime ∨ o.size ≠ st.size ∨ o.hash = none
      · rw [ensure_object_update hreg hres hcond none]
        by_cases hk : oid = oid_of st
        · rcases hcons hk with ⟨hszc, hmtc⟩
          rcases hfact with ⟨o0, hf0, _, _⟩
          refine ⟨{ o0 with modified := st.mtime, size := st.size, hash := none },
            ?_, hszc, hmtc⟩
          rw [hoid, ← hk] at *
          rw [find?_map_upd, hf0]
          simp
        · rcases hfact with ⟨o0, hf0, hsz0, hmt0⟩
          refine ⟨o0, ?_, hsz0, hmt0⟩
          rw [hoid, find?_upd_other db.objects (oid_of st) oid st.size st.mtime none hk,
            hf0]
      · push_neg at hcond
        rw [ensure_object_skip hreg hres hcond.1 hcond.2.1 hcond.2.2 none]
        exact hfact

theorem ensure_object_frame (db : DB) (st : Stat) (gh : Option Nat)
    (obj : Option ObjRow) :
    (ensure_object db st gh obj).1.files = db.files ∧
    (ensure_object db st gh obj).1.dirs = db.dirs ∧
    (ensure_object db st gh obj).1.nextDir = db.nextDir ∧
    (ensure_object db st gh obj).1.nextFile = db.nextFile := by
  cases hreg : S_ISREG st.mode with
  | false => rw [ensure_object_nonreg hreg]; exact ⟨rfl, rfl, rfl, rfl⟩
  | true =>
    cases hres : resolveObj db (oid_of st) obj with
    | none => rw [ensure_object_create hreg hres gh]; exact ⟨rfl, rfl, rfl, rfl⟩
    | some o =>
      by_cases hcond : o.modified ≠ st.mtime ∨ o.size ≠ st.size ∨ o.hash = none
      · rw [ensure_object_update hreg hres hcond gh]; exact ⟨rfl, rfl, rfl, rfl⟩
      · push_neg at hcond
        rw [ensure_object_skip hreg hres hcond.1 hcond.2.1 hcond.2.2 gh]
        exact ⟨rfl, rfl, rfl, rfl⟩

theorem ensure_object_objIds (db : DB) (st : Stat) (gh : Option Nat)
    (obj : Option ObjRow)
    (hnd : (db.objects.map (fun o => o.id)).Nodup) :
    ((ensure_object db st gh obj).1.objects.map (fun o => o.id)).Nodup := by
  cases hreg : S_ISREG st.mode with
  | false => rw [ensure_object_nonreg hreg]; exact hnd
  | true =>
    cases hres : resolveObj db (oid_of st) obj with
    | none =>
      rw [ensure_object_create hreg hres gh]
      have hfind := resolveObj_none hres
      have hnotin : oid_of st ∉ db.objects.map (fun o => o.id) := by
        intro hmem
        rcases List.mem_map.mp hmem with ⟨x, hx, hxid⟩
        have := find?_none_forall hfind x hx
        simp [hxid] at this
      simp only [List.map_append, List.map_cons, List.map_nil]
      rw [List.nodup_append]
      refine ⟨hnd, List.nodup_singleton _, ?_⟩
      intro a ha hb
      rw [List.mem_singleton.mp hb] at ha
      exact hnotin ha
    | some o =>
      by_cases hcond : o.modified ≠ st.mtime ∨ o.size ≠ st.size ∨ o.hash = none
      · rw [ensure_object_update hreg hres hcond gh]
        have : ((db.objects.map (fun x => if x.id = o.id then
            { x with modified := st.mtime, size := st.size, hash := gh } else x)).map
              (fun o => o.id)) = db.objects.map (fun o => o.id) := by
          rw [List.map_map]
          apply List.map_congr_left
          intro x _
          by_cases hx : x.id = o.id <;> simp [hx]
        rw [this]
        exact hnd
      · push_neg at hcond
        rw [ensure_object_skip hreg hres hcond.1 hcond.2.1 hcond.2.2 gh]
        exact hnd

theorem update_file_eq_map {db : DB} {f : FileRow} (oid : Option String)
    (hmem : f ∈ db.files) (hnd : (db.files.map (fun x => x.id)).Nodup) :
    update_file db f oid =
      { db with files := db.files.map (fun x => if x.id = f.id then
          { x with object_id := oid } else x) } := by
  unfold update_file
  by_cases he : f.object_id = oid
  · rw [if_pos he]
    have hmapid : db.files.map (fun x => if x.id = f.id then
        { x with object_id := oid } else x) = db.files := by
      have hpt : ∀ x ∈ db.files, (if x.id = f.id then
          { x with object_id := oid } else x) = x := by
        intro x hx
        by_cases hid : x.id = f.id
        · rw [if_pos hid]
          have hxf : x = f := key_inj hnd hx hmem hid
          subst hxf
          rw [← he]
        · rw [if_neg hid]
      rw [List.map_congr_left hpt]
      simp
    rw [hmapid]
  · rw [if_neg he]

theorem update_file_rest (db : DB) (f : FileRow) (oid : Option String) :
    (update_file db f oid).dirs = db.dirs ∧
    (update_file db f oid).objects = db.objects ∧
    (update_file db f oid).nextDir = db.nextDir ∧
    (update_file db f oid).nextFile = db.nextFile := by
  unfold update_file
  split
  · exact ⟨rfl, rfl, rfl, rfl⟩
  · exact ⟨rfl, rfl, rfl, rfl⟩

theorem statOf_mem {fls : List (String × Stat)}
    (hnd : (fls.map (fun e => e.1)).Nodup) {n : String} {st : Stat}
    (h : (n, st) ∈ fls) : statOf fls n = st := by
  induction fls with
  | nil => exact absurd h (List.not_mem_nil _)
  | cons e rest ih =>
    simp only [List.map_cons, List.nodup_cons] at hnd
    rcases List.mem_cons.mp h with h1 | h1
    · unfold statOf
      rw [← h1]
      simp [List.find?_cons]
    · have hne : e.1 ≠ n := by
        intro he
        apply hnd.1
        have : (n, st).1 ∈ rest.map (fun e => e.1) :=
          List.mem_map_of_mem (fun e => e.1) h1
        simpa [he] using this
      unfold statOf at *
      rw [List.find?_cons_of_neg _ (by simpa using hne)]
      exact ih hnd.2 h1

theorem statOf_self {fls : List (String × Stat)} {n : String}
    (h : n ∈ fls.map (fun e => e.1)) : (n, statOf fls n) ∈ fls := by
  induction fls with
  | nil => exact absurd h (List.not_mem_nil _)
  | cons e rest ih =>
    rcases List.mem_cons.mp h with h1 | h1
    · unfold statOf
      rw [List.find?_cons_of_pos _ (by simpa using h1.symm)]
      have : (n, e.2) = e := by
        rcases e with ⟨en, est⟩
        simp only at h1
        rw [h1]
      rw [← this] at *
      exact List.mem_cons_self _ _
    · by_cases he : e.1 = n
      · unfold statOf
        rw [List.find?_cons_of_pos _ (by simpa using he)]
        have : (n, e.2) = e := by
          rcases e with ⟨en, est⟩
          simp only at he
          rw [he]
        rw [← this] at *
        exact List.mem_cons_self _ _
      · unfold statOf at *
        rw [List.find?_cons_of_neg _ (by simpa using he)]
        exact List.mem_cons_of_mem _ (ih h1)

theorem strictUnder_underEq {p q r : List String} (h1 : StrictUnder p q)
    (h2 : UnderEq q r) : StrictUnder p r := by
  rcases h1 with ⟨s1, hne, hs1⟩
  rcases h2 with ⟨s2, hs2⟩
  refine ⟨s1 ++ s2, ?_, ?_⟩
  · cases s1 with
    | nil => exact absurd rfl hne
    | cons a t => simp
  · rw [← hs2, ← hs1, List.append_assoc]

theorem childClosureStep_mem {dirs : List DirRow} {s : List Nat} {i : Nat} :
    i ∈ childClosureStep dirs s ↔
      i ∈ s ∨ ∃ d ∈ dirs, d.id = i ∧ s.contains d.id = false ∧
        ∃ q, d.parent_id = some q ∧ s.contains q = true := by
  unfold childClosureStep
  rw [List.mem_append]
  constructor
  · rintro (h | h)
    · exact Or.inl h
    · rcases List.mem_map.mp h with ⟨d, hd, hdi⟩
      rcases List.mem_filter.mp hd with ⟨hdmem, hcond⟩
      rw [Bool.and_eq_true] at hcond
      rcases hcond with ⟨hnc, hpc⟩
      cases hpar : d.parent_id with
      | none => rw [hpar] at hpc; exact absurd hpc (by simp)
      | some q =>
        rw [hpar] at hpc
        simp only [Option.map_some', Option.getD_some] at hpc
        exact Or.inr ⟨d, hdmem, hdi, by simpa using hnc, q, hpar, hpc⟩
  · rintro (h | h)
    · exact Or.inl h
    · rcases h with ⟨d, hdmem, hdi, hnc, q, hq, hqc⟩
      refine Or.inr (List.mem_map.mpr ⟨d, List.mem_filter.mpr ⟨hdmem, ?_⟩, hdi⟩)
      rw [Bool.and_eq_true, hq]
      exact ⟨by simpa using hnc, by simpa using hqc⟩

theorem childClosure_mono (dirs : List DirRow) :
    ∀ (fuel : Nat) (s : List Nat), ∀ i ∈ s, i ∈ childClosure fuel dirs s := by
  intro fuel
  induction fuel with
  | zero => intro s i hi; exact hi
  | succ n ih =>
    intro s i hi
    exact ih (childClosureStep dirs s) i (List.mem_append_left _ hi)

theorem childClosure_sound (dirs : List DirRow)
    (hnd : (dirs.map (fun d => d.id)).Nodup)
    (hpar : ∀ d ∈ dirs, ∀ q, d.parent_id = some q →
      ∃ pd ∈ dirs, pd.id = q ∧ d.path ≠ [] ∧ pd.path = d.path.dropLast)
    (cid : Nat) :
    ∀ (fuel : Nat) (s : List Nat),
      (∀ i ∈ s, i = cid ∨ ∃ c ∈ dirs, c.id = cid ∧
        ∃ d ∈ dirs, d.id = i ∧ StrictUnder c.path d.path) →
      ∀ i ∈ childClosure fuel dirs s,
        i = cid ∨ ∃ c ∈ dirs, c.id = cid ∧
          ∃ d ∈ dirs, d.id = i ∧ StrictUnder c.path d.path := by
  intro fuel
  induction fuel with
  | zero => intro s hs i hi; exact hs i hi
  | succ n ih =>
    intro s hs i hi
    refine ih (childClosureStep dirs s) ?_ i hi
    intro j hj
    rcases childClosureStep_mem.mp hj with hj | ⟨d, hdmem, hdi, _, q, hq, hqc⟩
    · exact hs j hj
    · have hqs : q ∈ s := by
        have := hqc
        simp only [List.contains_iff_exists_mem_beq] at this
        rcases this with ⟨x, hx, hbeq⟩
        rwa [show q = x from by simpa using hbeq]
      rcases hpar d hdmem q hq with ⟨pd, hpdmem, hpdid, hdne, hpdpath⟩
      have hstrictext : StrictUnder pd.path d.path := by
        refine ⟨[d.path.getLast hdne], by simp, ?_⟩
        rw [hpdpath]
        exact List.dropLast_append_getLast hdne
      rcases hs q hqs with hqcid | ⟨c, hcmem, hcid, dq, hdqmem, hdqid, hstrict⟩
      · subst hqcid
        exact Or.inr ⟨pd, hpdmem, hpdid, d, hdmem, hdi, hstrictext⟩
      · have hpddq : pd = dq := key_inj hnd hpdmem hdqmem (by rw [hpdid, hdqid])
        refine Or.inr ⟨c, hcmem, hcid, d, hdmem, hdi, ?_⟩
        exact strictUnder_underEq (hpddq ▸ hstrict) (underEq_of_strict hstrictext)

theorem natContains_iff {l : List Nat} {a : Nat} : l.contains a = true ↔ a ∈ l := by
  constructor
  · intro h
    rcases List.contains_iff_exists_mem_beq.mp h with ⟨x, hx, hbeq⟩
    rwa [show a = x from by simpa using hbeq]
  · intro h
    exact List.contains_iff_exists_mem_beq.mpr ⟨a, h, by simp⟩

theorem filter_length_imp_le {α : Type} {l : List α} {p q : α → Bool}
    (himp : ∀ x ∈ l, p x = true → q x = true) :
    (l.filter p).length ≤ (l.filter q).length := by
  induction l with
  | nil => exact Nat.le_refl _
  | cons a t ih =>
    have ih' := ih (fun x hx => himp x (List.mem_cons_of_mem _ hx))
    cases hp : p a with
    | true =>
      have hq := himp a (List.mem_cons_self _ _) hp
      rw [List.filter_cons_of_pos (by simpa using hp),
          List.filter_cons_of_pos (by simpa using hq)]
      simpa using ih'
    | false =>
      rw [List.filter_cons_of_neg (by simpa using hp)]
      cases hq : q a with
      | true =>
        rw [List.filter_cons_of_pos (by simpa using hq)]
        exact Nat.le_trans ih' (by simp)
      | false =>
        rw [List.filter_cons_of_neg (by simpa using hq)]
        exact ih'

theorem filter_length_lt {α : Type} {l : List α} {p q : α → Bool}
    (himp : ∀ x ∈ l, p x = true → q x = true) {x0 : α} (hx0 : x0 ∈ l)
    (hq0 : q x0 = true) (hp0 : p x0 = false) :
    (l.filter p).length < (l.filter q).length := by
  induction l with
  | nil => exact absurd hx0 (List.not_mem_nil _)
  | cons a t ih =>
    have himp' : ∀ x ∈ t, p x = true → q x = true :=
      fun x hx => himp x (List.mem_cons_of_mem _ hx)
    rcases List.mem_cons.mp hx0 with h1 | h1
    · subst h1
      rw [List.filter_cons_of_neg (by simpa using hp0),
          List.filter_cons_of_pos (by simpa using hq0)]
      exact Nat.lt_succ_of_le (filter_length_imp_le himp')
    · have ihs := ih himp' h1
      cases hp : p a with
      | true =>
        have hqa := himp a (List.mem_cons_self _ _) hp
        rw [List.filter_cons_of_pos (by simpa using hp),
            List.filter_cons_of_pos (by simpa using hqa)]
        simpa using ihs
      | false =>
        rw [List.filter_cons_of_neg (by simpa using hp)]
        cases hqa : q a with
        | true =>
          rw [List.filter_cons_of_pos (by simpa using hqa)]
          exact Nat.lt_trans ihs (by simp)
        | false =>
          rw [List.filter_cons_of_neg (by simpa using hqa)]
          exact ihs

theorem childClosureStep_eq_self {dirs : List DirRow} {s : List Nat}
    (h : dirs.filter (fun d =>
      !(s.contains d.id) &&
      (d.parent_id.map (fun q => s.contains q)).getD false) = []) :
    childClosureStep dirs s = s := by
  unfold childClosureStep
  rw [h]
  simp

theorem childClosure_of_fix {dirs : List DirRow} {s : List Nat}
    (hfix : childClosureStep dirs s = s) :
    ∀ n, childClosure n dirs s = s := by
  intro n
  induction n with
  | zero => rfl
  | succ m ih =>
    show childClosure m dirs (childClosureStep dirs s) = s
    rw [hfix]
    exact ih

theorem childClosureStep_uncov (dirs : List DirRow) (s : List Nat)
    (hne : childClosureStep dirs s ≠ s) :
    (dirs.filter (fun d => !((childClosureStep dirs s).contains d.id))).length <
      (dirs.filter (fun d => !(s.contains d.id))).length := by
  have hfne : dirs.filter (fun d =>
      !(s.contains d.id) &&
      (d.parent_id.map (fun q => s.contains q)).getD false) ≠ [] := by
    intro h
    exact hne (childClosureStep_eq_self h)
  rcases List.exists_mem_of_ne_nil _ hfne with ⟨d0, hd0⟩
  rcases List.mem_filter.mp hd0 with ⟨hd0mem, hd0pred⟩
  rw [Bool.and_eq_true] at hd0pred
  have hd0in : (childClosureStep dirs s).contains d0.id = true := by
    apply natContains_iff.mpr
    unfold childClosureStep
    exact List.mem_append_right _ (List.mem_map_of_mem _ hd0)
  refine filter_length_lt ?_ hd0mem (by simpa using hd0pred.1) (by simpa using hd0in)
  intro x hx hpx
  simp only [Bool.not_eq_true'] at hpx ⊢
  cases hcx : s.contains x.id with
  | false => rfl
  | true =>
    exfalso
    have : (childClosureStep dirs s).contains x.id = true := by
      apply natContains_iff.mpr
      unfold childClosureStep
      exact List.mem_append_left _ (natContains_iff.mp hcx)
    rw [this] at hpx
    exact Bool.true_eq_false.mp hpx

theorem childClosure_saturates (dirs : List DirRow) :
    ∀ (fuel : Nat) (s : List Nat),
      (dirs.filter (fun d => !(s.contains d.id))).length ≤ fuel →
      childClosureStep dirs (childClosure fuel dirs s) = childClosure fuel dirs s := by
  intro fuel
  induction fuel with
  | zero =>
    intro s hlen
    have hnil : dirs.filter (fun d => !(s.contains d.id)) = [] :=
      List.eq_nil_of_length_eq_zero (Nat.le_zero.mp hlen)
    show childClosureStep dirs s = s
    apply childClosureStep_eq_self
    cases hne : dirs.filter (fun d =>
        !(s.contains d.id) &&
        (d.parent_id.map (fun q => s.contains q)).getD false) with
    | nil => rfl
    | cons a t =>
      exfalso
      have ha : a ∈ dirs.filter (fun d =>
          !(s.contains d.id) &&
          (d.parent_id.map (fun q => s.contains q)).getD false) := by
        rw [hne]; exact List.mem_cons_self _ _
      rcases List.mem_filter.mp ha with ⟨hamem, hapred⟩
      rw [Bool.and_eq_true] at hapred
      have : a ∈ dirs.filter (fun d => !(s.contains d.id)) :=
        List.mem_filter.mpr ⟨hamem, hapred.1⟩
      rw [hnil] at this
      exact List.not_mem_nil _ this
  | succ m ih =>
    intro s hlen
    show childClosureStep dirs (childClosure m dirs (childClosureStep dirs s)) =
      childClosure m dirs (childClosureStep dirs s)
    by_cases hstep : childClosureStep dirs s = s
    · rw [hstep, childClosure_of_fix hstep m]
      exact hstep
    · have hless := childClosureStep_uncov dirs s hstep
      exact ih (childClosureStep dirs s) (by omega)

theorem childClosure_closed {dirs : List DirRow} {F : List Nat}
    (hfix : childClosureStep dirs F = F) :
    ∀ d ∈ dirs, ∀ q, d.parent_id = some q → F.contains q = true →
      F.contains d.id = true := by
  intro d hd q hq hqF
  cases hdF : F.contains d.id with
  | true => rfl
  | false =>
    exfalso
    have hmem : d ∈ dirs.filter (fun d =>
        !(F.contains d.id) &&
        (d.parent_id.map (fun q => F.contains q)).getD false) := by
      refine List.mem_filter.mpr ⟨hd, ?_⟩
      rw [Bool.and_eq_true, hdF, hq]
      refine ⟨rfl, ?_⟩
      simp only [Option.map_some', Option.getD_some]
      exact hqF
    have hfix2 : F ++ (dirs.filter (fun d =>
        !(F.contains d.id) &&
        (d.parent_id.map (fun q => F.contains q)).getD false)).map (fun d => d.id) =
        F ++ [] := by
      rw [List.append_nil]
      exact hfix
    have hX := List.append_cancel_left hfix2
    have : d.id ∈ ([] : List Nat) := by
      rw [← hX]
      exact List.mem_map_of_mem _ hmem
    exact List.not_mem_nil _ this

theorem cascade_mem_dirs {db : DB} {rootId : Nat} {d : DirRow} :
    d ∈ (cascade_delete_directory db rootId).dirs ↔
      d ∈ db.dirs ∧
      (childClosure db.dirs.length db.dirs [rootId]).contains d.id = false := by
  unfold cascade_delete_directory
  rw [List.mem_filter]
  simp only [Bool.not_eq_true']

theorem cascade_mem_files {db : DB} {rootId : Nat} {f : FileRow} :
    f ∈ (cascade_delete_directory db rootId).files ↔
      f ∈ db.files ∧
      (childClosure db.dirs.length db.dirs [rootId]).contains f.path_id = false := by
  unfold cascade_delete_directory
  rw [List.mem_filter]
  simp only [Bool.not_eq_true']

theorem cascade_rest (db : DB) (rootId : Nat) :
    (cascade_delete_directory db rootId).objects = db.objects ∧
    (cascade_delete_directory db rootId).nextDir = db.nextDir ∧
    (cascade_delete_directory db rootId).nextFile = db.nextFile := by
  unfold cascade_delete_directory
  exact ⟨rfl, rfl, rfl⟩

theorem cascade_doomed_strict {db : DB} {rootId : Nat} {p : List String}
    (hInv : DBInv db)
    (hsub : ∀ d ∈ db.dirs, d.id = rootId → StrictUnder p d.path) :
    ∀ d ∈ db.dirs,
      (childClosure db.dirs.length db.dirs [rootId]).contains d.id = true →
      StrictUnder p d.path := by
  intro d hd hcon
  have hmem := natContains_iff.mp hcon
  have hsound := childClosure_sound db.dirs hInv.dirIds hInv.parentOk rootId
    db.dirs.length [rootId]
    (fun j hj => Or.inl (List.mem_singleton.mp hj)) d.id hmem
  rcases hsound with h | ⟨cc, hccmem, hccid, d2, hd2, hdi, hstrict⟩
  · exact hsub d hd h
  · have hd2d : d2 = d := key_inj hInv.dirIds hd2 hd hdi
    subst hd2d
    exact strictUnder_underEq (hsub cc hccmem hccid) (underEq_of_strict hstrict)

theorem cascade_dirs_keep {db : DB} {rootId : Nat} {p : List String} (hInv : DBInv db)
    (hsub : ∀ d ∈ db.dirs, d.id = rootId → StrictUnder p d.path) :
    ∀ d ∈ db.dirs, ¬ StrictUnder p d.path →
      d ∈ (cascade_delete_directory db rootId).dirs := by
  intro d hd hn
  refine cascade_mem_dirs.mpr ⟨hd, ?_⟩
  cases hcon : (childClosure db.dirs.length db.dirs [rootId]).contains d.id with
  | false => rfl
  | true => exact absurd (cascade_doomed_strict hInv hsub d hd hcon) hn

theorem cascade_files_keep {db : DB} {rootId : Nat} {p : List String} (hInv : DBInv db)
    (hsub : ∀ d ∈ db.dirs, d.id = rootId → StrictUnder p d.path) :
    ∀ f ∈ db.files, (∀ d ∈ db.dirs, d.id = f.path_id → ¬ StrictUnder p d.path) →
      f ∈ (cascade_delete_directory db rootId).files := by
  intro f hf hdirs
  refine cascade_mem_files.mpr ⟨hf, ?_⟩
  cases hcon : (childClosure db.dirs.length db.dirs [rootId]).contains f.path_id with
  | false => rfl
  | true =>
    exfalso
    have hmem := natContains_iff.mp hcon
    have hsound := childClosure_sound db.dirs hInv.dirIds hInv.parentOk rootId
      db.dirs.length [rootId]
      (fun j hj => Or.inl (List.mem_singleton.mp hj)) f.path_id hmem
    rcases hsound with h | ⟨cc, hccmem, hccid, d2, hd2, hdi, hstrict⟩
    · rcases hInv.fileFK f hf with ⟨d0, hd0, hd0id⟩
      exact hdirs d0 hd0 hd0id (hsub d0 hd0 (by rw [hd0id, h]))
    · exact hdirs d2 hd2 hdi
        (strictUnder_underEq (hsub cc hccmem hccid) (underEq_of_strict hstrict))

theorem cascade_inv {db : DB} (hInv : DBInv db) (rootId : Nat) :
    DBInv (cascade_delete_directory db rootId) := by
  have hfix := childClosure_saturates db.dirs db.dirs.length [rootId]
    (List.length_filter_le _ _)
  have hdirsub : (cascade_delete_directory db rootId).dirs.Sublist db.dirs := by
    unfold cascade_delete_directory
    exact List.filter_sublist _
  have hfilesub : (cascade_delete_directory db rootId).files.Sublist db.files := by
    unfold cascade_delete_directory
    exact List.filter_sublist _
  rcases cascade_rest db rootId with ⟨hobj, hnd, hnf⟩
  refine ⟨(hdirsub.map _).nodup hInv.dirIds, (hdirsub.map _).nodup hInv.dirPaths,
    (hfilesub.map _).nodup hInv.fileIds, ?_, ?_, ?_, ?_, ?_,
    (hfilesub.map _).nodup hInv.fileNames⟩
  · rw [hobj]
    exact hInv.objIds
  · intro d hd q hq
    rcases cascade_mem_dirs.mp hd with ⟨hdmem, hdcon⟩
    rcases hInv.parentOk d hdmem q hq with ⟨pd, hpd, hpdid, hne, hpath⟩
    refine ⟨pd, ?_, hpdid, hne, hpath⟩
    refine cascade_mem_dirs.mpr ⟨hpd, ?_⟩
    cases hcon : (childClosure db.dirs.length db.dirs [rootId]).contains pd.id with
    | false => rfl
    | true =>
      exfalso
      have := childClosure_closed hfix d hdmem q hq (by rw [← hpdid]; exact hcon)
      rw [this] at hdcon
      exact Bool.true_eq_false.mp hdcon
  · intro d hd
    rw [hnd]
    exact hInv.dirFresh d (cascade_mem_dirs.mp hd).1
  · intro f hf
    rw [hnf]
    exact hInv.fileFresh f (cascade_mem_files.mp hf).1
  · intro f hf
    rcases cascade_mem_files.mp hf with ⟨hfmem, hfcon⟩
    rcases hInv.fileFK f hfmem with ⟨d0, hd0, hd0id⟩
    refine ⟨d0, cascade_mem_dirs.mpr ⟨hd0, ?_⟩, hd0id⟩
    rw [hd0id]
    exact hfcon

theorem cascade_evolves {db : DB} {rootId : Nat} {p : List String} (ss : List Stat)
    (hInv : DBInv db)
    (hsub : ∀ d ∈ db.dirs, d.id = rootId → StrictUnder p d.path) :
    EvolvesR ss (fun x => StrictUnder p x) db (cascade_delete_directory db rootId) := by
  rcases cascade_rest db rootId with ⟨hobj, hnd, hnf⟩
  refine ⟨?_, ?_, ?_, ?_, ?_, by rw [hnd], by rw [hnf]⟩
  · intro d hd hnr
    exact cascade_dirs_keep hInv hsub d hd hnr
  · intro d hd
    exact Or.inl (cascade_mem_dirs.mp hd).1
  · intro f hf hdirs
    exact cascade_files_keep hInv hsub f hf hdirs
  · intro f hf
    exact Or.inl (cascade_mem_files.mp hf).1
  · intro oid sz mt _ hfact
    unfold ObjFact at hfact ⊢
    rw [hobj]
    exact hfact

theorem containsB_iff {α : Type} [BEq α] [LawfulBEq α] {l : List α} {a : α} :
    l.contains a = true ↔ a ∈ l := by
  constructor
  · intro h
    rcases List.contains_iff_exists_mem_beq.mp h with ⟨x, hx, hbeq⟩
    rwa [show a = x from by simpa using hbeq]
  · intro h
    exact List.contains_iff_exists_mem_beq.mpr ⟨a, h, by simp⟩

theorem strictUnder_irrefl (p : List String) : ¬ StrictUnder p p := by
  intro h
  exact Nat.lt_irrefl _ (strictUnder_length h)

theorem get_directory_some {db : DB} {p : List String} {r : DirRow}
    (h : get_directory db p = some r) : r ∈ db.dirs ∧ r.path = p := by
  unfold get_directory at h
  have h2 := List.find?_some h
  exact ⟨List.mem_of_find?_eq_some h, of_decide_eq_true h2⟩

theorem get_directory_of_mem {db : DB} {r : DirRow}
    (hnd : (db.dirs.map (fun d => d.path)).Nodup) (hr : r ∈ db.dirs) :
    get_directory db r.path = some r := by
  unfold get_directory
  exact find?_key_self (fun d => d.path) hnd hr

theorem scanParent_some {db : DB} {p : List String} (hp : p ≠ [])
    {rp : DirRow} (hrp : rp ∈ db.dirs) (hpath : rp.path = p.dropLast)
    (hnd : (db.dirs.map (fun d => d.path)).Nodup) :
    scanParent db p = some rp := by
  unfold scanParent
  rw [if_neg hp, ← hpath]
  exact get_directory_of_mem hnd hrp

theorem ensure_directory_spec {db : DB} {p : List String} {db1 : DB} {r : DirRow}
    (hInv : DBInv db)
    (hpar : p = [] ∨ ∃ rp ∈ db.dirs, rp.path = p.dropLast)
    (heq : ensure_directory db p (scanParent db p) = (db1, r)) :
    DBInv db1 ∧ r ∈ db1.dirs ∧ r.path = p ∧
    (∀ d ∈ db.dirs, d ∈ db1.dirs) ∧
    (∀ d ∈ db1.dirs, d ∈ db.dirs ∨ (d.path = p ∧ db.nextDir ≤ d.id)) ∧
    db1.files = db.files ∧ db1.objects = db.objects ∧
    db.nextDir ≤ db1.nextDir ∧ db1.nextFile = db.nextFile := by
  cases hg : get_directory db p with
  | some d =>
    rw [ensure_directory_found hg _] at heq
    rcases Prod.mk.injEq .. ▸ heq with ⟨h1, h2⟩
    subst h1
    subst h2
    rcases get_directory_some hg with ⟨hmem, hpath⟩
    exact ⟨hInv, hmem, hpath, fun d hd => hd, fun d hd => Or.inl hd, rfl, rfl,
      Nat.le_refl _, rfl⟩
  | none =>
    rw [ensure_directory_new hg _] at heq
    rcases Prod.mk.injEq .. ▸ heq with ⟨h1, h2⟩
    subst h1
    have hnotpath : ∀ d ∈ db.dirs, d.path ≠ p := by
      intro d hd he
      have := find?_none_forall hg d hd
      simp [he] at this
    have hparfact : ∀ q, (scanParent db p).map (fun x => x.id) = some q →
        ∃ pd ∈ db.dirs, pd.id = q ∧ p ≠ [] ∧ pd.path = p.dropLast := by
      intro q hq
      rcases Option.map_eq_some'.mp hq with ⟨rp, hrp, hrpid⟩
      have hpne : p ≠ [] := by
        intro he
        subst he
        rw [show scanParent db [] = none from rfl] at hrp
        exact Option.noConfusion hrp
      unfold scanParent at hrp
      rw [if_neg hpne] at hrp
      rcases get_directory_some hrp with ⟨hmem, hpath⟩
      exact ⟨rp, hmem, hrpid.symm ▸ rfl, hpne, hpath⟩
    subst h2
    refine ⟨?_, ?_, rfl, ?_, ?_, rfl, rfl, Nat.le_succ _, rfl⟩
    · constructor
      · simp only [List.map_append, List.map_cons, List.map_nil]
        rw [List.nodup_append]
        refine ⟨hInv.dirIds, List.nodup_singleton _, ?_⟩
        intro a ha hb
        rw [List.mem_singleton.mp hb] at ha
        rcases List.mem_map.mp ha with ⟨x, hx, hxid⟩
        have := hInv.dirFresh x hx
        omega
      · simp only [List.map_append, List.map_cons, List.map_nil]
        rw [List.nodup_append]
        refine ⟨hInv.dirPaths, List.nodup_singleton _, ?_⟩
        intro a ha hb
        rw [List.mem_singleton.mp hb] at ha
        rcases List.mem_map.mp ha with ⟨x, hx, hxp⟩
        exact hnotpath x hx hxp
      · exact hInv.fileIds
      · exact hInv.objIds
      · intro d hd q hq
        rcases List.mem_append.mp hd with hd1 | hd1
        · rcases hInv.parentOk d hd1 q hq with ⟨pd, hpd, hpdid, hne, hpath⟩
          exact ⟨pd, List.mem_append_left _ hpd, hpdid, hne, hpath⟩
        · rw [List.mem_singleton.mp hd1] at hq ⊢
          rcases hparfact q hq with ⟨pd, hpd, hpdid, hne, hpath⟩
          exact ⟨pd, List.mem_append_left _ hpd, hpdid, hne, hpath⟩
      · intro d hd
        rcases List.mem_append.mp hd with hd1 | hd1
        · show d.id < db.nextDir + 1
          have := hInv.dirFresh d hd1
          omega
        · rw [List.mem_singleton.mp hd1]
          exact Nat.lt_succ_self _
      · intro f hf
        exact hInv.fileFresh f hf
      · intro f hf
        rcases hInv.fileFK f hf with ⟨d0, hd0, hd0id⟩
        exact ⟨d0, List.mem_append_left _ hd0, hd0id⟩
      · exact hInv.fileNames
    · exact List.mem_append_right _ (List.mem_singleton_self _)
    · intro d hd
      exact List.mem_append_left _ hd
    · intro d hd
      rcases List.mem_append.mp hd with hd1 | hd1
      · exact Or.inl hd1
      · rw [List.mem_singleton.mp hd1]
        exact Or.inr ⟨rfl, Nat.le_refl _⟩

theorem evolvesR_refl (ss : List Stat) (R : List String → Prop) (db : DB) :
    EvolvesR ss R db db :=
  ⟨fun d hd _ => hd, fun d hd => Or.inl hd, fun f hf _ => hf,
   fun f hf => Or.inl hf, fun _ _ _ _ h => h, Nat.le_refl _, Nat.le_refl _⟩

theorem evolvesR_mono {ss : List Stat} {R R2 : List String → Prop} {db db2 : DB}
    (h : EvolvesR ss R db db2) (hsub : ∀ x, R x → R2 x) :
    EvolvesR ss R2 db db2 := by
  obtain ⟨h1, h2, h3, h4, h5, h6, h7⟩ := h
  refine ⟨?_, ?_, ?_, ?_, h5, h6, h7⟩
  · intro d hd hnr
    exact h1 d hd (fun hr => hnr (hsub _ hr))
  · intro d hd
    rcases h2 d hd with h | ⟨hr, hid⟩
    · exact Or.inl h
    · exact Or.inr ⟨hsub _ hr, hid⟩
  · intro f hf hdirs
    exact h3 f hf (fun d hd hid hr => hdirs d hd hid (hsub _ hr))
  · intro f hf
    rcases h4 f hf with h | ⟨d, hd, hid, hr⟩
    · exact Or.inl h
    · exact Or.inr ⟨d, hd, hid, hsub _ hr⟩

theorem evolvesR_trans {ss : List Stat} {R : List String → Prop} {db db2 db3 : DB}
    (hInv : DBInv db) (hInv2 : DBInv db2) (hInv3 : DBInv db3)
    (h : EvolvesR ss R db db2) (h' : EvolvesR ss R db2 db3) :
    EvolvesR ss R db db3 := by
  obtain ⟨h1, h2, h3, h4, h5, h6, h7⟩ := h
  obtain ⟨g1, g2, g3, g4, g5, g6, g7⟩ := h'
  refine ⟨?_, ?_, ?_, ?_,
    fun oid sz mt hsi hfact => g5 oid sz mt hsi (h5 oid sz mt hsi hfact),
    Nat.le_trans h6 g6, Nat.le_trans h7 g7⟩
  · intro d hd hnr
    exact g1 d (h1 d hd hnr) hnr
  · intro d hd
    rcases g2 d hd with hmid | ⟨hr, hid⟩
    · rcases h2 d hmid with hold | ⟨hr, hid⟩
      · exact Or.inl hold
      · exact Or.inr ⟨hr, hid⟩
    · exact Or.inr ⟨hr, Nat.le_trans h6 hid⟩
  · intro f hf hdirs
    have hf2 : f ∈ db2.files := h3 f hf hdirs
    refine g3 f hf2 ?_
    intro d hd hid
    rcases h2 d hd with hold | ⟨hr, hfresh⟩
    · exact hdirs d hold hid
    · exfalso
      rcases hInv.fileFK f hf with ⟨d0, hd0, hd0id⟩
      have : d0.id < db.nextDir := hInv.dirFresh d0 hd0
      omega
  · intro f hf
    rcases g4 f hf with hmid | ⟨d, hd, hid, hr⟩
    · rcases h4 f hmid with hold | ⟨d', hd', hid', hr'⟩
      · exact Or.inl hold
      · rcases hInv3.fileFK f hf with ⟨d3, hd3, hd3id⟩
        refine Or.inr ⟨d3, hd3, hd3id, ?_⟩
        rcases g2 d3 hd3 with hmid2 | ⟨hr3, _⟩
        · have : d3 = d' := key_inj hInv2.dirIds hmid2 hd' (by rw [hd3id, hid'])
          rw [this]
          exact hr'
        · exact hr3
    · exact Or.inr ⟨d, hd, hid, hr⟩

theorem childDel_fold_spec (ss : List Stat) (p : List String) (ds : List String) :
    ∀ (cs : List DirRow) (dbA : DB), DBInv dbA →
      (∀ c ∈ cs, ∀ d ∈ dbA.dirs, d.id = c.id → StrictUnder p d.path) →
      DBInv (cs.foldl (childDelStep p ds) dbA) ∧
      EvolvesR ss (fun x => StrictUnder p x) dbA (cs.foldl (childDelStep p ds) dbA) ∧
      (∀ d ∈ (cs.foldl (childDelStep p ds) dbA).dirs, d ∈ dbA.dirs) ∧
      (∀ f ∈ (cs.foldl (childDelStep p ds) dbA).files, f ∈ dbA.files) ∧
      (cs.foldl (childDelStep p ds) dbA).objects = dbA.objects ∧
      (cs.foldl (childDelStep p ds) dbA).nextDir = dbA.nextDir ∧
      (cs.foldl (childDelStep p ds) dbA).nextFile = dbA.nextFile ∧
      (∀ c ∈ cs, ds.contains (joinPath (relpathComp c.path p)) = false →
        ∀ d ∈ (cs.foldl (childDelStep p ds) dbA).dirs, d.id ≠ c.id) := by
  intro cs
  induction cs with
  | nil =>
    intro dbA hInv _
    exact ⟨hInv, evolvesR_refl _ _ _, fun d hd => hd, fun f hf => hf, rfl, rfl, rfl,
      by intro c hc; exact absurd hc (List.not_mem_nil _)⟩
  | cons c0 rest ih =>
    intro dbA hInv hcs
    rw [List.foldl_cons]
    by_cases htest : ds.contains (joinPath (relpathComp c0.path p)) = true
    · have hstep : childDelStep p ds dbA c0 = dbA := by
        unfold childDelStep
        rw [if_pos htest]
      rw [hstep]
      obtain ⟨i1, i2, i3, i4, i5, i6, i7, i8⟩ :=
        ih dbA hInv (fun c hc => hcs c (List.mem_cons_of_mem _ hc))
      refine ⟨i1, i2, i3, i4, i5, i6, i7, ?_⟩
      intro c hc hcf d hd
      rcases List.mem_cons.mp hc with h | h
      · subst h
        rw [htest] at hcf
        exact absurd hcf (by simp)
      · exact i8 c h hcf d hd
    · have hstep : childDelStep p ds dbA c0 = cascade_delete_directory dbA c0.id := by
        unfold childDelStep
        rw [if_neg htest]
      rw [hstep]
      have hsub0 : ∀ d ∈ dbA.dirs, d.id = c0.id → StrictUnder p d.path :=
        hcs c0 (List.mem_cons_self _ _)
      have hInv2 : DBInv (cascade_delete_directory dbA c0.id) := cascade_inv hInv c0.id
      have hEv0 := @cascade_evolves dbA c0.id p ss hInv hsub0
      have hcs2 : ∀ c ∈ rest, ∀ d ∈ (cascade_delete_directory dbA c0.id).dirs,
          d.id = c.id → StrictUnder p d.path := by
        intro c hc d hd hid
        exact hcs c (List.mem_cons_of_mem _ hc) d (cascade_mem_dirs.mp hd).1 hid
      obtain ⟨i1, i2, i3, i4, i5, i6, i7, i8⟩ := ih _ hInv2 hcs2
      rcases cascade_rest dbA c0.id with ⟨hobj, hnd, hnf⟩
      refine ⟨i1, evolvesR_trans hInv hInv2 i1 hEv0 i2,
        fun d hd => (cascade_mem_dirs.mp (i3 d hd)).1,
        fun f hf => (cascade_mem_files.mp (i4 f hf)).1,
        by rw [i5, hobj], by rw [i6, hnd], by rw [i7, hnf], ?_⟩
      intro c hc hcf d hd
      rcases List.mem_cons.mp hc with h | h
      · subst h
        intro hdid
        rcases cascade_mem_dirs.mp (i3 d hd) with ⟨_, hdcon⟩
        have hseed : (childClosure dbA.dirs.length dbA.dirs [c.id]).contains c.id
            = true := by
          apply natContains_iff.mpr
          exact childClosure_mono dbA.dirs dbA.dirs.length [c.id] c.id
            (List.mem_singleton_self _)
        rw [hdid, hseed] at hdcon
        exact Bool.true_eq_false.mp hdcon
      · exact i8 c h hcf d hd

theorem scanDirPhase1_spec (ss : List Stat) {db : DB} {p : List String}
    (vD : String → Bool) (subNames : List String) (hInv : DBInv db)
    (hpar : p = [] ∨ ∃ rp ∈ db.dirs, rp.path = p.dropLast) :
    DBInv (scanDirPhase1 vD db p subNames) ∧
    EvolvesR ss (fun x => UnderEq p x) db (scanDirPhase1 vD db p subNames) ∧
    (ensure_directory db p (scanParent db p)).2 ∈ (scanDirPhase1 vD db p subNames).dirs ∧
    (ensure_directory db p (scanParent db p)).2.path = p ∧
    (∀ c ∈ (scanDirPhase1 vD db p subNames).dirs,
      c.parent_id = some (ensure_directory db p (scanParent db p)).2.id →
      ∃ n, c.path = p ++ [n] ∧ n ∈ subNames.filter vD) ∧
    (scanDirPhase1 vD db p subNames).objects = db.objects ∧
    (scanDirPhase1 vD db p subNames).nextFile = db.nextFile ∧
    (∀ f ∈ (scanDirPhase1 vD db p subNames).files, f ∈ db.files) := by
  unfold scanDirPhase1
  obtain ⟨hInv1, hrmem, hrpath, hkeep, hnew, hfiles1, hobj1, hndle, hnf1⟩ :=
    @ensure_directory_spec db p (ensure_directory db p (scanParent db p)).1
      (ensure_directory db p (scanParent db p)).2 hInv hpar rfl
  have hcs : ∀ c ∈ childrenOf (ensure_directory db p (scanParent db p)).1
      (ensure_directory db p (scanParent db p)).2.id,
      ∀ d ∈ (ensure_directory db p (scanParent db p)).1.dirs, d.id = c.id →
      StrictUnder p d.path := by
    intro c hc d hd hid
    rcases List.mem_filter.mp hc with ⟨hcmem, hcpar⟩
    have hcpar2 : c.parent_id = some (ensure_directory db p (scanParent db p)).2.id :=
      of_decide_eq_true hcpar
    rcases hInv1.parentOk c hcmem _ hcpar2 with ⟨pd, hpd, hpdid, hcne, hcdrop⟩
    have hpdr : pd = (ensure_directory db p (scanParent db p)).2 :=
      key_inj hInv1.dirIds hpd hrmem hpdid
    have hstrict : StrictUnder p c.path := by
      refine ⟨[c.path.getLast hcne], by simp, ?_⟩
      rw [show p = c.path.dropLast from by rw [← hcdrop, hpdr, hrpath]]
      exact List.dropLast_append_getLast hcne
    have hdc : d = c := key_inj hInv1.dirIds hd hcmem hid
    rw [hdc]
    exact hstrict
  obtain ⟨f1, f2, f3, f4, f5, f6, f7, f8⟩ :=
    childDel_fold_spec ss p (subNames.filter vD)
      (childrenOf (ensure_directory db p (scanParent db p)).1
        (ensure_directory db p (scanParent db p)).2.id)
      (ensure_directory db p (scanParent db p)).1 hInv1 hcs
  have hEv1 : EvolvesR ss (fun x => UnderEq p x) db
      (ensure_directory db p (scanParent db p)).1 := by
    refine ⟨fun d hd _ => hkeep d hd, ?_,
      fun f hf _ => by rw [hfiles1]; exact hf, ?_, ?_, hndle, Nat.le_of_eq hnf1.symm⟩
    · intro d hd
      rcases hnew d hd with h | ⟨hp, hid⟩
      · exact Or.inl h
      · exact Or.inr ⟨by rw [hp]; exact underEq_refl p, hid⟩
    · intro f hf
      rw [hfiles1] at hf
      exact Or.inl hf
    · intro oid sz mt _ hfact
      unfold ObjFact at hfact ⊢
      rw [hobj1]
      exact hfact
  refine ⟨f1, ?_, ?_, hrpath, ?_, ?_, ?_, ?_⟩
  · exact evolvesR_trans hInv hInv1 f1 hEv1
      (evolvesR_mono f2 (fun x hs => underEq_of_strict hs))
  · refine f2.1 (ensure_directory db p (scanParent db p)).2 hrmem ?_
    rw [hrpath]
    exact strictUnder_irrefl p
  · intro c hc hcpar
    have hcmem1 : c ∈ (ensure_directory db p (scanParent db p)).1.dirs := f3 c hc
    have hcch : c ∈ childrenOf (ensure_directory db p (scanParent db p)).1
        (ensure_directory db p (scanParent db p)).2.id :=
      List.mem_filter.mpr ⟨hcmem1, by simpa using hcpar⟩
    rcases hInv1.parentOk c hcmem1 _ hcpar with ⟨pd, hpd, hpdid, hcne, hcdrop⟩
    have hpdr : pd = (ensure_directory db p (scanParent db p)).2 :=
      key_inj hInv1.dirIds hpd hrmem hpdid
    have hcp2 : p ++ [c.path.getLast hcne] = c.path := by
      rw [show p = c.path.dropLast from by rw [← hcdrop, hpdr, hrpath]]
      exact List.dropLast_append_getLast hcne
    have hcp := hcp2.symm
    refine ⟨c.path.getLast hcne, hcp, ?_⟩
    cases htest : (subNames.filter vD).contains (joinPath (relpathComp c.path p)) with
    | false => exact absurd rfl (f8 c hcch htest c hc)
    | true =>
      have hjp : joinPath (relpathComp c.path p) = c.path.getLast hcne := by
        conv_lhs => rw [hcp, relpath_child, joinPath_single]
      rw [hjp] at htest
      exact containsB_iff.mp htest
  · rw [f5, hobj1]
  · rw [f7, hnf1]
  · intro f hf
    have := f4 f hf
    rwa [hfiles1] at this



theorem objFact_congr {db db2 : DB} (h : db2.objects = db.objects)
    (oid : String) (sz mt : Nat) :
    ObjFact db oid sz mt → ObjFact db2 oid sz mt := by
  unfold ObjFact
  rw [h]
  exact id

theorem objSynced_trans {db db2 : DB} {f : FileRow} {st : Stat}
    (h : objSynced db f st)
    (hO : ObjFact db (oid_of st) st.size st.mtime →
      ObjFact db2 (oid_of st) st.size st.mtime) :
    objSynced db2 f st := by
  unfold objSynced at h ⊢
  by_cases hreg : S_ISREG st.mode = true
  · rw [if_pos hreg] at h ⊢
    exact ⟨h.1, hO h.2⟩
  · rw [if_neg hreg] at h ⊢
    exact h

theorem files_upd_id_map (l : List FileRow) (i : Nat) (v : Option String) :
    (l.map (fun x => if x.id = i then { x with object_id := v } else x)).map
      (fun f => f.id) = l.map (fun f => f.id) := by
  rw [List.map_map]
  apply List.map_congr_left
  intro x _
  by_cases h : x.id = i <;> simp [h]

theorem files_upd_pair_map (l : List FileRow) (i : Nat) (v : Option String) :
    (l.map (fun x => if x.id = i then { x with object_id := v } else x)).map
      (fun f => (f.path_id, f.name)) = l.map (fun f => (f.path_id, f.name)) := by
  rw [List.map_map]
  apply List.map_congr_left
  intro x _
  by_cases h : x.id = i <;> simp [h]

theorem mem_upd_of_ne {l : List FileRow} {x : FileRow} {i : Nat} {v : Option String}
    (hx : x ∈ l) (hne : x.id ≠ i) :
    x ∈ l.map (fun y => if y.id = i then { y with object_id := v } else y) := by
  have h : (if x.id = i then { x with object_id := v } else x) = x := if_neg hne
  rw [← h]
  exact List.mem_map_of_mem _ hx

theorem mem_upd_self {l : List FileRow} {x : FileRow} {v : Option String}
    (hx : x ∈ l) :
    { x with object_id := v } ∈
      l.map (fun y => if y.id = x.id then { y with object_id := v } else y) := by
  have h : (if x.id = x.id then { x with object_id := v } else x) =
      { x with object_id := v } := if_pos rfl
  rw [← h]
  exact List.mem_map_of_mem _ hx

theorem dbInv_ensure_object {db : DB} (hInv : DBInv db) (st : Stat)
    (gh : Option Nat) (obj : Option ObjRow) :
    DBInv (ensure_object db st gh obj).1 := by
  rcases ensure_object_frame db st gh obj with ⟨hf, hd, hnd, hnf⟩
  refine ⟨?_, ?_, ?_, ensure_object_objIds db st gh obj hInv.objIds, ?_, ?_, ?_, ?_, ?_⟩
  · rw [hd]; exact hInv.dirIds
  · rw [hd]; exact hInv.dirPaths
  · rw [hf]; exact hInv.fileIds
  · rw [hd]; exact hInv.parentOk
  · rw [hd, hnd]; exact hInv.dirFresh
  · rw [hf, hnf]; exact hInv.fileFresh
  · rw [hf, hd]; exact hInv.fileFK
  · rw [hf]; exact hInv.fileNames

theorem dbInv_update_file {db : DB} {f : FileRow} (hInv : DBInv db)
    (hmem : f ∈ db.files) (v : Option String) :
    DBInv (update_file db f v) := by
  rw [update_file_eq_map v hmem hInv.fileIds]
  refine ⟨hInv.dirIds, hInv.dirPaths, ?_, hInv.objIds, hInv.parentOk, hInv.dirFresh,
    ?_, ?_, ?_⟩
  · rw [files_upd_id_map]
    exact hInv.fileIds
  · intro g hg
    rcases List.mem_map.mp hg with ⟨x, hx, hgx⟩
    have : g.id = x.id := by
      rw [← hgx]
      by_cases h : x.id = f.id <;> simp [h]
    rw [this]
    exact hInv.fileFresh x hx
  · intro g hg
    rcases List.mem_map.mp hg with ⟨x, hx, hgx⟩
    have : g.path_id = x.path_id := by
      rw [← hgx]
      by_cases h : x.id = f.id <;> simp [h]
    rw [this]
    exact hInv.fileFK x hx
  · rw [files_upd_pair_map]
    exact hInv.fileNames

theorem dbInv_filter_files {db : DB} (hInv : DBInv db) (pred : FileRow → Bool) :
    DBInv { db with files := db.files.filter pred } := by
  have hsub : (db.files.filter pred).Sublist db.files := List.filter_sublist _
  refine ⟨hInv.dirIds, hInv.dirPaths, (hsub.map _).nodup hInv.fileIds, hInv.objIds,
    hInv.parentOk, hInv.dirFresh, ?_, ?_, (hsub.map _).nodup hInv.fileNames⟩
  · intro g hg
    exact hInv.fileFresh g (List.mem_of_mem_filter hg)
  · intro g hg
    exact hInv.fileFK g (List.mem_of_mem_filter hg)


theorem rec1_step {ss : List Stat} {db2 : DB} {rid : Nat} {fls : List (String × Stat)}
    (hsc : SC ss) (hflsSS : ∀ e ∈ fls, e.2 ∈ ss)
    {f0 : FileRow} {rest : List FileRow} {acc : DB × List String}
    (hI : Rec1Inv ss db2 rid fls (f0 :: rest) acc) :
    Rec1Inv ss db2 rid fls rest (reconcileStep fls acc f0) := by
  obtain ⟨hf0mem, hf0rid⟩ := hI.toGoMem f0 (List.mem_cons_self _ _)
  have hIdNd := hI.inv.fileIds
  have hKey : ∀ {x : FileRow}, x ∈ acc.1.files → x.id = f0.id → x = f0 :=
    fun hx hid => key_inj hIdNd hx hf0mem hid
  have hRestNe : ∀ f ∈ rest, f.id ≠ f0.id := by
    intro f hf he
    have h2 := hI.toGoNd
    simp only [List.map_cons, List.nodup_cons] at h2
    exact h2.1 (he ▸ List.mem_map_of_mem _ hf)
  by_cases hcont : acc.2.contains f0.name = true
  · -- refresh branch
    have hstep : reconcileStep fls acc f0 =
        (update_file (ensure_object acc.1 (statOf fls f0.name) none
            (objOf acc.1 f0)).1 f0
          ((ensure_object acc.1 (statOf fls f0.name) none
            (objOf acc.1 f0)).2.map (fun o => o.id)),
         acc.2.erase f0.name) := by
      unfold reconcileStep
      rw [if_pos hcont]
    rw [hstep]
    have hn0 : f0.name ∈ acc.2 := containsB_iff.mp hcont
    have hn0fls : f0.name ∈ fls.map (fun e => e.1) := hI.remSub _ hn0
    have hst0 : (f0.name, statOf fls f0.name) ∈ fls := statOf_self hn0fls
    have hst0SS : statOf fls f0.name ∈ ss := hflsSS _ hst0
    rcases ensure_object_frame acc.1 (statOf fls f0.name) none (objOf acc.1 f0)
      with ⟨hEf, hEd2, hEnd, hEnf⟩
    have hInvE : DBInv (ensure_object acc.1 (statOf fls f0.name) none
        (objOf acc.1 f0)).1 := dbInv_ensure_object hI.inv _ _ _
    have hf0E : f0 ∈ (ensure_object acc.1 (statOf fls f0.name) none
        (objOf acc.1 f0)).1.files := by
      rw [hEf]
      exact hf0mem
    have hUeq := update_file_eq_map
      ((ensure_object acc.1 (statOf fls f0.name) none
        (objOf acc.1 f0)).2.map (fun o => o.id)) hf0E hInvE.fileIds
    have hDfiles : (update_file (ensure_object acc.1 (statOf fls f0.name) none
        (objOf acc.1 f0)).1 f0
        ((ensure_object acc.1 (statOf fls f0.name) none
          (objOf acc.1 f0)).2.map (fun o => o.id))).files =
        acc.1.files.map (fun x => if x.id = f0.id then
          { x with object_id := (ensure_object acc.1 (statOf fls f0.name) none
              (objOf acc.1 f0)).2.map (fun o => o.id) } else x) := by
      rw [hUeq, hEf]
    rcases update_file_rest (ensure_object acc.1 (statOf fls f0.name) none
        (objOf acc.1 f0)).1 f0
        ((ensure_object acc.1 (statOf fls f0.name) none
          (objOf acc.1 f0)).2.map (fun o => o.id)) with ⟨hUd, hUo, hUnd, hUnf⟩
    have hres := resolveObj_objOf acc.1 (oid_of (statOf fls f0.name)) f0
    have hOstep : ∀ oid sz mt, stIn ss oid sz mt →
        ObjFact acc.1 oid sz mt →
        ObjFact (update_file (ensure_object acc.1 (statOf fls f0.name) none
          (objOf acc.1 f0)).1 f0
          ((ensure_object acc.1 (statOf fls f0.name) none
            (objOf acc.1 f0)).2.map (fun o => o.id))) oid sz mt := by
      intro oid sz mt hin hfact
      rcases hin with ⟨stw, hstw, hoidw, hszw, hmtw⟩
      have h2 : ObjFact (ensure_object acc.1 (statOf fls f0.name) none
          (objOf acc.1 f0)).1 oid sz mt := by
        refine objPres_ensure acc.1 (statOf fls f0.name) (objOf acc.1 f0)
          oid sz mt hfact ?_
        intro he
        have hoo : oid_of (statOf fls f0.name) = oid_of stw := by
          rw [← he, hoidw]
        rcases hsc (statOf fls f0.name) hst0SS stw hstw hoo with ⟨hsz2, hmt2⟩
        exact ⟨by rw [hsz2, hszw], by rw [hmt2, hmtw]⟩
      exact objFact_congr hUo oid sz mt h2
    have hgid : ∀ x : FileRow, (if x.id = f0.id then
        { x with object_id := (ensure_object acc.1 (statOf fls f0.name) none
            (objOf acc.1 f0)).2.map (fun o => o.id) } else x).id = x.id := by
      intro x
      by_cases h : x.id = f0.id <;> simp [h]
    have hgpath : ∀ x : FileRow, (if x.id = f0.id then
        { x with object_id := (ensure_object acc.1 (statOf fls f0.name) none
            (objOf acc.1 f0)).2.map (fun o => o.id) } else x).path_id = x.path_id := by
      intro x
      by_cases h : x.id = f0.id <;> simp [h]
    have hgname : ∀ x : FileRow, (if x.id = f0.id then
        { x with object_id := (ensure_object acc.1 (statOf fls f0.name) none
            (objOf acc.1 f0)).2.map (fun o => o.id) } else x).name = x.name := by
      intro x
      by_cases h : x.id = f0.id <;> simp [h]
    refine ⟨dbInv_update_file hInvE hf0E _, ?_, ?_, ?_, ?_, ?_, ?_, ?_, ?_, ?_, ?_, ?_, ?_⟩
    · show (update_file _ f0 _).dirs = db2.dirs
      rw [hUd, hEd2, hI.dirsEq]
    · show (update_file _ f0 _).nextDir = db2.nextDir
      rw [hUnd, hEnd, hI.ndirEq]
    · show (update_file _ f0 _).nextFile = db2.nextFile
      rw [hUnf, hEnf, hI.nfileEq]
    · intro oid sz mt hin hfact
      exact hOstep oid sz mt hin (hI.objP oid sz mt hin hfact)
    · intro f hf hne
      have hf1 : f ∈ acc.1.files := hI.keepO f hf hne
      have hfne : f.id ≠ f0.id := by
        intro he
        exact hne ((hKey hf1 he) ▸ hf0rid)
      show f ∈ (update_file _ f0 _).files
      rw [hDfiles]
      exact mem_upd_of_ne hf1 hfne
    · intro f hf hne
      rw [hDfiles] at hf
      rcases List.mem_map.mp hf with ⟨x, hx, hxf⟩
      by_cases hid : x.id = f0.id
      · exfalso
        have hxf0 : x = f0 := hKey hx hid
        rw [← hxf, ← hxf0] at hne
        simp only [hxf0, if_pos hid] at hne
        exact hne hf0rid
      · rw [if_neg hid] at hxf
        rw [← hxf]
        exact hI.backO x hx (by rw [hxf]; exact hne)
    · intro f hf
      obtain ⟨hfm, hfr⟩ := hI.toGoMem f (List.mem_cons_of_mem _ hf)
      constructor
      · show f ∈ (update_file _ f0 _).files
        rw [hDfiles]
        exact mem_upd_of_ne hfm (hRestNe f hf)
      · exact hfr
    · intro f hf hfr
      rw [hDfiles] at hf
      rcases List.mem_map.mp hf with ⟨x, hx, hxf⟩
      by_cases hid : x.id = f0.id
      · -- the refreshed row
        have hxf0 : x = f0 := hKey hx hid
        subst hxf0
        rw [if_pos hid] at hxf
        refine Or.inr ⟨statOf fls x.name, ?_, ?_, ?_⟩
        · rw [← hxf]
          exact hst0
        · -- objSynced of the refreshed row
          rw [← hxf]
          unfold objSynced
          by_cases hreg : S_ISREG (statOf fls x.name).mode = true
          · rw [if_pos hreg]
            obtain ⟨hOF, ob, hob, hobid⟩ :=
              objFact_ensure acc.1 (statOf fls x.name) (objOf acc.1 x) hreg hres
            constructor
            · show (ensure_object acc.1 (statOf fls x.name) none
                  (objOf acc.1 x)).2.map (fun o => o.id) =
                some (oid_of (statOf fls x.name))
              rw [hob, Option.map_some', hobid]
            · exact objFact_congr hUo _ _ _ hOF
          · rw [if_neg hreg]
            have hnr : S_ISREG (statOf fls x.name).mode = false := by
              cases h : S_ISREG (statOf fls x.name).mode
              · rfl
              · exact absurd h hreg
            rw [ensure_object_nonreg hnr none (objOf acc.1 x)]
            rfl
        · rw [← hxf]
          intro hmem
          have := (List.Nodup.mem_erase_iff hI.remNd).mp hmem
          exact this.1 rfl
      · rw [if_neg hid] at hxf
        subst hxf
        rcases hI.rowsOk x hx hfr with hin | ⟨st, hstm, hsync, hnrem⟩
        · rcases List.mem_cons.mp hin with he | he
          · exact absurd (he ▸ rfl : x.id = f0.id) hid
          · exact Or.inl he
        · refine Or.inr ⟨st, hstm, ?_, ?_⟩
          · refine objSynced_trans hsync ?_
            intro hfact
            exact hOstep (oid_of st) st.size st.mtime
              ⟨st, hflsSS _ hstm, rfl, rfl, rfl⟩ hfact
          · intro hmem
            exact hnrem (List.mem_of_mem_erase hmem)
    · intro n hn
      exact hI.remSub n (List.mem_of_mem_erase hn)
    · exact hI.remNd.erase _
    · intro e he
      rcases hI.covered e he with hin | ⟨f, hfm, hfr, hfn, hfnot⟩
      · by_cases hne : e.1 = f0.name
        · refine Or.inr ⟨{ f0 with object_id :=
            (ensure_object acc.1 (statOf fls f0.name) none
              (objOf acc.1 f0)).2.map (fun o => o.id) }, ?_, hf0rid, hne.symm, ?_⟩
          · show _ ∈ (update_file _ f0 _).files
            rw [hDfiles]
            exact mem_upd_self hf0mem
          · intro hmem
            obtain ⟨hm2, _⟩ := hI.toGoMem _ (List.mem_cons_of_mem _ hmem)
            have : ({ f0 with object_id :=
                (ensure_object acc.1 (statOf fls f0.name) none
                  (objOf acc.1 f0)).2.map (fun o => o.id) } : FileRow).id = f0.id := rfl
            exact hRestNe _ hmem this
        · exact Or.inl ((List.mem_erase_of_ne hne).mpr hin)
      · have hfne : f.id ≠ f0.id := by
          intro he2
          exact hfnot ((hKey hfm he2) ▸ List.mem_cons_self _ _)
        refine Or.inr ⟨f, ?_, hfr, hfn, ?_⟩
        · show f ∈ (update_file _ f0 _).files
          rw [hDfiles]
          exact mem_upd_of_ne hfm hfne
        · intro hmem
          exact hfnot (List.mem_cons_of_mem _ hmem)
    · have h2 := hI.toGoNd
      simp only [List.map_cons, List.nodup_cons] at h2
      exact h2.2
  · -- delete branch
    have hcont2 : ¬ (acc.2.contains f0.name = true) := by
      intro h
      exact hcont h
    have hstep : reconcileStep fls acc f0 =
        ({ acc.1 with files := acc.1.files.filter (fun x => x.id ≠ f0.id) },
         acc.2) := by
      unfold reconcileStep
      rw [if_neg hcont2]
    rw [hstep]
    have hmemD : ∀ {y : FileRow},
        y ∈ acc.1.files.filter (fun x => decide (x.id ≠ f0.id)) ↔
          y ∈ acc.1.files ∧ y.id ≠ f0.id := by
      intro y
      rw [List.mem_filter]
      simp
    refine ⟨dbInv_filter_files hI.inv _, ?_, ?_, ?_, ?_, ?_, ?_, ?_, ?_, ?_, ?_, ?_, ?_⟩
    · exact hI.dirsEq
    · exact hI.ndirEq
    · exact hI.nfileEq
    · exact hI.objP
    · intro f hf hne
      have hf1 : f ∈ acc.1.files := hI.keepO f hf hne
      have hfne : f.id ≠ f0.id := by
        intro he
        exact hne ((hKey hf1 he) ▸ hf0rid)
      exact hmemD.mpr ⟨hf1, hfne⟩
    · intro f hf hne
      exact hI.backO f (hmemD.mp hf).1 hne
    · intro f hf
      obtain ⟨hfm, hfr⟩ := hI.toGoMem f (List.mem_cons_of_mem _ hf)
      exact ⟨hmemD.mpr ⟨hfm, hRestNe f hf⟩, hfr⟩
    · intro f hf hfr
      obtain ⟨hfm, hfne⟩ := hmemD.mp hf
      rcases hI.rowsOk f hfm hfr with hin | ⟨st, hstm, hsync, hnrem⟩
      · rcases List.mem_cons.mp hin with he | he
        · exact absurd (he ▸ rfl : f.id = f0.id) hfne
        · exact Or.inl he
      · exact Or.inr ⟨st, hstm, objSynced_trans hsync (objFact_congr rfl _ _ _), hnrem⟩
    · exact hI.remSub
    · exact hI.remNd
    · intro e he
      rcases hI.covered e he with hin | ⟨f, hfm, hfr, hfn, hfnot⟩
      · exact Or.inl hin
      · have hfne : f.id ≠ f0.id := by
          intro he2
          exact hfnot ((hKey hfm he2) ▸ List.mem_cons_self _ _)
        exact Or.inr ⟨f, hmemD.mpr ⟨hfm, hfne⟩, hfr, hfn,
          fun hmem => hfnot (List.mem_cons_of_mem _ hmem)⟩
    · have h2 := hI.toGoNd
      simp only [List.map_cons, List.nodup_cons] at h2
      exact h2.2


theorem rec1_fold {ss : List Stat} {db2 : DB} {rid : Nat} {fls : List (String × Stat)}
    (hsc : SC ss) (hflsSS : ∀ e ∈ fls, e.2 ∈ ss) :
    ∀ (toGo : List FileRow) (acc : DB × List String),
      Rec1Inv ss db2 rid fls toGo acc →
      Rec1Inv ss db2 rid fls [] (toGo.foldl (reconcileStep fls) acc) := by
  intro toGo
  induction toGo with
  | nil => intro acc hI; exact hI
  | cons f0 rest ih =>
    intro acc hI
    rw [List.foldl_cons]
    exact ih _ (rec1_step hsc hflsSS hI)

theorem rec2_step {ss : List Stat} {db2 : DB} {rid : Nat} {fls : List (String × Stat)}
    (hsc : SC ss) (hflsSS : ∀ e ∈ fls, e.2 ∈ ss)
    (hrdir : ∃ r ∈ db2.dirs, r.id = rid)
    {n0 : String} {rest : List String} {dbB : DB}
    (hI : Rec2Inv ss db2 rid fls (n0 :: rest) dbB) :
    Rec2Inv ss db2 rid fls rest (addFileStep rid fls dbB n0) := by
  have hn0fls : n0 ∈ fls.map (fun e => e.1) := hI.addSub n0 (List.mem_cons_self _ _)
  have hst0 : (n0, statOf fls n0) ∈ fls := statOf_self hn0fls
  have hst0SS : statOf fls n0 ∈ ss := hflsSS _ hst0
  rcases ensure_object_frame dbB (statOf fls n0) none none with ⟨hEf, hEd2, hEnd, hEnf⟩
  have hInvE : DBInv (ensure_object dbB (statOf fls n0) none none).1 :=
    dbInv_ensure_object hI.inv _ _ _
  have hres : resolveObj dbB (oid_of (statOf fls n0)) none =
      dbB.objects.find? (fun x => x.id = oid_of (statOf fls n0)) := rfl
  have hstep : addFileStep rid fls dbB n0 =
      { (ensure_object dbB (statOf fls n0) none none).1 with
        files := (ensure_object dbB (statOf fls n0) none none).1.files ++
          [{ id := dbB.nextFile, path_id := rid, name := n0,
             type := (statOf fls n0).mode,
             object_id := (ensure_object dbB (statOf fls n0) none none).2.map
               (fun o => o.id) }],
        nextFile := dbB.nextFile + 1 } := by
    unfold addFileStep
    rfl
  rw [hstep]
  have hOstep : ∀ oid sz mt, stIn ss oid sz mt →
      ObjFact dbB oid sz mt →
      ObjFact (ensure_object dbB (statOf fls n0) none none).1 oid sz mt := by
    intro oid sz mt hin hfact
    rcases hin with ⟨stw, hstw, hoidw, hszw, hmtw⟩
    refine objPres_ensure dbB (statOf fls n0) none oid sz mt hfact ?_
    intro he
    have hoo : oid_of (statOf fls n0) = oid_of stw := by
      rw [← he, hoidw]
    rcases hsc (statOf fls n0) hst0SS stw hstw hoo with ⟨hsz2, hmt2⟩
    exact ⟨by rw [hsz2, hszw], by rw [hmt2, hmtw]⟩
  refine ⟨?_, ?_, ?_, ?_, ?_, ?_, ?_, ?_, ?_, ?_, ?_, ?_⟩
  · -- DBInv
    refine ⟨?_, ?_, ?_, hInvE.objIds, ?_, ?_, ?_, ?_, ?_⟩
    · show ((ensure_object dbB (statOf fls n0) none none).1.dirs.map
        (fun d => d.id)).Nodup
      exact hInvE.dirIds
    · exact hInvE.dirPaths
    · show (((ensure_object dbB (statOf fls n0) none none).1.files ++ _).map
        (fun f => f.id)).Nodup
      rw [List.map_append, List.map_cons, List.map_nil, List.nodup_append]
      refine ⟨hInvE.fileIds, List.nodup_singleton _, ?_⟩
      intro a ha hb
      rw [List.mem_singleton.mp hb] at ha
      rcases List.mem_map.mp ha with ⟨x, hx, hxid⟩
      have := hInvE.fileFresh x hx
      rw [hEnf] at this
      simp only at hxid
      omega
    · exact hInvE.parentOk
    · show ∀ d ∈ (ensure_object dbB (statOf fls n0) none none).1.dirs,
        d.id < (ensure_object dbB (statOf fls n0) none none).1.nextDir
      exact hInvE.dirFresh
    · intro f hf
      show f.id < dbB.nextFile + 1
      rcases List.mem_append.mp hf with h | h
      · have := hInvE.fileFresh f h
        rw [hEnf] at this
        omega
      · rw [List.mem_singleton.mp h]
        exact Nat.lt_succ_self _
    · intro f hf
      rcases List.mem_append.mp hf with h | h
      · exact hInvE.fileFK f h
      · rw [List.mem_singleton.mp h]
        rcases hrdir with ⟨r, hr, hrid⟩
        refine ⟨r, ?_, hrid⟩
        show r ∈ (ensure_object dbB (statOf fls n0) none none).1.dirs
        rw [hEd2, hI.dirsEq]
        exact hr
    · show (((ensure_object dbB (statOf fls n0) none none).1.files ++ _).map
        (fun f => (f.path_id, f.name))).Nodup
      rw [List.map_append, List.map_cons, List.map_nil, List.nodup_append]
      refine ⟨hInvE.fileNames, List.nodup_singleton _, ?_⟩
      intro a ha hb
      rw [List.mem_singleton.mp hb] at ha
      rcases List.mem_map.mp ha with ⟨x, hx, hxp⟩
      rw [hEf] at hx
      have hxr : x.path_id = rid := by
        have := congrArg Prod.fst hxp
        simpa using this
      have hxn : x.name = n0 := by
        have := congrArg Prod.snd hxp
        simpa using this
      exact hI.addFresh n0 (List.mem_cons_self _ _) x hx hxr hxn
  · show (ensure_object dbB (statOf fls n0) none none).1.dirs = db2.dirs
    rw [hEd2, hI.dirsEq]
  · show (ensure_object dbB (statOf fls n0) none none).1.nextDir = db2.nextDir
    rw [hEnd, hI.ndirEq]
  · show db2.nextFile ≤ dbB.nextFile + 1
    have := hI.nfileLe
    omega
  · intro oid sz mt hin hfact
    show ObjFact (ensure_object dbB (statOf fls n0) none none).1 oid sz mt
    exact hOstep oid sz mt hin (hI.objP oid sz mt hin hfact)
  · intro f hf hne
    show f ∈ (ensure_object dbB (statOf fls n0) none none).1.files ++ _
    refine List.mem_append_left _ ?_
    rw [hEf]
    exact hI.keepO f hf hne
  · intro f hf hne
    rcases List.mem_append.mp hf with h | h
    · rw [hEf] at h
      exact hI.backO f h hne
    · exfalso
      rw [List.mem_singleton.mp h] at hne
      exact hne rfl
  · intro m hm
    exact hI.addSub m (List.mem_cons_of_mem _ hm)
  · intro m hm f hf hfr
    rcases List.mem_append.mp hf with h | h
    · rw [hEf] at h
      exact hI.addFresh m (List.mem_cons_of_mem _ hm) f h hfr
    · rw [List.mem_singleton.mp h]
      show n0 ≠ m
      intro he
      have h2 := hI.addNd
      rw [List.nodup_cons] at h2
      exact h2.1 (he ▸ hm)
  · have h2 := hI.addNd
    rw [List.nodup_cons] at h2
    exact h2.2
  · intro f hf hfr
    rcases List.mem_append.mp hf with h | h
    · rw [hEf] at h
      rcases hI.rowsOk f h hfr with ⟨st, hstm, hsync⟩
      refine ⟨st, hstm, ?_⟩
      refine objSynced_trans hsync ?_
      intro hfact
      exact hOstep (oid_of st) st.size st.mtime ⟨st, hflsSS _ hstm, rfl, rfl, rfl⟩ hfact
    · rw [List.mem_singleton.mp h]
      refine ⟨statOf fls n0, hst0, ?_⟩
      unfold objSynced
      by_cases hreg : S_ISREG (statOf fls n0).mode = true
      · rw [if_pos hreg]
        obtain ⟨hOF, ob, hob, hobid⟩ :=
          objFact_ensure dbB (statOf fls n0) none hreg hres
        constructor
        · show (ensure_object dbB (statOf fls n0) none none).2.map (fun o => o.id) =
            some (oid_of (statOf fls n0))
          rw [hob, Option.map_some', hobid]
        · exact hOF
      · rw [if_neg hreg]
        have hnr : S_ISREG (statOf fls n0).mode = false := by
          cases h : S_ISREG (statOf fls n0).mode
          · rfl
          · exact absurd h hreg
        show (ensure_object dbB (statOf fls n0) none none).2.map (fun o => o.id) = none
        rw [ensure_object_nonreg hnr none none]
        rfl
  · intro e he
    rcases hI.covered e he with hin | ⟨f, hfm, hfr, hfn⟩
    · rcases List.mem_cons.mp hin with he1 | he1
      · refine Or.inr ⟨⟨dbB.nextFile, rid, n0, (statOf fls n0).mode,
          (ensure_object dbB (statOf fls n0) none none).2.map (fun o => o.id)⟩,
          ?_, rfl, he1.symm⟩
        exact List.mem_append_right _ (List.mem_singleton_self _)
      · exact Or.inl he1
    · refine Or.inr ⟨f, ?_, hfr, hfn⟩
      refine List.mem_append_left _ ?_
      rw [hEf]
      exact hfm

theorem rec2_fold {ss : List Stat} {db2 : DB} {rid : Nat} {fls : List (String × Stat)}
    (hsc : SC ss) (hflsSS : ∀ e ∈ fls, e.2 ∈ ss)
    (hrdir : ∃ r ∈ db2.dirs, r.id = rid) :
    ∀ (toAdd : List String) (dbB : DB),
      Rec2Inv ss db2 rid fls toAdd dbB →
      Rec2Inv ss db2 rid fls [] (toAdd.foldl (addFileStep rid fls) dbB) := by
  intro toAdd
  induction toAdd with
  | nil => intro dbB hI; exact hI
  | cons n0 rest ih =>
    intro dbB hI
    rw [List.foldl_cons]
    exact ih _ (rec2_step hsc hflsSS hrdir hI)

theorem scan_files_spec (ss : List Stat) {db2 : DB} {rid : Nat}
    {fls : List (String × Stat)}
    (hsc : SC ss) (hflsSS : ∀ e ∈ fls, e.2 ∈ ss)
    (hflsnd : (fls.map (fun e => e.1)).Nodup)
    (hInv2 : DBInv db2) (hrdir : ∃ r ∈ db2.dirs, r.id = rid) :
    Rec2Inv ss db2 rid fls []
      (scan_files db2 rid fls (sortBy nameLe (fls.map (fun e => e.1)))) := by
  have hLperm : List.Perm (dbFilesOf db2 rid)
      (db2.files.filter (fun f => f.path_id = rid)) := by
    unfold dbFilesOf
    exact sortBy_perm _ _
  have hNperm : List.Perm (sortBy nameLe (fls.map (fun e => e.1)))
      (fls.map (fun e => e.1)) := sortBy_perm _ _
  have hInit : Rec1Inv ss db2 rid fls (dbFilesOf db2 rid)
      (db2, sortBy nameLe (fls.map (fun e => e.1))) := by
    refine ⟨hInv2, rfl, rfl, rfl, fun _ _ _ _ h => h,
      fun f hf _ => hf, fun f hf _ => hf, ?_, ?_, ?_, ?_, ?_, ?_⟩
    · intro f hf
      have h2 := hLperm.mem_iff.mp hf
      rcases List.mem_filter.mp h2 with ⟨hm, hp⟩
      exact ⟨hm, of_decide_eq_true hp⟩
    · intro f hf hfr
      refine Or.inl (hLperm.mem_iff.mpr ?_)
      exact List.mem_filter.mpr ⟨hf, by simpa using hfr⟩
    · intro n hn
      exact hNperm.mem_iff.mp hn
    · exact (hNperm.nodup_iff).mpr (hflsnd)
    · intro e he
      exact Or.inl (hNperm.mem_iff.mpr (List.mem_map_of_mem _ he))
    · have hsubl : (db2.files.filter (fun f => f.path_id = rid)).Sublist db2.files :=
        List.filter_sublist _
      have h2 : ((db2.files.filter (fun f => f.path_id = rid)).map
          (fun f => f.id)).Nodup := (hsubl.map _).nodup hInv2.fileIds
      exact ((hLperm.map _).nodup_iff).mpr h2
  have hF := rec1_fold hsc hflsSS (dbFilesOf db2 rid)
    (db2, sortBy nameLe (fls.map (fun e => e.1))) hInit
  have hBridge : Rec2Inv ss db2 rid fls
      ((dbFilesOf db2 rid).foldl (reconcileStep fls)
        (db2, sortBy nameLe (fls.map (fun e => e.1)))).2
      ((dbFilesOf db2 rid).foldl (reconcileStep fls)
        (db2, sortBy nameLe (fls.map (fun e => e.1)))).1 := by
    refine ⟨hF.inv, hF.dirsEq, hF.ndirEq, Nat.le_of_eq hF.nfileEq.symm, hF.objP,
      hF.keepO, hF.backO, hF.remSub, ?_, hF.remNd, ?_, ?_⟩
    · intro n hn f hf hfr
      rcases hF.rowsOk f hf hfr with hin | ⟨st, _, _, hnot⟩
      · exact absurd hin (List.not_mem_nil _)
      · intro he
        exact hnot (he ▸ hn)
    · intro f hf hfr
      rcases hF.rowsOk f hf hfr with hin | ⟨st, hstm, hsync, _⟩
      · exact absurd hin (List.not_mem_nil _)
      · exact ⟨st, hstm, hsync⟩
    · intro e he
      rcases hF.covered e he with hin | ⟨f, hfm, hfr, hfn, _⟩
      · exact Or.inl hin
      · exact Or.inr ⟨f, hfm, hfr, hfn⟩
  exact rec2_fold hsc hflsSS hrdir _ _ hBridge

theorem syncedFilesM_of_rec2 {ss : List Stat} {db2 : DB} {rid : Nat}
    {fls : List (String × Stat)} {dbF : DB}
    (h : Rec2Inv ss db2 rid fls [] dbF) :
    SyncedFilesM dbF rid fls := by
  refine ⟨?_, ?_, ?_⟩
  · intro f hf hfr
    exact h.rowsOk f hf hfr
  · intro e he
    rcases h.covered e he with h1 | ⟨f, hm, hr, hn⟩
    · exact absurd h1 (List.not_mem_nil _)
    · exact ⟨f, hm, hr, hn⟩
  · intro f hf g hg hfr hgr hn
    exact key_inj h.inv.fileNames hf hg (by rw [hfr, hgr, hn])


theorem scan_directory_spec (ss : List Stat) (vD vF : String → Bool) {db : DB}
    {p : List String} {fls : List (String × Stat)} {subNames : List String}
    (hsc : SC ss) (hflsSS : ∀ e ∈ fls, e.2 ∈ ss)
    (hflsnd : (fls.map (fun e => e.1)).Nodup)
    (hInv : DBInv db)
    (hpar : p = [] ∨ ∃ rp ∈ db.dirs, rp.path = p.dropLast) :
    DBInv (scan_directory_plain vD vF db p fls subNames) ∧
    SyncedDirNode vD vF (scan_directory_plain vD vF db p fls subNames) p fls subNames ∧
    EvolvesR ss (fun x => UnderEq p x) db (scan_directory_plain vD vF db p fls subNames) ∧
    (∃ r ∈ (scan_directory_plain vD vF db p fls subNames).dirs, r.path = p) := by
  obtain ⟨p1Inv, p1Ev, p1rmem, p1rpath, p1child, p1obj, p1nf, p1files⟩ :=
    scanDirPhase1_spec ss vD subNames hInv hpar
  unfold scan_directory_plain
  by_cases hemp : (fls.filter (fun e => vF e.1)).length = 0
  · rw [if_pos hemp]
    have hnil : fls.filter (fun e => vF e.1) = [] :=
      List.eq_nil_of_length_eq_zero hemp
    refine ⟨p1Inv, ?_, p1Ev, ?_⟩
    · exact ⟨(ensure_directory db p (scanParent db p)).2, p1rmem, p1rpath, p1child,
        fun hne => absurd hnil hne⟩
    · exact ⟨(ensure_directory db p (scanParent db p)).2, p1rmem, p1rpath⟩
  · rw [if_neg hemp]
    have hflsSS2 : ∀ e ∈ fls.filter (fun e => vF e.1), e.2 ∈ ss :=
      fun e he => hflsSS e (List.mem_of_mem_filter he)
    have hflsnd2 : ((fls.filter (fun e => vF e.1)).map (fun e => e.1)).Nodup :=
      ((List.filter_sublist _).map _).nodup hflsnd
    have hrdir : ∃ r2 ∈ (scanDirPhase1 vD db p subNames).dirs,
        r2.id = (ensure_directory db p (scanParent db p)).2.id :=
      ⟨(ensure_directory db p (scanParent db p)).2, p1rmem, rfl⟩
    have hRec := scan_files_spec ss hsc hflsSS2 hflsnd2 p1Inv hrdir
    have hdirsEq := hRec.dirsEq
    refine ⟨hRec.inv, ?_, ?_, ?_⟩
    · refine ⟨(ensure_directory db p (scanParent db p)).2, ?_, p1rpath, ?_, ?_⟩
      · rw [hdirsEq]
        exact p1rmem
      · intro c hc hcp
        rw [hdirsEq] at hc
        exact p1child c hc hcp
      · intro _
        exact syncedFilesM_of_rec2 hRec
    · have hEv2 : EvolvesR ss (fun x => UnderEq p x) (scanDirPhase1 vD db p subNames)
          (scan_files (scanDirPhase1 vD db p subNames)
            (ensure_directory db p (scanParent db p)).2.id
            (fls.filter (fun e => vF e.1))
            (sortBy nameLe ((fls.filter (fun e => vF e.1)).map (fun e => e.1)))) := by
        refine ⟨?_, ?_, ?_, ?_, hRec.objP, Nat.le_of_eq hRec.ndirEq.symm, hRec.nfileLe⟩
        · intro d hd _
          rw [hdirsEq]
          exact hd
        · intro d hd
          rw [hdirsEq] at hd
          exact Or.inl hd
        · intro f hf hdirs
          refine hRec.keepO f hf ?_
          intro he
          refine hdirs (ensure_directory db p (scanParent db p)).2 p1rmem he.symm ?_
          rw [p1rpath]
          exact underEq_refl p
        · intro f hf
          by_cases hfr : f.path_id = (ensure_directory db p (scanParent db p)).2.id
          · refine Or.inr ⟨(ensure_directory db p (scanParent db p)).2, ?_, hfr.symm, ?_⟩
            · rw [hdirsEq]
              exact p1rmem
            · rw [p1rpath]
              exact underEq_refl p
          · exact Or.inl (hRec.backO f hf hfr)
      exact evolvesR_trans hInv p1Inv hRec.inv p1Ev hEv2
    · refine ⟨(ensure_directory db p (scanParent db p)).2, ?_, p1rpath⟩
      rw [hdirsEq]
      exact p1rmem


theorem syncedFilesM_mono {ss : List Stat} {R : List String → Prop} {db db2 : DB}
    (hEv : EvolvesR ss R db db2) (hInv : DBInv db) (hInv2 : DBInv db2)
    {i : Nat} {q : List String}
    (hq : ∃ d ∈ db.dirs, d.id = i ∧ d.path = q) (hnR : ¬ R q)
    {fls : List (String × Stat)} (hflsSS : ∀ e ∈ fls, e.2 ∈ ss)
    (h : SyncedFilesM db i fls) : SyncedFilesM db2 i fls := by
  obtain ⟨rq, hrqmem, hrqid, hrqpath⟩ := hq
  obtain ⟨hEv1, hEv2, hEv3, hEv4, hEv5, _, _⟩ := hEv
  obtain ⟨h1, h2, h3⟩ := h
  have hrq2 : rq ∈ db2.dirs := hEv1 rq hrqmem (by rw [hrqpath]; exact hnR)
  have hrows : ∀ f ∈ db2.files, f.path_id = i → f ∈ db.files := by
    intro f hf hfr
    rcases hEv4 f hf with hold | ⟨d, hd, hid, hR⟩
    · exact hold
    · exfalso
      have hdr : d = rq := key_inj hInv2.dirIds hd hrq2 (by rw [hid, hfr, hrqid])
      rw [hdr, hrqpath] at hR
      exact hnR hR
  refine ⟨?_, ?_, ?_⟩
  · intro f hf hfr
    rcases h1 f (hrows f hf hfr) hfr with ⟨st, hstm, hsync⟩
    refine ⟨st, hstm, objSynced_trans hsync ?_⟩
    intro hfact
    exact hEv5 (oid_of st) st.size st.mtime ⟨st, hflsSS _ hstm, rfl, rfl, rfl⟩ hfact
  · intro e he
    rcases h2 e he with ⟨f, hfm, hfr, hfn⟩
    refine ⟨f, ?_, hfr, hfn⟩
    refine hEv3 f hfm ?_
    intro d hd hid hR
    have hdr : d = rq := key_inj hInv.dirIds hd hrqmem (by rw [hid, hfr, hrqid])
    rw [hdr, hrqpath] at hR
    exact hnR hR
  · intro f hf g hg hfr hgr hn
    exact h3 f (hrows f hf hfr) g (hrows g hg hgr) hfr hgr hn

theorem syncedDirNode_mono {ss : List Stat} {R : List String → Prop} {db db2 : DB}
    {vD vF : String → Bool} {q : List String} {fls : List (String × Stat)}
    {subNames : List String}
    (hEv : EvolvesR ss R db db2) (hInv : DBInv db) (hInv2 : DBInv db2)
    (hnR : ¬ R q)
    (hc : ∀ n, R (q ++ [n]) → n ∈ subNames.filter vD)
    (hflsSS : ∀ e ∈ fls, e.2 ∈ ss)
    (h : SyncedDirNode vD vF db q fls subNames) :
    SyncedDirNode vD vF db2 q fls subNames := by
  obtain ⟨r, hrmem, hrpath, hchild, hfile⟩ := h
  have hrmem2 : r ∈ db2.dirs := hEv.1 r hrmem (by rw [hrpath]; exact hnR)
  refine ⟨r, hrmem2, hrpath, ?_, ?_⟩
  · intro c hc2 hcp
    rcases hEv.2.1 c hc2 with hold | ⟨hR, _⟩
    · exact hchild c hold hcp
    · rcases hInv2.parentOk c hc2 _ hcp with ⟨pd, hpd, hpdid, hcne, hcdrop⟩
      have hpdr : pd = r := key_inj hInv2.dirIds hpd hrmem2 hpdid
      have hcp2a : q ++ [c.path.getLast hcne] = c.path := by
        rw [show q = c.path.dropLast from by rw [← hcdrop, hpdr, hrpath]]
        exact List.dropLast_append_getLast hcne
      refine ⟨c.path.getLast hcne, hcp2a.symm, ?_⟩
      apply hc
      rw [hcp2a]
      exact hR
  · intro hne
    refine syncedFilesM_mono hEv hInv hInv2 ⟨r, hrmem, rfl, hrpath⟩ hnR ?_ (hfile hne)
    intro e he
    exact hflsSS e (List.mem_of_mem_filter he)

mutual

theorem syncedTree_mono (vD vF : String → Bool) (ss : List Stat)
    (R : List String → Prop) :
    ∀ (t : FSTree) (q : List String) (db db2 : DB),
      EvolvesR ss R db db2 → DBInv db → DBInv db2 →
      (∀ st ∈ treeStats t, st ∈ ss) →
      (∀ x, UnderEq q x → ¬ R x) →
      SyncedTree vD vF db q t → SyncedTree vD vF db2 q t
  | .node fls subs, q, db, db2 => by
    intro hEv hInv hInv2 hss hdisj h
    unfold SyncedTree at h ⊢
    obtain ⟨hd, hl⟩ := h
    constructor
    · refine syncedDirNode_mono hEv hInv hInv2 (hdisj q (underEq_refl q)) ?_ ?_ hd
      · intro n hR
        exact absurd hR (hdisj (q ++ [n]) ⟨[n], rfl⟩)
      · intro e he
        refine hss e.2 ?_
        unfold treeStats
        exact List.mem_append_left _ (List.mem_map_of_mem _ he)
    · refine syncedList_mono vD vF ss R subs q db db2 hEv hInv hInv2 ?_ hdisj hl
      intro st hst
      refine hss st ?_
      unfold treeStats
      exact List.mem_append_right _ hst

theorem syncedList_mono (vD vF : String → Bool) (ss : List Stat)
    (R : List String → Prop) :
    ∀ (l : FSList) (q : List String) (db db2 : DB),
      EvolvesR ss R db db2 → DBInv db → DBInv db2 →
      (∀ st ∈ listStats l, st ∈ ss) →
      (∀ x, UnderEq q x → ¬ R x) →
      SyncedList vD vF db q l → SyncedList vD vF db2 q l
  | .nil, q, db, db2 => by
    intro _ _ _ _ _ _
    unfold SyncedList
    trivial
  | .cons n t rest, q, db, db2 => by
    intro hEv hInv hInv2 hss hdisj h
    unfold SyncedList at h ⊢
    obtain ⟨h1, h2⟩ := h
    constructor
    · intro hv
      refine syncedTree_mono vD vF ss R t (q ++ [n]) db db2 hEv hInv hInv2 ?_ ?_ (h1 hv)
      · intro st hst
        refine hss st ?_
        unfold listStats
        exact List.mem_append_left _ hst
      · intro x hx
        exact hdisj x (underEq_trans ⟨[n], rfl⟩ hx)
    · refine syncedList_mono vD vF ss R rest q db db2 hEv hInv hInv2 ?_ hdisj h2
      intro st hst
      refine hss st ?_
      unfold listStats
      exact List.mem_append_right _ hst

end


theorem underEq_sibling_eq {p : List String} {m n : String}
    (h : UnderEq (p ++ [m]) (p ++ [n])) : m = n := by
  rcases h with ⟨s, hs⟩
  rw [List.append_assoc] at hs
  have h2 := List.append_cancel_left hs
  simp only [List.cons_append, List.nil_append, List.cons.injEq] at h2
  exact h2.1

theorem not_underEq_extend (p : List String) (m : String) : ¬ UnderEq (p ++ [m]) p := by
  intro h
  have h2 := underEq_length h
  rw [List.length_append, List.length_cons, List.length_nil] at h2
  omega

mutual

theorem walk_est_tree (vD vF : String → Bool) (ss : List Stat) :
    ∀ (t : FSTree) (db : DB) (p : List String),
      DBInv db → SC ss →
      (∀ st ∈ treeStats t, st ∈ ss) →
      wfTree t = true →
      (p = [] ∨ ∃ rp ∈ db.dirs, rp.path = p.dropLast) →
      DBInv (walkTreePlain vD vF db p t) ∧
      SyncedTree vD vF (walkTreePlain vD vF db p t) p t ∧
      EvolvesR ss (fun x => UnderEq p x) db (walkTreePlain vD vF db p t) ∧
      (∃ r ∈ (walkTreePlain vD vF db p t).dirs, r.path = p)
  | .node fls subs, db, p => by
    intro hInv hsc hss hwf hpar
    have hflsSS : ∀ e ∈ fls, e.2 ∈ ss := by
      intro e he
      refine hss e.2 ?_
      unfold treeStats
      exact List.mem_append_left _ (List.mem_map_of_mem _ he)
    have hsubSS : ∀ st ∈ listStats subs, st ∈ ss := by
      intro st hst
      refine hss st ?_
      unfold treeStats
      exact List.mem_append_right _ hst
    unfold wfTree at hwf
    simp only [Bool.and_eq_true, decide_eq_true_eq] at hwf
    obtain ⟨⟨⟨⟨hnd1, hnd2⟩, _⟩, _⟩, hwl⟩ := hwf
    obtain ⟨sInv, sSDN, sEv, sRow⟩ :=
      @scan_directory_spec ss vD vF db p fls (fsNames subs)
        hsc hflsSS hnd1 hInv hpar
    unfold walkTreePlain
    obtain ⟨lInv, lSL, lEv, lRow⟩ :=
      walk_est_list vD vF ss subs (scan_directory_plain vD vF db p fls (fsNames subs)) p
        sInv hsc hsubSS hwl hnd2 sRow
    refine ⟨lInv, ?_, ?_, lRow⟩
    · unfold SyncedTree
      constructor
      · refine syncedDirNode_mono lEv sInv lInv ?_ ?_ hflsSS sSDN
        · rintro ⟨m, _, _, hu⟩
          exact not_underEq_extend p m hu
        · rintro n ⟨m, hmm, hvm, hu⟩
          have hmn : m = n := underEq_sibling_eq hu
          subst hmn
          exact List.mem_filter.mpr ⟨hmm, hvm⟩
      · exact lSL
    · refine evolvesR_trans hInv sInv lInv sEv (evolvesR_mono lEv ?_)
      rintro x ⟨m, _, _, hu⟩
      exact underEq_trans ⟨[m], rfl⟩ hu

theorem walk_est_list (vD vF : String → Bool) (ss : List Stat) :
    ∀ (l : FSList) (db : DB) (p : List String),
      DBInv db → SC ss →
      (∀ st ∈ listStats l, st ∈ ss) →
      wfList l = true →
      (fsNames l).Nodup →
      (∃ r ∈ db.dirs, r.path = p) →
      DBInv (walkListPlain vD vF db p l) ∧
      SyncedList vD vF (walkListPlain vD vF db p l) p l ∧
      EvolvesR ss (fun x => ∃ m, m ∈ fsNames l ∧ vD m = true ∧ UnderEq (p ++ [m]) x)
        db (walkListPlain vD vF db p l) ∧
      (∃ r ∈ (walkListPlain vD vF db p l).dirs, r.path = p)
  | .nil, db, p => by
    intro hInv _ _ _ _ hrow
    refine ⟨hInv, ?_, evolvesR_refl _ _ _, hrow⟩
    unfold SyncedList
    trivial
  | .cons n t rest, db, p => by
    intro hInv hsc hss hwl hnd hrow
    unfold wfList at hwl
    rw [Bool.and_eq_true] at hwl
    obtain ⟨hwt, hwrest⟩ := hwl
    have hndc : ¬ n ∈ fsNames rest ∧ (fsNames rest).Nodup := by
      have h2 : fsNames (FSList.cons n t rest) = n :: fsNames rest := rfl
      rw [h2, List.nodup_cons] at hnd
      exact hnd
    have htSS : ∀ st ∈ treeStats t, st ∈ ss := by
      intro st hst
      refine hss st ?_
      unfold listStats
      exact List.mem_append_left _ hst
    have hrSS : ∀ st ∈ listStats rest, st ∈ ss := by
      intro st hst
      refine hss st ?_
      unfold listStats
      exact List.mem_append_right _ hst
    unfold walkListPlain
    by_cases hv : vD n = true
    · rw [if_pos hv]
      obtain ⟨tInv, tST, tEv, tRow⟩ :=
        walk_est_tree vD vF ss t db (p ++ [n]) hInv hsc htSS hwt
          (by
            refine Or.inr ?_
            obtain ⟨r, hr, hrp⟩ := hrow
            exact ⟨r, hr, by rw [List.dropLast_concat]; exact hrp⟩)
      have tRowP : ∃ r ∈ (walkTreePlain vD vF db (p ++ [n]) t).dirs, r.path = p := by
        obtain ⟨r, hr, hrp⟩ := hrow
        refine ⟨r, ?_, hrp⟩
        refine tEv.1 r hr ?_
        rw [hrp]
        exact not_underEq_extend p n
      obtain ⟨lInv, lSL, lEv, lRow⟩ :=
        walk_est_list vD vF ss rest (walkTreePlain vD vF db (p ++ [n]) t) p
          tInv hsc hrSS hwrest hndc.2 tRowP
      refine ⟨lInv, ?_, ?_, lRow⟩
      · unfold SyncedList
        constructor
        · intro _
          refine syncedTree_mono vD vF ss _ t (p ++ [n]) _ _ lEv tInv lInv htSS ?_ tST
          rintro x hx ⟨m, hmm, hvm, hu⟩
          exact underEq_siblings (fun he => hndc.1 (by rw [he]; exact hmm)) hx hu
        · exact lSL
      · refine evolvesR_trans hInv tInv lInv (evolvesR_mono tEv ?_) (evolvesR_mono lEv ?_)
        · intro x hx
          exact ⟨n, List.mem_cons_self _ _, hv, hx⟩
        · rintro x ⟨m, hmm, hvm, hu⟩
          exact ⟨m, List.mem_cons_of_mem _ hmm, hvm, hu⟩
    · rw [if_neg hv]
      obtain ⟨lInv, lSL, lEv, lRow⟩ :=
        walk_est_list vD vF ss rest db p hInv hsc hrSS hwrest hndc.2 hrow
      refine ⟨lInv, ?_, ?_, lRow⟩
      · unfold SyncedList
        constructor
        · intro hv2
          exact absurd hv2 hv
        · exact lSL
      · refine evolvesR_mono lEv ?_
        rintro x ⟨m, hmm, hvm, hu⟩
        exact ⟨m, List.mem_cons_of_mem _ hmm, hvm, hu⟩

end


theorem filter_idem {α : Type} (l : List α) (p : α → Bool) :
    (l.filter p).filter p = l.filter p := by
  induction l with
  | nil => rfl
  | cons a t ih =>
    cases hp : p a with
    | true =>
      rw [List.filter_cons_of_pos hp, List.filter_cons_of_pos hp, ih]
    | false =>
      rw [List.filter_cons_of_neg (by simp [hp])]
      exact ih

theorem find?_filter_keep {α : Type} {l : List α} {p keep : α → Bool} {o : α}
    (hf : l.find? p = some o) (hk : keep o = true) :
    (l.filter keep).find? p = some o := by
  induction l with
  | nil => exact absurd hf (by simp)
  | cons a t ih =>
    cases hpa : p a with
    | true =>
      rw [List.find?_cons_of_pos _ hpa] at hf
      have hao : a = o := by
        injection hf
      subst hao
      rw [List.filter_cons_of_pos hk, List.find?_cons_of_pos _ hpa]
    | false =>
      rw [List.find?_cons_of_neg _ (by simp [hpa])] at hf
      cases hka : keep a with
      | true =>
        rw [List.filter_cons_of_pos hka, List.find?_cons_of_neg _ (by simp [hpa])]
        exact ih hf
      | false =>
        rw [List.filter_cons_of_neg (by simp [hka])]
        exact ih hf

theorem ddo_frame (db : DB) :
    (delete_dangled_objects db).dirs = db.dirs ∧
    (delete_dangled_objects db).files = db.files ∧
    (delete_dangled_objects db).nextDir = db.nextDir ∧
    (delete_dangled_objects db).nextFile = db.nextFile := by
  unfold delete_dangled_objects
  exact ⟨rfl, rfl, rfl, rfl⟩

theorem ddo_inv {db : DB} (hInv : DBInv db) : DBInv (delete_dangled_objects db) := by
  rcases ddo_frame db with ⟨hd, hf, hnd, hnf⟩
  have hsub : (delete_dangled_objects db).objects.Sublist db.objects := by
    unfold delete_dangled_objects
    exact List.filter_sublist _
  refine ⟨?_, ?_, ?_, (hsub.map _).nodup hInv.objIds, ?_, ?_, ?_, ?_, ?_⟩
  · rw [hd]; exact hInv.dirIds
  · rw [hd]; exact hInv.dirPaths
  · rw [hf]; exact hInv.fileIds
  · rw [hd]; exact hInv.parentOk
  · rw [hd, hnd]; exact hInv.dirFresh
  · rw [hf, hnf]; exact hInv.fileFresh
  · rw [hf, hd]; exact hInv.fileFK
  · rw [hf]; exact hInv.fileNames

theorem ddo_objFact {db : DB} {f : FileRow} (hf : f ∈ db.files)
    {oid : String} (hoid : f.object_id = some oid) {sz mt : Nat}
    (hfact : ObjFact db oid sz mt) : ObjFact (delete_dangled_objects db) oid sz mt := by
  rcases hfact with ⟨o, hfind, hsz, hmt⟩
  have hfs := List.find?_some hfind
  have hoido : o.id = oid := of_decide_eq_true hfs
  have hkeep : (!(notInTrue (some o.id) (db.files.map (fun f => f.object_id)))) = true := by
    have href : some oid ∈ db.files.map (fun f => f.object_id) := by
      rw [← hoid]
      exact List.mem_map_of_mem _ hf
    rw [Bool.not_eq_true']
    cases hall : notInTrue (some o.id) (db.files.map (fun f => f.object_id)) with
    | false => rfl
    | true =>
      exfalso
      unfold notInTrue at hall
      have h2 := List.all_eq_true.mp hall (some oid) href
      simp only at h2
      rw [hoido] at h2
      simp at h2
  refine ⟨o, ?_, hsz, hmt⟩
  show ((delete_dangled_objects db).objects.find? (fun x => x.id = oid)) = some o
  unfold delete_dangled_objects
  exact find?_filter_keep hfind hkeep

theorem ddo_syncedFilesM {db : DB} {i : Nat} {fls : List (String × Stat)}
    (h : SyncedFilesM db i fls) : SyncedFilesM (delete_dangled_objects db) i fls := by
  obtain ⟨h1, h2, h3⟩ := h
  rcases ddo_frame db with ⟨hd, hf, _, _⟩
  refine ⟨?_, ?_, ?_⟩
  · intro f hfm hfr
    rw [hf] at hfm
    rcases h1 f hfm hfr with ⟨st, hstm, hsync⟩
    refine ⟨st, hstm, ?_⟩
    unfold objSynced at hsync ⊢
    by_cases hreg : S_ISREG st.mode = true
    · rw [if_pos hreg] at hsync ⊢
      exact ⟨hsync.1, ddo_objFact hfm hsync.1 hsync.2⟩
    · rw [if_neg hreg] at hsync ⊢
      exact hsync
  · intro e he
    rcases h2 e he with ⟨f, hfm, hfr, hfn⟩
    refine ⟨f, ?_, hfr, hfn⟩
    rw [hf]
    exact hfm
  · intro f hfm g hgm
    rw [hf] at hfm hgm
    exact h3 f hfm g hgm

theorem ddo_syncedDirNode {vD vF : String → Bool} {db : DB} {q : List String}
    {fls : List (String × Stat)} {subNames : List String}
    (h : SyncedDirNode vD vF db q fls subNames) :
    SyncedDirNode vD vF (delete_dangled_objects db) q fls subNames := by
  obtain ⟨r, hrmem, hrpath, hchild, hfile⟩ := h
  rcases ddo_frame db with ⟨hd, _, _, _⟩
  refine ⟨r, ?_, hrpath, ?_, ?_⟩
  · rw [hd]
    exact hrmem
  · intro c hc hcp
    rw [hd] at hc
    exact hchild c hc hcp
  · intro hne
    exact ddo_syncedFilesM (hfile hne)

mutual

theorem ddo_syncedTree (vD vF : String → Bool) :
    ∀ (t : FSTree) (q : List String) (db : DB),
      SyncedTree vD vF db q t → SyncedTree vD vF (delete_dangled_objects db) q t
  | .node fls subs, q, db => by
    intro h
    unfold SyncedTree at h ⊢
    exact ⟨ddo_syncedDirNode h.1, ddo_syncedList vD vF subs q db h.2⟩

theorem ddo_syncedList (vD vF : String → Bool) :
    ∀ (l : FSList) (q : List String) (db : DB),
      SyncedList vD vF db q l → SyncedList vD vF (delete_dangled_objects db) q l
  | .nil, q, db => by
    intro _
    unfold SyncedList
    trivial
  | .cons n t rest, q, db => by
    intro h
    unfold SyncedList at h ⊢
    exact ⟨fun hv => ddo_syncedTree vD vF t (q ++ [n]) db (h.1 hv),
      ddo_syncedList vD vF rest q db h.2⟩

end

theorem ddo_idem (db : DB) :
    delete_dangled_objects (delete_dangled_objects db) = delete_dangled_objects db := by
  unfold delete_dangled_objects
  simp only []
  rw [filter_idem]


theorem refresh_id {db : DB} (hInv : DBInv db) {f0 : FileRow} {st0 : Stat}
    (hsync : objSynced db f0 st0) :
    update_file (ensure_object db st0 none (objOf db f0)).1 f0
      ((ensure_object db st0 none (objOf db f0)).2.map (fun o => o.id)) = db := by
  unfold objSynced at hsync
  by_cases hreg : S_ISREG st0.mode = true
  · rw [if_pos hreg] at hsync
    obtain ⟨hoid, hfact⟩ := hsync
    unfold ObjFact at hfact
    obtain ⟨o, hfind, hsz, hmt⟩ := hfact
    have hfs := List.find?_some hfind
    have hoido : o.id = oid_of st0 := of_decide_eq_true hfs
    have homem : o ∈ db.objects := List.mem_of_find?_eq_some hfind
    have hres : resolveObj db (oid_of st0) (objOf db f0) = some o := by
      rw [resolveObj_objOf]
      exact hfind
    by_cases hh : o.hash = none
    · have hcond : o.modified ≠ st0.mtime ∨ o.size ≠ st0.size ∨ o.hash = none :=
        Or.inr (Or.inr hh)
      rw [ensure_object_update hreg hres hcond none]
      have hmap : db.objects.map (fun x => if x.id = o.id then
          { x with modified := st0.mtime, size := st0.size, hash := none } else x) =
          db.objects := by
        have hpt : ∀ x ∈ db.objects, (if x.id = o.id then
            { x with modified := st0.mtime, size := st0.size, hash := none } else x)
            = x := by
          intro x hx
          by_cases hxid : x.id = o.id
          · rw [if_pos hxid]
            have hxo : x = o := key_inj hInv.objIds hx homem hxid
            rw [hxo, ← hmt, ← hsz, ← hh]
          · rw [if_neg hxid]
        rw [List.map_congr_left hpt]
        simp
      have hdb : ({ db with objects := db.objects.map (fun x => if x.id = o.id then
          { x with modified := st0.mtime, size := st0.size, hash := none } else x) }
            : DB) = db := by
        rw [hmap]
      rw [hdb]
      have hcondeq : f0.object_id = some (({ o with modified := st0.mtime, size := st0.size, hash := none } : ObjRow).id) := by
        show f0.object_id = some o.id
        rw [hoid, hoido]
      show update_file db f0 (some (({ o with modified := st0.mtime, size := st0.size, hash := none } : ObjRow).id)) = db
      unfold update_file
      rw [if_pos hcondeq]
    · rw [ensure_object_skip hreg hres hmt hsz hh none]
      show update_file db f0 (some o.id) = db
      have hcondeq : f0.object_id = some o.id := by
        rw [hoid, hoido]
      unfold update_file
      rw [if_pos hcondeq]
  · rw [if_neg hreg] at hsync
    have hnr : S_ISREG st0.mode = false := by
      cases h : S_ISREG st0.mode
      · rfl
      · exact absurd h hreg
    rw [ensure_object_nonreg hnr none (objOf db f0)]
    show update_file db f0 none = db
    unfold update_file
    rw [if_pos hsync]

theorem childDel_fold_id (p : List String) (ds : List String) :
    ∀ (cs : List DirRow) (dbA : DB),
      (∀ c ∈ cs, ds.contains (joinPath (relpathComp c.path p)) = true) →
      cs.foldl (childDelStep p ds) dbA = dbA := by
  intro cs
  induction cs with
  | nil => intro dbA _; rfl
  | cons c0 rest ih =>
    intro dbA hall
    rw [List.foldl_cons]
    have hstep : childDelStep p ds dbA c0 = dbA := by
      unfold childDelStep
      rw [if_pos (hall c0 (List.mem_cons_self _ _))]
    rw [hstep]
    exact ih dbA (fun c hc => hall c (List.mem_cons_of_mem _ hc))

theorem scanDirPhase1_stable {vD : String → Bool} {db : DB} {p : List String}
    {subNames : List String} {r : DirRow} (hInv : DBInv db)
    (hget : get_directory db p = some r)
    (hchild : ∀ c ∈ db.dirs, c.parent_id = some r.id →
      ∃ n, c.path = p ++ [n] ∧ n ∈ subNames.filter vD) :
    scanDirPhase1 vD db p subNames = db := by
  unfold scanDirPhase1
  rw [ensure_directory_found hget (scanParent db p)]
  show (childrenOf db r.id).foldl (childDelStep p (subNames.filter vD)) db = db
  apply childDel_fold_id
  intro c hc
  rcases List.mem_filter.mp hc with ⟨hcmem, hcpar⟩
  have hcp : c.parent_id = some r.id := of_decide_eq_true hcpar
  rcases hchild c hcmem hcp with ⟨n, hcpath, hnmem⟩
  rw [hcpath, relpath_child, joinPath_single]
  exact containsB_iff.mpr hnmem

theorem rec1_stable {db : DB} {rid : Nat} {fls : List (String × Stat)}
    (hInv : DBInv db) (hflsnd : (fls.map (fun e => e.1)).Nodup)
    (hu : ∀ f ∈ db.files, ∀ g ∈ db.files, f.path_id = rid → g.path_id = rid →
      f.name = g.name → f = g)
    (hs1 : ∀ f ∈ db.files, f.path_id = rid →
      ∃ st, (f.name, st) ∈ fls ∧ objSynced db f st) :
    ∀ (toGo : List FileRow) (rem : List String),
      (∀ f ∈ toGo, f ∈ db.files ∧ f.path_id = rid) →
      (toGo.map (fun f => f.id)).Nodup →
      rem.Nodup →
      (∀ n, n ∈ rem ↔ ∃ f ∈ toGo, f.name = n) →
      toGo.foldl (reconcileStep fls) (db, rem) = (db, []) := by
  intro toGo
  induction toGo with
  | nil =>
    intro rem _ _ _ hiff
    have hremnil : rem = [] := by
      rw [List.eq_nil_iff_forall_not_mem]
      intro n hn
      rcases (hiff n).mp hn with ⟨f, hf, _⟩
      exact List.not_mem_nil _ hf
    rw [hremnil]
    rfl
  | cons f0 rest ih =>
    intro rem htg htgnd hremnd hiff
    obtain ⟨hf0mem, hf0rid⟩ := htg f0 (List.mem_cons_self _ _)
    have hn0 : f0.name ∈ rem := (hiff _).mpr ⟨f0, List.mem_cons_self _ _, rfl⟩
    have hcont : rem.contains f0.name = true := containsB_iff.mpr hn0
    rcases hs1 f0 hf0mem hf0rid with ⟨st0, hst0m, hsync⟩
    have hstat : statOf fls f0.name = st0 := statOf_mem hflsnd hst0m
    rw [List.foldl_cons]
    have hstep : reconcileStep fls (db, rem) f0 = (db, rem.erase f0.name) := by
      unfold reconcileStep
      dsimp only
      rw [if_pos hcont, hstat, refresh_id hInv hsync]
    rw [hstep]
    refine ih (rem.erase f0.name) ?_ ?_ (hremnd.erase _) ?_
    · intro f hf
      exact htg f (List.mem_cons_of_mem _ hf)
    · have h2 := htgnd
      simp only [List.map_cons, List.nodup_cons] at h2
      exact h2.2
    · intro n
      constructor
      · intro hn
        have h2 := (List.Nodup.mem_erase_iff hremnd).mp hn
        rcases (hiff n).mp h2.2 with ⟨f, hfm, hfn⟩
        rcases List.mem_cons.mp hfm with he | he
        · exfalso
          apply h2.1
          rw [← hfn, he]
        · exact ⟨f, he, hfn⟩
      · rintro ⟨f, hfm, hfn⟩
        have hfmem := htg f (List.mem_cons_of_mem _ hfm)
        refine (List.Nodup.mem_erase_iff hremnd).mpr
          ⟨?_, (hiff n).mpr ⟨f, List.mem_cons_of_mem _ hfm, hfn⟩⟩
        intro he
        have hff0 : f = f0 := hu f hfmem.1 f0 hf0mem hfmem.2 hf0rid (by rw [hfn, he])
        rw [hff0] at hfm
        have h2 := htgnd
        simp only [List.map_cons, List.nodup_cons] at h2
        exact h2.1 (List.mem_map_of_mem _ hfm)

theorem scan_files_stable {db : DB} {rid : Nat} {fls : List (String × Stat)}
    (hInv : DBInv db) (hsf : SyncedFilesM db rid fls)
    (hflsnd : (fls.map (fun e => e.1)).Nodup) :
    scan_files db rid fls (sortBy nameLe (fls.map (fun e => e.1))) = db := by
  obtain ⟨h1, h2, h3⟩ := hsf
  unfold scan_files
  have hLp : List.Perm (dbFilesOf db rid)
      (db.files.filter (fun f => f.path_id = rid)) := by
    unfold dbFilesOf
    exact sortBy_perm _ _
  have hNp : List.Perm (sortBy nameLe (fls.map (fun e => e.1)))
      (fls.map (fun e => e.1)) := sortBy_perm _ _
  have hfold : (dbFilesOf db rid).foldl (reconcileStep fls)
      (db, sortBy nameLe (fls.map (fun e => e.1))) = (db, []) := by
    refine rec1_stable hInv hflsnd h3 h1 (dbFilesOf db rid) _ ?_ ?_ ?_ ?_
    · intro f hf
      have hmem := hLp.mem_iff.mp hf
      rcases List.mem_filter.mp hmem with ⟨hm, hp⟩
      exact ⟨hm, of_decide_eq_true hp⟩
    · have hsubl : (db.files.filter (fun f => f.path_id = rid)).Sublist db.files :=
        List.filter_sublist _
      have hnd2 : ((db.files.filter (fun f => f.path_id = rid)).map
          (fun f => f.id)).Nodup := (hsubl.map _).nodup hInv.fileIds
      exact ((hLp.map _).nodup_iff).mpr hnd2
    · exact (hNp.nodup_iff).mpr hflsnd
    · intro n
      constructor
      · intro hn
        have hn2 := hNp.mem_iff.mp hn
        rcases List.mem_map.mp hn2 with ⟨e, hem, hen⟩
        rcases h2 e hem with ⟨f, hfm, hfr, hfn⟩
        refine ⟨f, ?_, by rw [hfn, hen]⟩
        apply hLp.mem_iff.mpr
        exact List.mem_filter.mpr ⟨hfm, by simpa using hfr⟩
      · rintro ⟨f, hfm, hfn⟩
        have hmem := hLp.mem_iff.mp hfm
        rcases List.mem_filter.mp hmem with ⟨hm, hp⟩
        rcases h1 f hm (of_decide_eq_true hp) with ⟨st, hstm, _⟩
        apply hNp.mem_iff.mpr
        rw [← hfn]
        exact List.mem_map_of_mem _ hstm
  rw [hfold]
  rfl

theorem scan_directory_stable {vD vF : String → Bool} {db : DB} {p : List String}
    {fls : List (String × Stat)} {subNames : List String}
    (hInv : DBInv db)
    (hflsnd : (fls.map (fun e => e.1)).Nodup)
    (hsdn : SyncedDirNode vD vF db p fls subNames) :
    scan_directory_plain vD vF db p fls subNames = db := by
  obtain ⟨r, hrmem, hrpath, hchild, hfile⟩ := hsdn
  have hget : get_directory db p = some r := by
    rw [← hrpath]
    exact get_directory_of_mem hInv.dirPaths hrmem
  have hph1 : scanDirPhase1 vD db p subNames = db :=
    scanDirPhase1_stable hInv hget hchild
  unfold scan_directory_plain
  by_cases hemp : (fls.filter (fun e => vF e.1)).length = 0
  · rw [if_pos hemp]
    exact hph1
  · rw [if_neg hemp]
    have hne : fls.filter (fun e => vF e.1) ≠ [] := by
      intro h
      exact hemp (by rw [h]; rfl)
    have hsfM := hfile hne
    have hflsnd2 : ((fls.filter (fun e => vF e.1)).map (fun e => e.1)).Nodup :=
      ((List.filter_sublist _).map _).nodup hflsnd
    rw [hph1, ensure_directory_found hget (scanParent db p)]
    show scan_files db r.id (fls.filter (fun e => vF e.1))
      (sortBy nameLe ((fls.filter (fun e => vF e.1)).map (fun e => e.1))) = db
    exact scan_files_stable hInv hsfM hflsnd2

mutual

theorem walk_stable_tree (vD vF : String → Bool) :
    ∀ (t : FSTree) (db : DB) (p : List String),
      DBInv db → wfTree t = true →
      SyncedTree vD vF db p t →
      walkTreePlain vD vF db p t = db
  | .node fls subs, db, p => by
    intro hInv hwf hst
    unfold SyncedTree at hst
    obtain ⟨hsdn, hsl⟩ := hst
    unfold wfTree at hwf
    simp only [Bool.and_eq_true, decide_eq_true_eq] at hwf
    obtain ⟨⟨⟨⟨hnd1, _⟩, _⟩, _⟩, hwl⟩ := hwf
    unfold walkTreePlain
    rw [scan_directory_stable hInv hnd1 hsdn]
    exact walk_stable_list vD vF subs db p hInv hwl hsl

theorem walk_stable_list (vD vF : String → Bool) :
    ∀ (l : FSList) (db : DB) (p : List String),
      DBInv db → wfList l = true →
      SyncedList vD vF db p l →
      walkListPlain vD vF db p l = db
  | .nil, db, p => by
    intro _ _ _
    rfl
  | .cons n t rest, db, p => by
    intro hInv hwl hsl
    unfold SyncedList at hsl
    obtain ⟨h1, h2⟩ := hsl
    unfold wfList at hwl
    rw [Bool.and_eq_true] at hwl
    unfold walkListPlain
    by_cases hv : vD n = true
    · rw [if_pos hv, walk_stable_tree vD vF t db (p ++ [n]) hInv hwl.1 (h1 hv)]
      exact walk_stable_list vD vF rest db p hInv hwl.2 h2
    · rw [if_neg hv]
      exact walk_stable_list vD vF rest db p hInv hwl.2 h2

end


/-- The marker-free core of idempotence: against an unchanged,
well-formed live tree and a store satisfying the schema's declared
constraints, running the plain (import-free) scan a second time leaves
every Directory, File and Object row exactly as the first run left
them. -/
theorem scanPlain_idempotent (vD vF : String → Bool) (fs : FSTree) (db : DB)
    (hfs : wfFS fs = true) (hdb : wfDB db = true) :
    scanPlain vD vF fs (scanPlain vD vF fs db) = scanPlain vD vF fs db := by
  unfold wfFS at hfs
  rw [Bool.and_eq_true] at hfs
  have hwt := hfs.1
  have hsc : SC (treeStats fs) := sc_of_statsConsistent hfs.2
  have hInv : DBInv db := dbInv_of_wfDB hdb
  obtain ⟨wInv, wST, _, _⟩ :=
    walk_est_tree vD vF (treeStats fs) fs db [] hInv hsc (fun _ h => h) hwt (Or.inl rfl)
  have h2Inv : DBInv (scanPlain vD vF fs db) := by
    unfold scanPlain
    exact ddo_inv wInv
  have h2ST : SyncedTree vD vF (scanPlain vD vF fs db) [] fs := by
    unfold scanPlain
    exact ddo_syncedTree vD vF fs [] _ wST
  have hst : walkTreePlain vD vF (scanPlain vD vF fs db) [] fs = scanPlain vD vF fs db :=
    walk_stable_tree vD vF fs (scanPlain vD vF fs db) [] h2Inv hwt h2ST
  show delete_dangled_objects (walkTreePlain vD vF (scanPlain vD vF fs db) [] fs) =
    scanPlain vD vF fs db
  rw [hst]
  show delete_dangled_objects (delete_dangled_objects (walkTreePlain vD vF db [] fs)) =
    delete_dangled_objects (walkTreePlain vD vF db [] fs)
  exact ddo_idem _

/-- C1 (amended): scan is idempotent on marker-free trees — against an
unchanged, well-formed live tree (distinct plain names per listing,
physically consistent stats) none of whose visited non-root
directories carries a nested-index marker, and a store satisfying the
schema's declared constraints, a second scan completes and leaves
every Directory, File and Object row exactly as the first run left
them.  (With a marker the re-import of a surviving identity can kill
the second run: `scan_marker_counterexample`.) -/
theorem scan_idempotent (vD vF : String → Bool)
    (nf : List String → List ObjRow) (fs : FSTree) (db : DB)
    (hfs : wfFS fs = true) (hdb : wfDB db = true)
    (hmf : scanMarkerFree vD fs = true) :
    (scan vD vF nf fs db).bind (scan vD vF nf fs) = scan vD vF nf fs db := by
  rw [scan_nm vD vF nf fs db hmf, Option.some_bind,
    scan_nm vD vF nf fs (scanPlain vD vF fs db) hmf,
    scanPlain_idempotent vD vF fs db hfs hdb]

theorem scan_idempotent_witness :
    wfFS fsC2 = true ∧ wfDB dbC3 = true ∧
    scanMarkerFree allNames fsC2 = true ∧
    (scan allNames allNames (fun _ => []) fsC2 dbC3).bind
        (scan allNames allNames (fun _ => []) fsC2) =
      scan allNames allNames (fun _ => []) fsC2 dbC3 :=
  ⟨by decide, by decide, by decide,
    scan_idempotent allNames allNames (fun _ => []) fsC2 dbC3
      (by decide) (by decide) (by decide)⟩

end Dupler
